import Mathlib

/-!
Verification of the constant-time modular arithmetic library (package
`safenum`/`saferith`).  The definitions below are a shallow embedding of the
Go source: every function is translated from the corresponding source
function, with machine words (`Nat = uint`) modelled as `Nat` together with
explicit reductions `% 2 ^ _W`, and in-place slice mutation modelled by
returning the new slice contents.  Fixed platform parameters: we take the
64-bit platform (`_W = 64`, `_S = 8`), the setting the source's constants
take from `bits.UintSize`.

Conventions used throughout:
* a Go function `f(z, x []Nat) (c Nat)` that writes `z` becomes a Lean
  function returning the pair of the new `z` and `c`;
* Go's `big.Int` bridge values are modelled by their numeric value (`Nat`);
* a Go `panic` is modelled by returning `none` from an `Option`;
* Go pointer equality `x.reduced == m` on immutable `Modulus` values is
  modelled by structural equality of the modulus data (pointer-equal values
  are structurally equal, and the two coincide observationally under the
  well-formedness invariant `SNat.WF`);
* Go `for` loops become structural recursions on an explicit counter or on
  the list being traversed; the loop correspondence is noted at each
  definition.
-/

namespace Saferith

/-- Source: num.go:14-17 with `bits.UintSize = 64`: the number of bits in a Nat. -/
def _W : Nat := 64

/-- Source: num.go:14-17: the number of bytes in a Nat, `_S = _W / 8`. -/
def _S : Nat := 8

/-- Source: bits.go:4-6 `limbCountFromBits` (the helper named `limbCount` at its
use sites in part_005): the number of limbs needed to accomodate `bits` bits. -/
def limbCount (bits : Nat) : Nat := (bits + _W - 1) / _W

/-- Modelled from the spec: `limbMask bits` is the mask for the final limb of a
Nat announcing `bits` bits, so that "all bits of the top limb beyond
`announced mod _W` are zero" (spec §3, invariant 2); when `bits` is a multiple
of `_W` the whole limb is kept (num_test.go:277 uses it as a low-bit mask).
The helper itself is absent from src/. -/
def limbMask (bits : Nat) : Nat :=
  if bits % _W = 0 then 2 ^ _W - 1 else 2 ^ (bits % _W) - 1

/-- Two's complement negation `-x` on a 64-bit word (Go unary minus on `uint`). -/
def wneg (x : Nat) : Nat := (2 ^ _W - x % 2 ^ _W) % 2 ^ _W

/-- Wrapping subtraction `x - y` on 64-bit words (Go `uint` subtraction). -/
def wsub (x y : Nat) : Nat := (x + (2 ^ _W - y % 2 ^ _W)) % 2 ^ _W

/-- Source: part_005:31-38 `ctEq`: compares x and y for equality, returning
1 if equal, and 0 otherwise. -/
def ctEq (x y : Nat) : Nat :=
  let q := x ^^^ y
  1 ^^^ ((q ||| wneg q) >>> (_W - 1))

/-- Source: part_005:43-46 `ctGt`: checks x > y, returning 1 or 0. -/
def ctGt (x y : Nat) : Nat :=
  let z := wsub y x
  (z ^^^ ((x ^^^ y) &&& (x ^^^ z))) >>> (_W - 1)

/-- Source: part_005:51-55 `ctIfElse`: selects x if v = 1, and y otherwise. -/
def ctIfElse (v : Nat) (x y : Nat) : Nat :=
  let mask := wneg v
  y ^^^ (mask &&& (y ^^^ x))

/-- Source: part_005:64-68 `ctCondCopy`: copies y into x, if v == 1, otherwise
keeps x.  The Go loop `x[i] = ctIfElse(v, y[i], x[i])` becomes a zipWith. -/
def ctCondCopy (v : Nat) (x y : List Nat) : List Nat :=
  List.zipWith (fun xi yi => ctIfElse v yi xi) x y

/-- Source: part_005:77-83 `ctCondSwap`: swaps the contents of a and b when
v == 1; returns the new pair (a, b). -/
def ctCondSwap (v : Nat) (a b : List Nat) : List Nat × List Nat :=
  (List.zipWith (fun ai bi => ctIfElse v bi ai) a b,
   List.zipWith (fun ai bi => ctIfElse v ai bi) a b)

/-- Source: part_005:118-128, the loop body of `div` for loop counter `i`
running from `_W - 1` down to 1 (the recursion counter is `i` itself).
State is `(hi, lo, quo)`. -/
def divLoop (d : Nat) : Nat → Nat → Nat → Nat → Nat × Nat × Nat
  | 0, hi, lo, quo => (hi, lo, quo)
  | i + 1, hi, lo, quo =>
    let j := _W - (i + 1)
    let w := ((hi <<< j) % 2 ^ _W) ||| (lo >>> (i + 1))
    let sel := ctEq w d ||| ctGt w d ||| (hi >>> (i + 1))
    let hi2 := (wsub w d) >>> j
    let lo2 := wsub lo ((d <<< (i + 1)) % 2 ^ _W)
    let hi' := ctIfElse sel hi2 hi
    let lo' := ctIfElse sel lo2 lo
    let quo' := ((quo ||| sel) <<< 1) % 2 ^ _W
    divLoop d i hi' lo' quo'

/-- Source: part_005:115-133 `div`: calculates the quotient and remainder of
hi:lo / d without leaking anything about the inputs. -/
def div (hi lo d : Nat) : Nat × Nat :=
  let hi := ctIfElse (ctEq hi d) 0 hi
  let (hi, lo, quo) := divLoop d (_W - 1) hi lo 0
  let sel := ctEq lo d ||| ctGt lo d ||| hi
  let quo' := quo ||| sel
  let rem := ctIfElse sel (wsub lo d) lo
  (quo', rem)

/-- Source: arith.go:30-38 `addVV` (inner: Go `bits.Add`): z = x + y limbwise
with carry chain; returns the new z and the carry out.  The carry argument
threads the Go loop's `c`. -/
def addVVc : List Nat → List Nat → Nat → List Nat × Nat
  | x :: xs, y :: ys, c =>
    let s := x + y + c
    let (zs, c') := addVVc xs ys (s / 2 ^ _W)
    (s % 2 ^ _W :: zs, c')
  | _, _, c => ([], c)

/-- Source: arith.go:30-38 `addVV`. -/
def addVV (x y : List Nat) : List Nat × Nat := addVVc x y 0

/-- Source: arith.go:45-53 `subVV` (inner: Go `bits.Sub`): z = x - y limbwise
with borrow chain; returns the new z and the final borrow. -/
def subVVc : List Nat → List Nat → Nat → List Nat × Nat
  | x :: xs, y :: ys, c =>
    let zi := (x + (2 ^ _W - (y + c))) % 2 ^ _W
    let c' := if x < y + c then 1 else 0
    let (zs, cend) := subVVc xs ys c'
    (zi :: zs, cend)
  | _, _, c => ([], c)

/-- Source: arith.go:45-53 `subVV`. -/
def subVV (x y : List Nat) : List Nat × Nat := subVVc x y 0

/-- Source: arith.go:145-147 `addVW` via `addVW_g`: z = x + y for scalar y,
returning the new z and carry (a carry chain with y as the initial carry). -/
def addVW (x : List Nat) (y : Nat) : List Nat × Nat :=
  addVVc x (List.replicate x.length 0) y

/-- Source: arith.go:149-151 `subVW` via `subVW_g`: z = x - y for scalar y,
returning the new z and borrow. -/
def subVW (x : List Nat) (y : Nat) : List Nat × Nat :=
  subVVc x (List.replicate x.length 0) y

/-- Source: arith.go:62-79 `shlVU`: left shift by `s` bits (`s < _W` at all
call sites after `s &= _W - 1`); returns the new z and the shifted-out carry.
With value V (= valueOf x below), the new contents hold `V <<< s` modulo
`2 ^ (_W * len)` and the carry is the top limb shifted out. -/
def shlVU (x : List Nat) (s : Nat) : List Nat × Nat :=
  if s = 0 then (x, 0) else
  if x = [] then ([], 0) else
  let s := s % _W
  let c := x.getLast! >>> (_W - s)
  let z := (List.range x.length).map (fun i =>
    ((x.getD i 0 <<< s) % 2 ^ _W) ||| (if i = 0 then 0 else x.getD (i - 1) 0 >>> (_W - s)))
  (z, c)

/-- Source: arith.go:90-107 `shrVU`: logical right shift by `s` bits; returns
the new z and the carry (the shifted-out bits, adjusted `_W - s` to the left). -/
def shrVU (x : List Nat) (s : Nat) : List Nat × Nat :=
  if s = 0 then (x, 0) else
  if x = [] then ([], 0) else
  let s := s % _W
  let c := (x.getD 0 0 <<< (_W - s)) % 2 ^ _W
  let z := (List.range x.length).map (fun i =>
    (x.getD i 0 >>> s) ||| ((x.getD (i + 1) 0 <<< (_W - s)) % 2 ^ _W))
  (z, c)

/-- Source: arith.go:109-114 `mulAddWWW_g` (named `mulAddWWW` there): returns
the double word `x*y + c` as (hi, lo). -/
def mulAddWWW (x y c : Nat) : Nat × Nat :=
  ((x * y + c) / 2 ^ _W, (x * y + c) % 2 ^ _W)

/-- Source: part_005:138-146 `mulSubVVW`: z -= y * x limbwise, returning the
new z and the carry. -/
def mulSubVVWc : List Nat → List Nat → Nat → Nat → List Nat × Nat
  | z :: zs, x :: xs, y, c =>
    let hi := (x * y + c) / 2 ^ _W
    let lo := (x * y + c) % 2 ^ _W
    let sub := (z + (2 ^ _W - lo)) % 2 ^ _W
    let cc : Nat := if z < lo then 1 else 0
    let (rest, cend) := mulSubVVWc zs xs y (cc + hi)
    (sub :: rest, cend)
  | _, _, _, c => ([], c)

/-- Source: part_005:138-146 `mulSubVVW`. -/
def mulSubVVW (z x : List Nat) (y : Nat) : List Nat × Nat :=
  mulSubVVWc z x y 0

/-- Source: arith.go:119-128 `addMulVVW`: z += x * y limbwise, returning the
new z and the carry.  (Per limb: total `x_i * y + z_i + c` splits into the new
limb and the next carry, matching `mulAddWWW` followed by `bits.Add`.) -/
def addMulVVWc : List Nat → List Nat → Nat → Nat → List Nat × Nat
  | z :: zs, x :: xs, y, c =>
    let t := x * y + z + c
    let (rest, cend) := addMulVVWc zs xs y (t / 2 ^ _W)
    (t % 2 ^ _W :: rest, cend)
  | _, _, _, c => ([], c)

/-- Source: arith.go:119-128 `addMulVVW`. -/
def addMulVVW (z x : List Nat) (y : Nat) : List Nat × Nat :=
  addMulVVWc z x y 0

/-- Source: part_005:1261-1267 `cmpEq`: 1 if the (same length) limbs are
equal, 0 otherwise. -/
def cmpEq (x y : List Nat) : Nat :=
  (List.zipWith ctEq x y).foldl (fun res e => res &&& e) 1

/-- Source: part_005:1270-1276 `cmpGeq`: 1 if x >= y (same length), via the
borrow of a discarded subtraction. -/
def cmpGeq (x y : List Nat) : Nat :=
  1 ^^^ (subVV x y).2

/-- Source: part_005:1281-1287 `cmpZero`: 1 if all limbs are zero. -/
def cmpZero (a : List Nat) : Nat :=
  ctEq (a.foldl (fun v ai => v ||| ai) 0) 0

/-- The numeric value of a little-endian limb sequence. -/
def valueOf : List Nat → Nat
  | [] => 0
  | w :: ws => w + 2 ^ _W * valueOf ws

/-- All entries of a limb sequence are genuine 64-bit words. -/
def wfLimbs (ls : List Nat) : Prop := ∀ w ∈ ls, w < 2 ^ _W

instance (ls : List Nat) : Decidable (wfLimbs ls) :=
  inferInstanceAs (Decidable (∀ w ∈ ls, w < 2 ^ _W))

/-- The announced length and limbs of a Nat: the data of the source `Nat`
struct except for the `reduced` claim (part_005:156-179).  A `Modulus` stores
one of these as its `nat` field. -/
structure NatData where
  announced : Nat
  limbs : List Nat
  deriving DecidableEq, Repr

/-- Source: part_005:564-572 `Modulus`: a natural number plus precomputed
values.  The inner `nat` keeps only announced length and limbs; its `reduced`
pointer is never consulted by the operations modelled here. -/
structure Modulus where
  nat : NatData
  leading : Nat
  m0inv : Nat
  even : Bool
  deriving DecidableEq, Repr

/-- Source: part_005:156-179 `Nat` (named `SNat` here because `Nat` is taken
by Lean's natural numbers): announced bit length, optional reduction claim,
and little-endian limbs. -/
structure SNat where
  announced : Nat
  reduced : Option Modulus
  limbs : List Nat
  deriving DecidableEq, Repr

/-- Go `new(Nat)`: the zero value, announced length 0 with no limbs. -/
def newNat : SNat := { announced := 0, reduced := none, limbs := [] }

/-- Source: part_005:243-248 `maskEnd`: applies the final bit mask to the last
limb of a sequence. -/
def maskEnd : List Nat → Nat → List Nat
  | [], _ => []
  | [l], bits => [l &&& limbMask bits]
  | l :: l' :: ls, bits => l :: maskEnd (l' :: ls) bits

/-- Go `copy(dst, src)`: overwrite a prefix of dst with src, keeping dst's
tail; the result has dst's length. -/
def copyInto (dst src : List Nat) : List Nat :=
  src.take dst.length ++ dst.drop src.length

/-- Source: part_005:230-240 `resizedLimbs` on a raw limb sequence: bring it
to the size for `bits` bits, with the expansion cleared and the end masked. -/
def resizedLimbsL (limbs : List Nat) (bits : Nat) : List Nat :=
  let size := limbCount bits
  maskEnd (limbs.take size ++ List.replicate (size - limbs.length) 0) bits

/-- Source: part_005:230-240 `resizedLimbs`. -/
def resizedLimbs (z : SNat) (bits : Nat) : List Nat :=
  resizedLimbsL z.limbs bits

/-- Source: part_005:268-275 `trueSize`: the limb count with leading zero
limbs removed (the Go loop steps `size` down while the top limb is zero). -/
def trueSize (limbs : List Nat) : Nat :=
  limbs.length - (limbs.reverse.takeWhile (fun w => ctEq w 0 == 1)).length

/-- Source: part_005:288-291, the byte loop of `leadingZeros`: the counter `n`
runs from 8 down to 0, visiting `i = 8 * (n - 1)` (that is `_W - 8` down
to 0 in steps of 8).  State: (stillZero, leadingZeroBytes). -/
def lzByteLoop (x : Nat) : Nat → Nat → Nat → Nat × Nat
  | 0, still, cnt => (still, cnt)
  | n + 1, still, cnt =>
    let still' := still &&& ctEq ((x >>> (8 * n)) &&& 0xFF) 0
    lzByteLoop x n still' (cnt + still')

/-- Source: part_005:297-301, the bit loop of `leadingZeros` on the first
non-zero byte: `i = n - 1` runs from 7 down to 0. -/
def lzBitLoop (b : Nat) : Nat → Nat → Nat → Nat × Nat
  | 0, still, cnt => (still, cnt)
  | n + 1, still, cnt =>
    let still' := still &&& ctEq ((b >>> n) &&& 0b1) 0
    lzBitLoop b n still' (cnt + still')

/-- Source: part_005:285-304 `leadingZeros`: the number of leading zero bits
in x, computed bytewise then bitwise. -/
def leadingZeros (x : Nat) : Nat :=
  let bytesPerLimb := _W / 8
  let leadingZeroBytes := (lzByteLoop x 8 1 0).2
  let leadingZeroBits :=
    if leadingZeroBytes < bytesPerLimb then
      let firstNonZeroByte := (x >>> (8 * (bytesPerLimb - 1 - leadingZeroBytes))) &&& 0xFF
      (lzBitLoop firstNonZeroByte 8 1 0).2
    else 0
  8 * leadingZeroBytes + leadingZeroBits

/-- Source: part_005:313-320 `TrueLen` on a raw limb sequence. -/
def trueLenLimbs (limbs : List Nat) : Nat :=
  let limbSize := trueSize limbs
  let size := limbSize * _W
  if limbSize > 0 then size - leadingZeros (limbs.getD (limbSize - 1) 0)
  else size

/-- Source: part_005:313-320 `TrueLen`: the exact number of bits needed to
represent z. -/
def TrueLen (z : SNat) : Nat := trueLenLimbs z.limbs

/-- Source: part_005:278-280 `AnnouncedLen`. -/
def AnnouncedLen (z : SNat) : Nat := z.announced

/-- Source: part_005:184-198 `checkInvariants`: internal sanity checks. -/
def checkInvariants (z : SNat) : Bool :=
  match z.reduced with
  | some m => if z.announced ≠ m.nat.announced then false else checkRest z
  | none => checkRest z
where
  checkRest (z : SNat) : Bool :=
    if z.limbs.length ≠ limbCount z.announced then false
    else if z.limbs ≠ [] ∧ z.limbs.getLast! ≠ z.limbs.getLast! &&& limbMask z.announced then false
    else true

/-- One limb packed from little-endian digits of width `w` bits (the inner
loop of `SetBytes`/`SetHex`: `z.limbs[i] |= Nat(d) << shift`). -/
def packDigitsLE (w : Nat) : List Nat → Nat
  | [] => 0
  | d :: ds => d ||| (packDigitsLE w ds <<< w)

/-- Little-endian digits of width `w` grouped into limbs of `perLimb` digits
each (the two nested loops of `SetBytes`/`SetHex`, consuming the input from
its end).  The fuel argument is the digit count, for termination. -/
def limbsFromDigitsAux (w perLimb : Nat) : Nat → List Nat → List Nat
  | _, [] => []
  | 0, _ :: _ => []
  | fuel + 1, d :: ds =>
    packDigitsLE w ((d :: ds).take perLimb) ::
      limbsFromDigitsAux w perLimb fuel ((d :: ds).drop perLimb)

/-- Little-endian digits of width `w` grouped into limbs of `perLimb` each. -/
def limbsFromDigits (w perLimb : Nat) (ds : List Nat) : List Nat :=
  limbsFromDigitsAux w perLimb ds.length ds

/-- Source: part_005:356-369 `SetBytes`: interprets a big-endian buffer,
packing the reversed bytes eight to a limb. -/
def SetBytes (_z : SNat) (buf : List Nat) : SNat :=
  { announced := 8 * buf.length
    reduced := none
    limbs := limbsFromDigits 8 _S buf.reverse }

/-- The little-endian digits of width `w` of one limb (the inner loop of
`FillBytes`: `buf[i] = byte(y); y >>= 8`). -/
def wordDigitsLE (w : Nat) (x : Nat) : List Nat :=
  (List.range (_W / w)).map (fun j => (x >>> (w * j)) % 2 ^ w)

/-- All bytes of a limb sequence, least significant first. -/
def bytesLE : List Nat → List Nat
  | [] => []
  | l :: ls => wordDigitsLE 8 l ++ bytesLE ls

/-- Source: part_005:326-349 `FillBytes`: writes the big-endian bytes of z
into a buffer of public length, zero padded, truncating silently when the
buffer is too small (the `break Outer`). -/
def FillBytes (z : SNat) (buf : List Nat) : List Nat :=
  ((bytesLE z.limbs ++ List.replicate buf.length 0).take buf.length).reverse

/-- Source: part_005:374-378 `Bytes`: big-endian bytes sized from the
announced length. -/
def Bytes (z : SNat) : List Nat :=
  FillBytes z (List.replicate ((z.announced + 7) / 8) 0)

/-- Source: part_005:388-395 `nibbleFromASCII`: converts an ASCII byte into a
4-bit value plus a validity Nat. -/
def nibbleFromASCII (ascii : Nat) : Nat × Nat :=
  let w : Nat := ascii
  let inFirstRange := ctGt w 47 &&& (1 ^^^ ctGt w 57)
  let inSecondRange := ctGt w 64 &&& (1 ^^^ ctGt w 70)
  let valid := inFirstRange ||| inSecondRange
  let nibble := ctIfElse inFirstRange (wsub w 48) ((wsub w 65 + 0xA) % 2 ^ _W)
  (nibble % 2 ^ 8, valid)

/-- The nibble values of a reversed hex string, failing at the first invalid
byte encountered (the scan order of `SetHex`, which walks `hexI` from the end
of the string). -/
def nibblesLE : List Nat → Option (List Nat)
  | [] => some []
  | c :: cs =>
    let (nib, valid) := nibbleFromASCII c
    if valid = 1 then (nibblesLE cs).map (fun ds => nib :: ds) else none

/-- Source: part_005:405-422 `SetHex`: parses a big-endian hex string, sixteen
nibbles to a limb; `none` models the invalid-hex-character error return. -/
def SetHex (_z : SNat) (hex : List Nat) : Option SNat :=
  (nibblesLE hex.reverse).map fun ds =>
    { announced := 4 * hex.length
      reduced := none
      limbs := limbsFromDigits 4 (_W / 4) ds }

/-- Source: part_005:466-476 `Byte`: the i-th least significant byte; `none`
models the abort on a negative index. -/
def Byte (z : SNat) (i : Int) : Option Nat :=
  if i < 0 then none
  else
    let i := i.toNat
    let bytesPerLimb := _W / 8
    if z.limbs.length * bytesPerLimb ≤ i then some 0
    else some ((z.limbs.getD (i / bytesPerLimb) 0 >>> (8 * (i % bytesPerLimb))) % 2 ^ 8)

/-- The little-endian base-`2 ^ _W` limbs of a number (Go `big.Int.Bits()`,
used to model the `big.Int` argument of `SetBig` by its value). -/
def natToLimbs (x : Nat) : List Nat :=
  if x = 0 then []
  else x % 2 ^ _W :: natToLimbs (x / 2 ^ _W)
decreasing_by exact Nat.div_lt_self (Nat.pos_of_ne_zero (by assumption)) (by norm_num [_W])

/-- Source: part_005:496-505 `SetBig`: pad or truncate the value of x to
`size` bits.  Note that, unlike `SetBytes`, `SetHex` and `SetUint64`, this
function does not clear `z.reduced`. -/
def SetBig (z : SNat) (x : Nat) (size : Nat) : SNat :=
  { announced := size
    reduced := z.reduced
    limbs := maskEnd (copyInto (resizedLimbs z size) (natToLimbs x)) size }

/-- Source: part_005:510-519 `SetUint64`: announced length 64, one limb on
this platform. -/
def SetUint64 (_z : SNat) (x : Nat) : SNat :=
  { announced := 64, reduced := none, limbs := [x % 2 ^ _W] }

/-- Source: part_005:535-541 `SetNat`: copy x (limbs written into the
receiver's resized buffer), preserving announced length and reduction claim. -/
def SetNat (z x : SNat) : SNat :=
  { announced := x.announced
    reduced := x.reduced
    limbs := copyInto (resizedLimbs z x.announced) x.limbs }

/-- Source: part_005:551-555 `Resize`. -/
def Resize (z : SNat) (cap : Nat) : SNat :=
  { announced := cap, reduced := z.reduced, limbs := resizedLimbs z cap }

/-- Source: part_005:575-582 `invertModW`: x^-1 mod 2^_W by five Newton
iterations `y := y * (2 - x*y)`. -/
def invertModW (x : Nat) : Nat :=
  let f := fun y => (y * wsub 2 ((x * y) % 2 ^ _W)) % 2 ^ _W
  f (f (f (f (f x))))

/-- The announced length and limbs of a Nat, as stored inside a Modulus. -/
def toData (z : SNat) : NatData := { announced := z.announced, limbs := z.limbs }

/-- Source: part_005:590-605 `precomputeValues`: trim to the true length,
reject an empty modulus (the Go code aborts; modelled as `none`), record the
leading zero count, evenness, and for odd moduli `-m[0]^-1 mod 2^_W`. -/
def precomputeValues (nat : NatData) : Option Modulus :=
  let announced := trueLenLimbs nat.limbs
  let limbs := resizedLimbsL nat.limbs announced
  if limbs.length < 1 then none
  else
    let leading := leadingZeros (limbs.getD (limbs.length - 1) 0)
    let even := ctEq ((limbs.getD 0 0) &&& 1) 0 == 1
    let m0inv := if even then 0 else wneg (invertModW (limbs.getD 0 0))
    some { nat := { announced := announced, limbs := limbs }
           leading := leading, m0inv := m0inv, even := even }

/-- Source: part_005:608-613 `ModulusFromUint64`. -/
def ModulusFromUint64 (x : Nat) : Option Modulus :=
  precomputeValues (toData (SetUint64 newNat x))

/-- Source: part_005:619-625 `ModulusFromBytes`. -/
def ModulusFromBytes (bytes : List Nat) : Option Modulus :=
  precomputeValues (toData (SetBytes newNat bytes))

/-- Source: part_005:633-641 `ModulusFromHex`: the outer `Option` is the hex
parsing error, the inner one the empty-modulus abort. -/
def ModulusFromHex (hex : List Nat) : Option (Option Modulus) :=
  (SetHex newNat hex).map fun n => precomputeValues (toData n)

/-- Source: part_005:648-653 `ModulusFromNat`. -/
def ModulusFromNat (nat : SNat) : Option Modulus :=
  precomputeValues (toData (SetNat newNat nat))

/-- Source: part_005:693-695 `BitLen`: the exact number of bits used to store
this Modulus. -/
def BitLen (m : Modulus) : Nat := m.nat.announced

/-- Source: part_005:707-764 `shiftAddIn`: z := (z * 2^_W + x) mod m,
returning the quotient word q.  The limb-moving loop
`for i := size-1; i > 0; i--: z[i] = z[i-1]` followed by `z[0] = x` becomes
`x :: z.dropLast`; the two corrections reuse one scratch buffer in Go and are
two separate lets here. -/
def shiftAddIn (z : List Nat) (x : Nat) (m : Modulus) : List Nat × Nat :=
  let size := m.nat.limbs.length
  if size = 0 then (z, 0)
  else if size = 1 then
    let (q, r) := div (z.getD 0 0) x (m.nat.limbs.getD 0 0)
    (r :: z.drop 1, q)
  else
    let hi := z.getD (size - 1) 0
    let a1 := ((z.getD (size - 1) 0 <<< m.leading) % 2 ^ _W) |||
      (z.getD (size - 2) 0 >>> (_W - m.leading))
    let z1 := x :: z.dropLast
    let a0 := ((z1.getD (size - 1) 0 <<< m.leading) % 2 ^ _W) |||
      (z1.getD (size - 2) 0 >>> (_W - m.leading))
    let b0 := ((m.nat.limbs.getD (size - 1) 0 <<< m.leading) % 2 ^ _W) |||
      (m.nat.limbs.getD (size - 2) 0 >>> (_W - m.leading))
    let rawQ := (div a1 a0 b0).1
    let q := ctIfElse (ctEq a1 b0) (2 ^ _W - 1) (ctIfElse (ctEq rawQ 0) 0 (wsub rawQ 1))
    let (z2, c) := mulSubVVW z1 m.nat.limbs q
    let under := ctGt c hi
    let stillBigger := cmpGeq z2 m.nat.limbs
    let over := (1 ^^^ under) &&& (stillBigger ||| (1 ^^^ ctEq c hi))
    let z3 := ctCondCopy under z2 (addVV z2 m.nat.limbs).1
    let q := ctIfElse under (wsub q 1) q
    let z4 := ctCondCopy over z3 (subVV z3 m.nat.limbs).1
    let q := ctIfElse over ((q + 1) % 2 ^ _W) q
    (z4, q)

/-- Source: part_005:796-798, the reduction loop of `Mod` (and of `Div`):
shift in the given limbs, most significant first. -/
def shiftAddLoop (m : Modulus) : List Nat → List Nat → List Nat
  | z, [] => z
  | z, xi :: rest => shiftAddLoop m (shiftAddIn z xi m).1 rest

/-- Source: part_005:769-803 `Mod`: z := x mod m.  The fast path (Go pointer
test `x.reduced == m`, modelled structurally) copies x.  Otherwise the low
`min(size-1, len(x.limbs))` limbs of the work buffer receive the top limbs of
x directly — they cannot reach m — and the remaining limbs of x are shifted
in one at a time. -/
def Mod (z x : SNat) (m : Modulus) : SNat :=
  if x.reduced = some m then SetNat z x
  else
    let size := m.nat.limbs.length
    let xLimbs := x.limbs
    let k := min (size - 1) xLimbs.length
    let zStart := xLimbs.drop (xLimbs.length - k) ++ List.replicate (size - k) 0
    let zEnd := shiftAddLoop m zStart (xLimbs.take (xLimbs.length - k)).reverse
    { announced := m.nat.announced
      reduced := some m
      limbs := resizedLimbsL zEnd m.nat.announced }

/-- Source: part_005:880-918 `ModAdd`: reduce both inputs, add, and select the
subtracted form exactly when the add carry equals the subtract borrow. -/
def ModAdd (_z x y : SNat) (m : Modulus) : SNat :=
  let xModM := Mod newNat x m
  let yModM := Mod newNat y m
  let (s, addCarry) := addVV xModM.limbs yModM.limbs
  let (subResult, subCarry) := subVV s m.nat.limbs
  let selectSub := ctEq addCarry subCarry
  { announced := m.nat.announced
    reduced := some m
    limbs := ctCondCopy selectSub s subResult }

/-- Source: part_005:920-938 `ModSub`: reduce both inputs, subtract, and add
m back on underflow. -/
def ModSub (_z x y : SNat) (m : Modulus) : SNat :=
  let xModM := Mod newNat x m
  let yModM := Mod newNat y m
  let (d, subCarry) := subVV xModM.limbs yModM.limbs
  let underflow := ctEq subCarry 1
  { announced := m.nat.announced
    reduced := some m
    limbs := ctCondCopy underflow d (addVV d m.nat.limbs).1 }

/-- Source: part_005:941-962 `ModNeg`: reduce, subtract from zero, and add m
back on underflow. -/
def ModNeg (z x : SNat) (m : Modulus) : SNat :=
  let zm := Mod z x m
  let size := m.nat.limbs.length
  let (d, borrow) := subVV (List.replicate size 0) zm.limbs
  let underflow := ctEq borrow 1
  { announced := m.nat.announced
    reduced := some m
    limbs := ctCondCopy underflow d (addVV d m.nat.limbs).1 }

/-- Source: part_005:1110-1112, the row loop of `Mul`: row i adds `x * y_i`
into the suffix `zLimbs[i:]`; peeling the head limb (which later rows leave
unchanged) makes the suffix indexing structural. -/
def mulLoop (x : List Nat) : List Nat → List Nat → List Nat
  | z, [] => z
  | z, yi :: ys =>
    match (addMulVVWc z x yi 0).1 with
    | [] => []
    | r :: rs => r :: mulLoop x rs ys

/-- Source: part_005:1098-1118 `Mul`: schoolbook product into a fresh zeroed
buffer, truncated to `cap` bits; negative cap defaults to the sum of the
announced lengths. -/
def Mul (_z x y : SNat) (cap : Int) : SNat :=
  let cap := if cap < 0 then x.announced + y.announced else cap.toNat
  let size := limbCount cap
  let xLimbs := resizedLimbs x cap
  let yLimbs := resizedLimbs y cap
  let zLimbs := mulLoop xLimbs (List.replicate size 0) yLimbs
  { announced := cap, reduced := none, limbs := resizedLimbsL zLimbs cap }

/-- Source: part_005:1085-1091 `ModMul`: reduce both inputs, multiply to twice
the modulus bit length, reduce. -/
def ModMul (z x y : SNat) (m : Modulus) : SNat :=
  let xModM := Mod newNat x m
  let yModM := Mod newNat y m
  let z1 := Mul z xModM yModM (2 * BitLen m : Nat)
  Mod z1 z1 m

/-- Source: part_005:1005-1013 `montgomeryRepresentation` (counter form):
apply `shiftAddIn` with limb 0 `size` times, mapping z to z*R mod m. -/
def montgomeryRepresentationN (m : Modulus) : Nat → List Nat → List Nat
  | 0, z => z
  | n + 1, z => montgomeryRepresentationN m n (shiftAddIn z 0 m).1

/-- Source: part_005:1005-1013 `montgomeryRepresentation`. -/
def montgomeryRepresentation (z : List Nat) (m : Modulus) : List Nat :=
  montgomeryRepresentationN m m.nat.limbs.length z

/-- Source: part_005:1020-1024 `triple`: a three-limb accumulator. -/
structure triple where
  w0 : Nat
  w1 : Nat
  w2 : Nat
  deriving DecidableEq, Repr

/-- Source: part_005:1026-1033 `triple.add`: 192-bit add, final carry lost. -/
def triple.add (a b : triple) : triple :=
  let s0 := a.w0 + b.w0
  let s1 := a.w1 + b.w1 + s0 / 2 ^ _W
  let s2 := a.w2 + b.w2 + s1 / 2 ^ _W
  ⟨s0 % 2 ^ _W, s1 % 2 ^ _W, s2 % 2 ^ _W⟩

/-- Source: part_005:1035-1043 `tripleFromMul`: the double-word product. -/
def tripleFromMul (a b : Nat) : triple :=
  ⟨(a * b) % 2 ^ _W, (a * b) / 2 ^ _W, 0⟩

/-- Source: part_005:1062-1072, the inner (j) loop of `montgomeryMul`:
returns the j-indexed `z.w0` column outputs (the j = 0 entry is the one the
Go code drops) and the final carry pair. -/
def montInner (xi f : Nat) : List Nat → List Nat → List Nat → triple → List Nat × triple
  | s :: ss, y :: ys, mw :: ms, c =>
    let z := (((triple.mk s 0 0).add (tripleFromMul xi y)).add (tripleFromMul f mw)).add c
    let (rest, cend) := montInner xi f ss ys ms ⟨z.w1, z.w2, 0⟩
    (z.w0 :: rest, cend)
  | _, _, _, c => ([], c)

/-- Source: part_005:1059-1077, the outer (i) loop of `montgomeryMul`:
state is the scratch column and the extra limb `dh`. -/
def montOuter (y : List Nat) (m : Modulus) : List Nat → Nat → List Nat → List Nat × Nat
  | scratch, dh, [] => (scratch, dh)
  | scratch, dh, xi :: xs =>
    let f := ((scratch.getD 0 0 + xi * y.getD 0 0) * m.m0inv) % 2 ^ _W
    let (w0s, c) := montInner xi f scratch y m.nat.limbs ⟨0, 0, 0⟩
    let zend := (triple.mk dh 0 0).add c
    montOuter y m (w0s.drop 1 ++ [zend.w0]) zend.w1 xs

/-- Source: part_005:1052-1080 `montgomeryMul`: out := x*y / R mod m (CIOS),
with the final conditional subtraction of m. -/
def montgomeryMul (x y : List Nat) (m : Modulus) : List Nat :=
  let size := m.nat.limbs.length
  let (scratch, dh) := montOuter y m (List.replicate size 0) 0 x
  let (out, c) := subVV scratch m.nat.limbs
  ctCondCopy (1 ^^^ ctEq dh c) out scratch

/-- Source: part_005:1193-1197, the power table of `expOdd`: entries
x^2..x^15 in Montgomery form, each the Montgomery product of its predecessor
with x^1. -/
def powTableAux (x1 : List Nat) (m : Modulus) : List Nat → Nat → List (List Nat)
  | _, 0 => []
  | prev, n + 1 =>
    let next := montgomeryMul prev x1 m
    next :: powTableAux x1 m next n

/-- Source: part_005:1210-1213, the constant-time table lookup of `expOdd`:
every entry is scanned under a `ctEq` mask.  `init` stands for the prior
scratch contents, which only survive when the window is 0 — in which case the
product below is discarded. -/
def selectEntry (table : List (List Nat)) (window : Nat) (init : List Nat) : List Nat :=
  (List.range 15).foldl (fun acc i => ctCondCopy (ctEq window (i + 1)) acc (table.getD i [])) init

/-- Source: part_005:1203-1216, the window loop of `expOdd` over one exponent
limb: counter n + 1 stands for window shift j = 4 * n, running from
`_W - 4` down to 0. -/
def expOddLimb (m : Modulus) (table : List (List Nat)) : Nat → List Nat → Nat → List Nat
  | 0, z, _ => z
  | n + 1, z, yi =>
    let z := montgomeryMul z z m
    let z := montgomeryMul z z m
    let z := montgomeryMul z z m
    let z := montgomeryMul z z m
    let window := (yi >>> (4 * n)) &&& 0b1111
    let sel := selectEntry table window (List.replicate m.nat.limbs.length 0)
    let zMul := montgomeryMul z sel m
    expOddLimb m table n (ctCondCopy (1 ^^^ ctEq window 0) z zMul) yi

/-- Source: part_005:1201-1217, the limb loop of `expOdd` (most significant
exponent limb first). -/
def expOddLoop (m : Modulus) (table : List (List Nat)) : List Nat → List Nat → List Nat
  | z, [] => z
  | z, yi :: rest => expOddLoop m table (expOddLimb m table (_W / 4) z yi) rest

/-- Source: part_005:1173-1226 `expOdd`: 4-bit windowed exponentiation in
Montgomery form; the accumulator starts at R mod m and leaves Montgomery form
by a final multiplication with 1. -/
def expOdd (_z x y : SNat) (m : Modulus) : SNat :=
  let size := m.nat.limbs.length
  let xModM := Mod newNat x m
  let zInit := montgomeryRepresentation ((List.replicate size 0).set 0 1) m
  let x1 := montgomeryRepresentation (copyInto (List.replicate size 0) xModM.limbs) m
  let table := x1 :: powTableAux x1 m x1 14
  let zEnd := expOddLoop m table zInit y.limbs.reverse
  let zFinal := montgomeryMul zEnd ((List.replicate size 0).set 0 1) m
  { announced := m.nat.announced
    reduced := some m
    limbs := zFinal }

/-- Source: part_005:1238-1244, the bit loop of `expEven` over one exponent
limb: counter n + 1 stands for bit shift j = n, running from `_W` down to 0
(65 iterations). -/
def expEvenBit (xModM : SNat) (m : Modulus) : Nat → SNat → Nat → SNat
  | 0, z, _ => z
  | n + 1, z, yi =>
    let z := ModMul z z z m
    let sel := (yi >>> n) &&& 1
    let scratch := ModMul newNat z xModM m
    expEvenBit xModM m n { z with limbs := ctCondCopy sel z.limbs scratch.limbs } yi

/-- Source: part_005:1236-1245, the limb loop of `expEven`. -/
def expEvenLoop (xModM : SNat) (m : Modulus) : SNat → List Nat → SNat
  | z, [] => z
  | z, yi :: rest => expEvenLoop xModM m (expEvenBit xModM m (_W + 1) z yi) rest

/-- Source: part_005:1228-1247 `expEven`: square and multiply by `ctCondCopy`.
Note the receiver z is the starting accumulator — the source never sets it
to 1 before the loop. -/
def expEven (z x y : SNat) (m : Modulus) : SNat :=
  let xModM := Mod newNat x m
  expEvenLoop xModM m z y.limbs.reverse

/-- Source: part_005:1252-1258 `Exp`: dispatch on the parity of m. -/
def Exp (z x y : SNat) (m : Modulus) : SNat :=
  if m.even then expEven z x y m else expOdd z x y m

/-- The four working vectors of `eGCD` (part_005:1350-1424). -/
structure eGCDState where
  a : List Nat
  b : List Nat
  u : List Nat
  v : List Nat
  deriving DecidableEq, Repr

/-- Source: part_005:1394-1421, one iteration of the `eGCD` loop. -/
def eGCDStep (m halfm : List Nat) (s : eGCDState) : eGCDState :=
  let (a1, ca) := shrVU s.a 1
  let aOdd := ca >>> (_W - 1)
  let aEven := 1 ^^^ aOdd
  let (u2a, cu) := shrVU s.u 1
  let uOdd := cu >>> (_W - 1)
  let u2 := ctCondCopy uOdd u2a (addVV u2a halfm).1
  let aSmaller := 1 ^^^ cmpGeq s.a s.b
  let swap := aOdd &&& aSmaller
  let (a', b') := ctCondSwap swap s.a s.b
  let (u', v') := ctCondSwap swap s.u s.v
  let aHalf := (shrVU (subVV a' b').1 1).1
  let (uSub, subCarry) := subVV u' v'
  let uSel := ctCondCopy subCarry uSub (addVV uSub m).1
  let (uHalf, cu2) := shrVU uSel 1
  let uOdd2 := cu2 >>> (_W - 1)
  let uFinal := ctCondCopy uOdd2 uHalf (addVV uHalf halfm).1
  { a := ctCondCopy aEven aHalf a1
    b := b'
    u := ctCondCopy aEven uFinal u2
    v := v' }

/-- Source: part_005:1394 iteration count loop of `eGCD`. -/
def eGCDLoop (m halfm : List Nat) : Nat → eGCDState → eGCDState
  | 0, s => s
  | n + 1, s => eGCDLoop m halfm n (eGCDStep m halfm s)

/-- Source: part_005:1350-1424 `eGCD`: binary extended GCD returning
(d, v) with d = gcd(x, m) and v*x = d mod m, for odd m. -/
def eGCD (x m : List Nat) : List Nat × List Nat :=
  let size := m.length
  let a := copyInto (List.replicate size 0) x
  let u := (List.replicate size 0).set 0 1
  let v := List.replicate size 0
  let (hm, carry) := addVW m 1
  let halfm := ((shrVU (hm ++ [carry]) 1).1).take size
  let b := copyInto (List.replicate size 0) m
  let final := eGCDLoop m halfm (2 * _W * size - 1) { a := a, b := b, u := u, v := v }
  (final.b, final.v)

/-- Source: part_005:1465-1474 `modInverse`: the inverse of a reduced x
modulo an odd m (m passed as a plain Nat). -/
def modInverse (z x mnat : SNat) : SNat :=
  let v := (eGCD x.limbs mnat.limbs).2
  { announced := z.announced
    reduced := z.reduced
    limbs := maskEnd (copyInto (resizedLimbs z mnat.announced) v) mnat.announced }

/-- Source: part_005:1530-1540, the bit loop of `divDouble` on one dividend
limb: counter j + 1 stands for bit j; accumulates the quotient word. -/
def divDoubleBit (d : List Nat) : Nat → List Nat → Nat → Nat → List Nat × Nat
  | 0, r, _, outw => (r, outw)
  | j + 1, r, xi, outw =>
    let xij := (xi >>> j) &&& 1
    let (rs, shiftCarry) := shlVU r 1
    let r1 := match rs with
      | [] => []
      | r0 :: rest => (r0 ||| xij) :: rest
    let (scratch, subCarry) := subVV r1 d
    let sel := ctEq shiftCarry subCarry
    divDoubleBit d j (ctCondCopy sel r1 scratch) xi (((outw <<< 1) % 2 ^ _W) ||| sel)

/-- Source: part_005:1522-1541, the limb loop of `divDouble` (most
significant remaining limb first); returns the remainder state and the
quotient words little-endian. -/
def divDoubleLoop (d : List Nat) : List Nat → List Nat → List Nat × List Nat
  | r, [] => (r, [])
  | r, xi :: rest =>
    let (r1, outw) := divDoubleBit d _W r xi 0
    let (rEnd, outws) := divDoubleLoop d r1 rest
    (rEnd, outws ++ [outw])

/-- Source: part_005:1503-1543 `divDouble`: shift-and-subtract division of x
by d; the quotient is only recorded when `out` is non-empty, into the low
positions of `out` (higher positions keep their prior contents). -/
def divDouble (x d out : List Nat) : List Nat × List Nat :=
  let size := d.length
  let n := x.length
  let k := min (size - 1) n
  let r0 := x.drop (n - k) ++ List.replicate (size - k) 0
  let (r, quo) := divDoubleLoop d r0 (x.take (n - k)).reverse
  (r, if out = [] then [] else quo ++ out.drop quo.length)

/-- The modulus value as a plain SNat view (Go `&m.nat`; the inner `reduced`
pointer is never read by the callees). -/
def natOf (m : Modulus) : SNat :=
  { announced := m.nat.announced, reduced := none, limbs := m.nat.limbs }

/-- Source: part_005:1553-1589 `modInverseEven`: invert m mod x, then recover
the inverse of x mod m from (A*m - 1)/x; x = 1 is patched to inverse 1. -/
def modInverseEven (z x : SNat) (m : Modulus) : SNat :=
  let size := m.nat.limbs.length
  let nz0 : SNat := { announced := 0, reduced := none, limbs := (divDouble m.nat.limbs x.limbs []).1 }
  let nz1 := modInverse nz0 nz0 x
  let inverseZero := cmpZero nz1.limbs
  let nz2 := Mul nz1 nz1 (natOf m) (2 * size * _W : Nat)
  let limbs2 := resizedLimbsL nz2.limbs (_W * 2 * size)
  let limbs3 := (subVW limbs2 1).1
  let limbs4 := (divDouble limbs3 x.limbs limbs3).2
  let lowerQ := limbs4.take size
  let upper := (subVV m.nat.limbs lowerQ).1
  let prepared := (List.replicate size 0).set 0 1
  let lowerFinal := ctCondCopy (1 ^^^ inverseZero) prepared upper
  { announced := z.announced
    reduced := z.reduced
    limbs := resizedLimbsL (lowerFinal ++ upper) m.nat.announced }

/-- Source: part_005:1481-1491 `ModInverse`: reduce, dispatch on parity. -/
def ModInverse (z x : SNat) (m : Modulus) : SNat :=
  let z1 := Mod z x m
  let z2 := if m.even then modInverseEven z1 x m else modInverse z1 z1 (natOf m)
  { announced := m.nat.announced
    reduced := some m
    limbs := z2.limbs }

/-- Well-formedness of a constructed Modulus, as established by
`precomputeValues`: non-empty trimmed limbs, the recorded leading-zero count
of the top limb, the exact announced bit length, and the parity flag. -/
def Modulus.WF (m : Modulus) : Prop :=
  m.nat.limbs ≠ [] ∧
  wfLimbs m.nat.limbs ∧
  m.nat.limbs.getD (m.nat.limbs.length - 1) 0 ≠ 0 ∧
  m.leading = leadingZeros (m.nat.limbs.getD (m.nat.limbs.length - 1) 0) ∧
  m.nat.announced = _W * m.nat.limbs.length - m.leading ∧
  m.even = decide (valueOf m.nat.limbs % 2 = 0)

instance (m : Modulus) : Decidable m.WF := by
  unfold Modulus.WF; exact inferInstance

/-- Validity of the reduction claim carried by a Nat. -/
def reducedOK (z : SNat) : Prop :=
  ∀ mo : Modulus, z.reduced = some mo →
    mo.WF ∧ valueOf z.limbs < valueOf mo.nat.limbs ∧ z.announced = mo.nat.announced

instance (z : SNat) : Decidable (reducedOK z) :=
  match hz : z.reduced with
  | none => isTrue (fun mo h => by rw [hz] at h; cases h)
  | some mo =>
    decidable_of_iff
      (mo.WF ∧ valueOf z.limbs < valueOf mo.nat.limbs ∧ z.announced = mo.nat.announced)
      (by
        constructor
        · intro hh mo' h'
          rw [hz] at h'
          cases h'
          exact hh
        · intro hall
          exact hall mo hz)

/-- Well-formedness of a Nat: the invariants of part_005:156-198 (exact limb
count, masked top limb — stated as a value bound — word-sized limbs, and a
valid reduction claim). -/
def SNat.WF (z : SNat) : Prop :=
  z.limbs.length = limbCount z.announced ∧
  wfLimbs z.limbs ∧
  valueOf z.limbs < 2 ^ z.announced ∧
  reducedOK z

instance (z : SNat) : Decidable z.WF := by
  unfold SNat.WF; exact inferInstance

/-- Specification-side value of a big-endian byte string. -/
def beBytesValue (buf : List Nat) : Nat :=
  buf.foldl (fun acc b => acc * 2 ^ 8 + b) 0

/-- Specification-side value of one hex digit from the `0..9A..F` alphabet. -/
def hexDigitValue (c : Nat) : Nat := if c ≤ 57 then c - 48 else c - 55

/-- Specification-side value of a big-endian hex string. -/
def hexBEValue (s : List Nat) : Nat :=
  s.foldl (fun acc c => acc * 2 ^ 4 + hexDigitValue c) 0

/-- Specification-side predicate: the bytes `SetHex` accepts. -/
def isHexDigit (c : Nat) : Prop := (48 ≤ c ∧ c ≤ 57) ∨ (65 ≤ c ∧ c ≤ 70)

instance (c : Nat) : Decidable (isHexDigit c) := by
  unfold isHexDigit; exact inferInstance

/-- Specification-side value of little-endian digits of width w. -/
def digitsValueLE (w : Nat) : List Nat → Nat
  | [] => 0
  | d :: ds => d + 2 ^ w * digitsValueLE w ds

/-- Placeholder modulus for extracting from `Option Modulus`. -/
def defaultModulus : Modulus :=
  { nat := { announced := 0, limbs := [] }, leading := 0, m0inv := 0, even := false }

/-- The modulus 2, for concrete witnesses. -/
def mod2 : Modulus := (ModulusFromUint64 2).getD defaultModulus

/-- The modulus 5, for concrete witnesses. -/
def mod5 : Modulus := (ModulusFromUint64 5).getD defaultModulus

/-- The modulus 10, for concrete witnesses. -/
def mod10 : Modulus := (ModulusFromUint64 10).getD defaultModulus

/-- The modulus 13, for concrete witnesses. -/
def mod13 : Modulus := (ModulusFromUint64 13).getD defaultModulus

/-- The two-limb modulus 2^64 + 1, for concrete witnesses. -/
def modBig : Modulus := (ModulusFromBytes [1, 0, 0, 0, 0, 0, 0, 0, 1]).getD defaultModulus

/-! ## Nat-level toolkit -/

theorem two_pow_W_pos : 0 < 2 ^ _W := Nat.two_pow_pos _

theorem e64 : (2 : Nat) ^ _W = 18446744073709551616 := by norm_num [_W]

theorem e63 : (2 : Nat) ^ (_W - 1) = 9223372036854775808 := by norm_num [_W]

theorem wneg_lt (x : Nat) : wneg x < 2 ^ _W := Nat.mod_lt _ two_pow_W_pos

theorem wsub_lt (x y : Nat) : wsub x y < 2 ^ _W := Nat.mod_lt _ two_pow_W_pos

theorem wsub_of_le {x y : Nat} (hx : x < 2 ^ _W) (hy : y < 2 ^ _W) (h : y ≤ x) :
    wsub x y = x - y := by
  unfold wsub
  rw [Nat.mod_eq_of_lt hy, show x + (2 ^ _W - y) = 2 ^ _W + (x - y) by omega,
    Nat.add_mod_left, Nat.mod_eq_of_lt (by omega)]

theorem wsub_of_lt {x y : Nat} (h : x < y) (hy : y < 2 ^ _W) :
    wsub x y = x + (2 ^ _W - y) := by
  unfold wsub
  rw [Nat.mod_eq_of_lt hy, Nat.mod_eq_of_lt (by omega)]

theorem left_le_or (a b : Nat) : a ≤ a ||| b :=
  Nat.le_of_testBit (fun i h => by simp [Nat.testBit_or, h])

theorem right_le_or (a b : Nat) : b ≤ a ||| b :=
  Nat.le_of_testBit (fun i h => by simp [Nat.testBit_or, h])

theorem shiftRight_top {x : Nat} (hx : x < 2 ^ _W) :
    x >>> (_W - 1) = if 2 ^ (_W - 1) ≤ x then 1 else 0 := by
  have h63 := e63
  have h64 := e64
  rw [Nat.shiftRight_eq_div_pow]
  split
  · next h => exact Nat.div_eq_of_lt_le (by omega) (by omega)
  · next h => exact Nat.div_eq_of_lt (by omega)

theorem testBit_top {x : Nat} (hx : x < 2 ^ _W) :
    x.testBit (_W - 1) = decide (2 ^ (_W - 1) ≤ x) := by
  have h1 : x / 2 ^ (_W - 1) = if 2 ^ (_W - 1) ≤ x then 1 else 0 := by
    rw [← Nat.shiftRight_eq_div_pow]; exact shiftRight_top hx
  rw [Nat.testBit_to_div_mod, h1]
  split <;> simp_all

theorem le_top_iff {w : Nat} (hw : w < 2 ^ _W) :
    2 ^ (_W - 1) ≤ w ↔ w.testBit (_W - 1) = true := by
  rw [testBit_top hw]; simp

theorem ctEq_spec {x y : Nat} (hx : x < 2 ^ _W) (hy : y < 2 ^ _W) :
    ctEq x y = if x = y then 1 else 0 := by
  unfold ctEq
  by_cases hxy : x = y
  · subst hxy
    simp [Nat.xor_self, wneg]
  · have hq : x ^^^ y ≠ 0 := fun h => hxy (Nat.xor_eq_zero.mp h)
    have hqlt : x ^^^ y < 2 ^ _W := Nat.xor_lt_two_pow hx hy
    have horlt : (x ^^^ y) ||| wneg (x ^^^ y) < 2 ^ _W :=
      Nat.or_lt_two_pow hqlt (wneg_lt _)
    have hor : 2 ^ (_W - 1) ≤ (x ^^^ y) ||| wneg (x ^^^ y) := by
      by_cases hq63 : 2 ^ (_W - 1) ≤ x ^^^ y
      · exact le_trans hq63 (left_le_or _ _)
      · refine le_trans ?_ (right_le_or (x ^^^ y) _)
        unfold wneg
        rw [Nat.mod_eq_of_lt hqlt, Nat.mod_eq_of_lt (by omega)]
        have h63 := e63
        have h64 := e64
        omega
    show 1 ^^^ (((x ^^^ y) ||| wneg (x ^^^ y)) >>> (_W - 1)) = if x = y then 1 else 0
    rw [shiftRight_top horlt, if_pos hor, if_neg hxy]
    decide

theorem ctGt_spec {x y : Nat} (hx : x < 2 ^ _W) (hy : y < 2 ^ _W) :
    ctGt x y = if y < x then 1 else 0 := by
  unfold ctGt
  have h63 := e63
  have h64 := e64
  have hzlt : wsub y x < 2 ^ _W := wsub_lt _ _
  have hexpr : wsub y x ^^^ ((x ^^^ y) &&& (x ^^^ wsub y x)) < 2 ^ _W :=
    Nat.xor_lt_two_pow hzlt (Nat.and_lt_two_pow _ (Nat.xor_lt_two_pow hx hzlt))
  show (wsub y x ^^^ ((x ^^^ y) &&& (x ^^^ wsub y x))) >>> (_W - 1) =
    if y < x then 1 else 0
  rw [shiftRight_top hexpr]
  have hcond : (2 ^ (_W - 1) ≤ wsub y x ^^^ ((x ^^^ y) &&& (x ^^^ wsub y x))) ↔ y < x := by
    rw [le_top_iff hexpr]
    simp only [Nat.testBit_xor, Nat.testBit_and, testBit_top hx, testBit_top hy,
      testBit_top hzlt]
    rcases le_or_lt x y with hxy | hxy
    · have hz : wsub y x = y - x := wsub_of_le hy hx hxy
      rcases le_or_lt (2 ^ (_W - 1)) x with hxT | hxT <;>
        rcases le_or_lt (2 ^ (_W - 1)) y with hyT | hyT
      · have bx : decide (2 ^ (_W - 1) ≤ x) = true := decide_eq_true hxT
        have bb : decide (2 ^ (_W - 1) ≤ y) = true := decide_eq_true hyT
        have bz : decide (2 ^ (_W - 1) ≤ wsub y x) = false := decide_eq_false (by omega)
        simp only [bx, bb, bz]
        simp
        omega
      · omega
      · have bx : decide (2 ^ (_W - 1) ≤ x) = false := decide_eq_false (by omega)
        have bb : decide (2 ^ (_W - 1) ≤ y) = true := decide_eq_true hyT
        have bz : decide (2 ^ (_W - 1) ≤ wsub y x) = decide (2 ^ (_W - 1) ≤ y - x) := by
          rw [hz]
        simp only [bx, bb]
        simp
        omega
      · have bx : decide (2 ^ (_W - 1) ≤ x) = false := decide_eq_false (by omega)
        have bb : decide (2 ^ (_W - 1) ≤ y) = false := decide_eq_false (by omega)
        have bz : decide (2 ^ (_W - 1) ≤ wsub y x) = false := decide_eq_false (by omega)
        simp only [bx, bb, bz]
        simp
        omega
    · have hz : wsub y x = y + (2 ^ _W - x) := wsub_of_lt hxy hx
      rcases le_or_lt (2 ^ (_W - 1)) x with hxT | hxT <;>
        rcases le_or_lt (2 ^ (_W - 1)) y with hyT | hyT
      · have bx : decide (2 ^ (_W - 1) ≤ x) = true := decide_eq_true hxT
        have bb : decide (2 ^ (_W - 1) ≤ y) = true := decide_eq_true hyT
        have bz : decide (2 ^ (_W - 1) ≤ wsub y x) = true := decide_eq_true (by omega)
        simp only [bx, bb, bz]
        simp
        omega
      · have bx : decide (2 ^ (_W - 1) ≤ x) = true := decide_eq_true hxT
        have bb : decide (2 ^ (_W - 1) ≤ y) = false := decide_eq_false (by omega)
        simp only [bx, bb]
        simp
        omega
      · omega
      · have bx : decide (2 ^ (_W - 1) ≤ x) = false := decide_eq_false (by omega)
        have bb : decide (2 ^ (_W - 1) ≤ y) = false := decide_eq_false (by omega)
        have bz : decide (2 ^ (_W - 1) ≤ wsub y x) = true := decide_eq_true (by omega)
        simp only [bx, bb, bz]
        simp
        omega
  by_cases hyx : y < x
  · rw [if_pos (hcond.mpr hyx), if_pos hyx]
  · rw [if_neg (fun hc => hyx (hcond.mp hc)), if_neg hyx]


theorem ctIfElse_zero (x y : Nat) : ctIfElse 0 x y = y := by
  simp [ctIfElse, wneg]

theorem wneg_one : wneg 1 = 2 ^ _W - 1 := by
  have h64 := e64
  unfold wneg
  rw [Nat.mod_eq_of_lt (show (1 : Nat) < 2 ^ _W by omega),
    Nat.mod_eq_of_lt (by omega)]

theorem ctIfElse_one {x y : Nat} (hx : x < 2 ^ _W) (hy : y < 2 ^ _W) :
    ctIfElse 1 x y = x := by
  show y ^^^ (wneg 1 &&& (y ^^^ x)) = x
  rw [wneg_one, Nat.and_comm (2 ^ _W - 1) (y ^^^ x), Nat.and_pow_two_sub_one_eq_mod,
    Nat.mod_eq_of_lt (Nat.xor_lt_two_pow hy hx), ← Nat.xor_assoc, Nat.xor_self,
    Nat.zero_xor]

theorem ctIfElse_lt {v x y : Nat} (hv : v = 0 ∨ v = 1) (hx : x < 2 ^ _W)
    (hy : y < 2 ^ _W) : ctIfElse v x y < 2 ^ _W := by
  rcases hv with h | h <;> subst h
  · rw [ctIfElse_zero]; exact hy
  · rw [ctIfElse_one hx hy]; exact hx

theorem ctIfElse_unbounded_lt (v : Nat) {x y : Nat} (hx : x < 2 ^ _W)
    (hy : y < 2 ^ _W) : ctIfElse v x y < 2 ^ _W := by
  unfold ctIfElse
  have h1 : y ^^^ x < 2 ^ _W := Nat.xor_lt_two_pow hy hx
  have h2 : wneg v &&& (y ^^^ x) ≤ y ^^^ x := Nat.and_le_right
  exact Nat.xor_lt_two_pow hy (by omega)

theorem zipWith_fst {x y : List Nat} (h : x.length ≤ y.length) :
    List.zipWith (fun a _ => a) x y = x := by
  induction x generalizing y with
  | nil => simp
  | cons a as ih =>
    cases y with
    | nil => simp at h
    | cons b bs =>
      simp only [List.zipWith]
      rw [ih (by simpa using h)]

theorem ctCondCopy_zero {x y : List Nat} (h : x.length ≤ y.length) :
    ctCondCopy 0 x y = x := by
  unfold ctCondCopy
  induction x generalizing y with
  | nil => simp
  | cons a as ih =>
    cases y with
    | nil => simp at h
    | cons b bs =>
      simp only [List.zipWith]
      rw [ctIfElse_zero, ih (by simpa using h)]

theorem ctCondCopy_one {x y : List Nat} (h : x.length = y.length)
    (hx : wfLimbs x) (hy : wfLimbs y) : ctCondCopy 1 x y = y := by
  unfold ctCondCopy
  induction x generalizing y with
  | nil => cases y with
    | nil => simp
    | cons b bs => simp at h
  | cons a as ih =>
    cases y with
    | nil => simp at h
    | cons b bs =>
      simp only [List.zipWith]
      rw [ctIfElse_one (hy b (List.mem_cons_self _ _)) (hx a (List.mem_cons_self _ _)),
        ih (by simpa using h) (fun w hw => hx w (List.mem_cons_of_mem _ hw))
          (fun w hw => hy w (List.mem_cons_of_mem _ hw))]

theorem ctCondCopy_length (v : Nat) (x y : List Nat) :
    (ctCondCopy v x y).length = min x.length y.length := by
  simp [ctCondCopy]

/-! ## Values of limb sequences and the vector primitives -/

theorem valueOf_cons (w : Nat) (ws : List Nat) :
    valueOf (w :: ws) = w + 2 ^ _W * valueOf ws := rfl

theorem wfLimbs_cons {w : Nat} {ws : List Nat} :
    wfLimbs (w :: ws) ↔ w < 2 ^ _W ∧ wfLimbs ws := by
  simp [wfLimbs]

theorem wfLimbs_nil : wfLimbs [] := by simp [wfLimbs]

theorem pow_mul_succ (n : Nat) : 2 ^ (_W * (n + 1)) = 2 ^ _W * 2 ^ (_W * n) := by
  rw [Nat.mul_succ, Nat.pow_add, Nat.mul_comm]

theorem valueOf_lt {ls : List Nat} (h : wfLimbs ls) :
    valueOf ls < 2 ^ (_W * ls.length) := by
  induction ls with
  | nil => simp [valueOf]
  | cons w ws ih =>
    rw [wfLimbs_cons] at h
    have h1 := ih h.2
    have h2 := h.1
    rw [valueOf_cons, List.length_cons, pow_mul_succ]
    calc w + 2 ^ _W * valueOf ws < 2 ^ _W + 2 ^ _W * valueOf ws := by omega
      _ = 2 ^ _W * (valueOf ws + 1) := by ring
      _ ≤ 2 ^ _W * 2 ^ (_W * ws.length) := Nat.mul_le_mul_left _ (by omega)

theorem valueOf_append (a b : List Nat) :
    valueOf (a ++ b) = valueOf a + 2 ^ (_W * a.length) * valueOf b := by
  induction a with
  | nil => simp [valueOf]
  | cons w ws ih =>
    simp only [List.cons_append, valueOf_cons, ih, List.length_cons, pow_mul_succ]
    ring

theorem valueOf_replicate_zero (n : Nat) : valueOf (List.replicate n 0) = 0 := by
  induction n with
  | zero => rfl
  | succ k ih => simp [List.replicate, valueOf_cons, ih]

theorem wfLimbs_replicate_zero (n : Nat) : wfLimbs (List.replicate n 0) := by
  intro w hw
  have := List.eq_of_mem_replicate hw
  subst this
  exact two_pow_W_pos

theorem wfLimbs_append {a b : List Nat} (ha : wfLimbs a) (hb : wfLimbs b) :
    wfLimbs (a ++ b) := by
  intro w hw
  rcases List.mem_append.mp hw with h | h
  · exact ha w h
  · exact hb w h

theorem wfLimbs_take (n : Nat) {a : List Nat} (ha : wfLimbs a) :
    wfLimbs (a.take n) := fun w hw => ha w (List.mem_of_mem_take hw)

theorem wfLimbs_drop (n : Nat) {a : List Nat} (ha : wfLimbs a) :
    wfLimbs (a.drop n) := fun w hw => ha w (List.mem_of_mem_drop hw)

/-- Master lemma for the add carry chain. -/
theorem addVVc_spec : ∀ (x y : List Nat) (c : Nat), x.length = y.length →
    wfLimbs x → wfLimbs y → c ≤ 1 →
    (addVVc x y c).1.length = x.length ∧ wfLimbs (addVVc x y c).1 ∧
    (addVVc x y c).2 ≤ 1 ∧
    valueOf (addVVc x y c).1 + 2 ^ (_W * x.length) * (addVVc x y c).2 =
      valueOf x + valueOf y + c
  | [], [], c, _, _, _, hc => by
    refine ⟨rfl, wfLimbs_nil, hc, ?_⟩
    simp [addVVc, valueOf]
  | [], _ :: _, _, h, _, _, _ => by simp at h
  | _ :: _, [], _, h, _, _, _ => by simp at h
  | x :: xs, y :: ys, c, h, hx, hy, hc => by
    rw [wfLimbs_cons] at hx hy
    have hlen : xs.length = ys.length := by simpa using h
    have hs : (x + y + c) / 2 ^ _W ≤ 1 := by
      have hx1 : x < 2 ^ _W := hx.1
      have hy1 : y < 2 ^ _W := hy.1
      rw [e64] at hx1 hy1 ⊢
      omega
    obtain ⟨ih1, ih2, ih3, ih4⟩ := addVVc_spec xs ys ((x + y + c) / 2 ^ _W)
      hlen hx.2 hy.2 hs
    have hmod : (x + y + c) % 2 ^ _W < 2 ^ _W := Nat.mod_lt _ two_pow_W_pos
    refine ⟨by simp [addVVc, ih1], ?_, by simp [addVVc, ih3], ?_⟩
    · show wfLimbs ((x + y + c) % 2 ^ _W :: (addVVc xs ys _).1)
      rw [wfLimbs_cons]
      exact ⟨hmod, ih2⟩
    · show valueOf ((x + y + c) % 2 ^ _W :: (addVVc xs ys _).1) +
        2 ^ (_W * (x :: xs).length) * (addVVc xs ys _).2 = _
      rw [valueOf_cons, List.length_cons, pow_mul_succ, valueOf_cons, valueOf_cons]
      have hdm := Nat.div_add_mod (x + y + c) (2 ^ _W)
      calc (x + y + c) % 2 ^ _W + 2 ^ _W * valueOf (addVVc xs ys _).1 +
            2 ^ _W * 2 ^ (_W * xs.length) * (addVVc xs ys _).2
          = (x + y + c) % 2 ^ _W +
            2 ^ _W * (valueOf (addVVc xs ys _).1 +
              2 ^ (_W * xs.length) * (addVVc xs ys _).2) := by ring
        _ = (x + y + c) % 2 ^ _W +
            2 ^ _W * (valueOf xs + valueOf ys + (x + y + c) / 2 ^ _W) := by rw [ih4]
        _ = (2 ^ _W * ((x + y + c) / 2 ^ _W) + (x + y + c) % 2 ^ _W) +
            2 ^ _W * valueOf xs + 2 ^ _W * valueOf ys := by ring
        _ = x + 2 ^ _W * valueOf xs + (y + 2 ^ _W * valueOf ys) + c := by
            rw [hdm]
            ring

/-- Master lemma for the subtract borrow chain. -/
theorem subVVc_spec : ∀ (x y : List Nat) (c : Nat), x.length = y.length →
    wfLimbs x → wfLimbs y → c ≤ 1 →
    (subVVc x y c).1.length = x.length ∧ wfLimbs (subVVc x y c).1 ∧
    (subVVc x y c).2 ≤ 1 ∧
    valueOf (subVVc x y c).1 + valueOf y + c =
      valueOf x + 2 ^ (_W * x.length) * (subVVc x y c).2
  | [], [], c, _, _, _, hc => by
    refine ⟨rfl, wfLimbs_nil, hc, ?_⟩
    simp [subVVc, valueOf]
  | [], _ :: _, _, h, _, _, _ => by simp at h
  | _ :: _, [], _, h, _, _, _ => by simp at h
  | x :: xs, y :: ys, c, h, hx, hy, hc => by
    rw [wfLimbs_cons] at hx hy
    have hlen : xs.length = ys.length := by simpa using h
    have h64 := e64
    have hx1 := hx.1
    have hy1 := hy.1
    have hc' : (if x < y + c then (1 : Nat) else 0) ≤ 1 := by split <;> omega
    obtain ⟨ih1, ih2, ih3, ih4⟩ := subVVc_spec xs ys (if x < y + c then 1 else 0)
      hlen hx.2 hy.2 hc'
    have hzi : (x + (2 ^ _W - (y + c))) % 2 ^ _W + (y + c) =
        x + 2 ^ _W * (if x < y + c then 1 else 0) := by
      split
      · next hlt =>
        rw [Nat.mod_eq_of_lt (by omega)]
        omega
      · next hge =>
        rw [show x + (2 ^ _W - (y + c)) = 2 ^ _W + (x - (y + c)) by omega,
          Nat.add_mod_left, Nat.mod_eq_of_lt (by omega)]
        omega
    refine ⟨by simp [subVVc, ih1], ?_, by simp [subVVc, ih3], ?_⟩
    · show wfLimbs ((x + (2 ^ _W - (y + c))) % 2 ^ _W :: (subVVc xs ys _).1)
      rw [wfLimbs_cons]
      exact ⟨Nat.mod_lt _ two_pow_W_pos, ih2⟩
    · show valueOf ((x + (2 ^ _W - (y + c))) % 2 ^ _W :: (subVVc xs ys _).1) +
        valueOf (y :: ys) + c = valueOf (x :: xs) +
        2 ^ (_W * (x :: xs).length) * (subVVc xs ys _).2
      rw [valueOf_cons, valueOf_cons, valueOf_cons, List.length_cons, pow_mul_succ]
      have expand : valueOf (subVVc xs ys _).1 + valueOf ys +
          (if x < y + c then 1 else 0) = valueOf xs +
          2 ^ (_W * xs.length) * (subVVc xs ys (if x < y + c then 1 else 0)).2 := ih4
      have key : (x + (2 ^ _W - (y + c))) % 2 ^ _W + (y + c) =
        x + 2 ^ _W * (if x < y + c then 1 else 0) := hzi
      nlinarith [expand, key]

theorem addVV_spec {x y : List Nat} (h : x.length = y.length)
    (hx : wfLimbs x) (hy : wfLimbs y) :
    (addVV x y).1.length = x.length ∧ wfLimbs (addVV x y).1 ∧
    (addVV x y).2 ≤ 1 ∧
    valueOf (addVV x y).1 + 2 ^ (_W * x.length) * (addVV x y).2 =
      valueOf x + valueOf y :=
  by simpa using addVVc_spec x y 0 h hx hy (by omega)

theorem subVV_spec {x y : List Nat} (h : x.length = y.length)
    (hx : wfLimbs x) (hy : wfLimbs y) :
    (subVV x y).1.length = x.length ∧ wfLimbs (subVV x y).1 ∧
    (subVV x y).2 ≤ 1 ∧
    valueOf (subVV x y).1 + valueOf y =
      valueOf x + 2 ^ (_W * x.length) * (subVV x y).2 :=
  by simpa using subVVc_spec x y 0 h hx hy (by omega)

/-- Master lemma for the multiply-subtract chain `z -= y * x`. -/
theorem mulSubVVWc_spec : ∀ (z x : List Nat) (y c : Nat), z.length = x.length →
    wfLimbs z → wfLimbs x → y < 2 ^ _W → c < 2 ^ _W →
    (mulSubVVWc z x y c).1.length = z.length ∧ wfLimbs (mulSubVVWc z x y c).1 ∧
    (mulSubVVWc z x y c).2 < 2 ^ _W ∧
    valueOf (mulSubVVWc z x y c).1 + y * valueOf x + c =
      valueOf z + 2 ^ (_W * z.length) * (mulSubVVWc z x y c).2
  | [], [], y, c, _, _, _, _, hc => by
    refine ⟨rfl, wfLimbs_nil, hc, ?_⟩
    simp [mulSubVVWc, valueOf]
  | [], _ :: _, _, _, h, _, _, _, _ => by simp at h
  | _ :: _, [], _, _, h, _, _, _, _ => by simp at h
  | z :: zs, x :: xs, y, c, h, hz, hx, hy, hc => by
    rw [wfLimbs_cons] at hz hx
    have hlen : zs.length = xs.length := by simpa using h
    have hz1 := hz.1
    have hx1 := hx.1
    have hdm := Nat.div_add_mod (x * y + c) (2 ^ _W)
    have hmlt : (x * y + c) % 2 ^ _W < 2 ^ _W := Nat.mod_lt _ two_pow_W_pos
    have htb : x * y + c ≤ (2 ^ _W - 1) * 2 ^ _W := by
      have h1 : x * y ≤ (2 ^ _W - 1) * (2 ^ _W - 1) :=
        Nat.mul_le_mul (by omega) (by omega)
      obtain ⟨k, hk⟩ : ∃ k, 2 ^ _W = k + 1 := ⟨2 ^ _W - 1, by omega⟩
      rw [hk] at h1 ⊢
      simp only [Nat.add_sub_cancel] at h1 ⊢
      nlinarith
    have hhi : (x * y + c) / 2 ^ _W ≤ 2 ^ _W - 1 := by
      have h5 : (x * y + c) / 2 ^ _W ≤ ((2 ^ _W - 1) * 2 ^ _W) / 2 ^ _W :=
        Nat.div_le_div_right htb
      rwa [Nat.mul_div_cancel _ two_pow_W_pos] at h5
    have hcnew : (if z < (x * y + c) % 2 ^ _W then 1 else 0) + (x * y + c) / 2 ^ _W
        < 2 ^ _W := by
      by_cases hL : (x * y + c) % 2 ^ _W = 0
      · rw [hL]
        have hz0 : (if z < 0 then (1 : Nat) else 0) = 0 := by simp
        rw [hz0]
        omega
      · have : (x * y + c) / 2 ^ _W < 2 ^ _W - 1 := by
          rcases Nat.lt_or_ge ((x * y + c) / 2 ^ _W) (2 ^ _W - 1) with hq | hq
          · exact hq
          · have he : (x * y + c) / 2 ^ _W = 2 ^ _W - 1 := by omega
            rw [he] at hdm
            have hcomm : 2 ^ _W * (2 ^ _W - 1) = (2 ^ _W - 1) * 2 ^ _W :=
              Nat.mul_comm _ _
            omega
        split <;> omega
    obtain ⟨ih1, ih2, ih3, ih4⟩ := mulSubVVWc_spec zs xs y
      ((if z < (x * y + c) % 2 ^ _W then 1 else 0) + (x * y + c) / 2 ^ _W)
      hlen hz.2 hx.2 hy hcnew
    have hsub : (z + (2 ^ _W - (x * y + c) % 2 ^ _W)) % 2 ^ _W + (x * y + c) =
        z + 2 ^ _W * ((if z < (x * y + c) % 2 ^ _W then 1 else 0) +
          (x * y + c) / 2 ^ _W) := by
      split
      · next hlt =>
        have hm1 : (z + (2 ^ _W - (x * y + c) % 2 ^ _W)) % 2 ^ _W =
            z + (2 ^ _W - (x * y + c) % 2 ^ _W) := Nat.mod_eq_of_lt (by omega)
        have h1 : 2 ^ _W * (1 + (x * y + c) / 2 ^ _W) =
            2 ^ _W + 2 ^ _W * ((x * y + c) / 2 ^ _W) := by ring
        omega
      · next hge =>
        have hm1 : (z + (2 ^ _W - (x * y + c) % 2 ^ _W)) % 2 ^ _W =
            z - (x * y + c) % 2 ^ _W := by
          rw [show z + (2 ^ _W - (x * y + c) % 2 ^ _W) =
            2 ^ _W + (z - (x * y + c) % 2 ^ _W) by omega, Nat.add_mod_left]
          exact Nat.mod_eq_of_lt (by omega)
        have h1 : 2 ^ _W * (0 + (x * y + c) / 2 ^ _W) =
            2 ^ _W * ((x * y + c) / 2 ^ _W) := by ring
        omega
    rcases hrec : mulSubVVWc zs xs y
      ((if z < (x * y + c) % 2 ^ _W then 1 else 0) + (x * y + c) / 2 ^ _W)
      with ⟨rest, cend⟩
    rw [hrec] at ih1 ih2 ih3 ih4
    simp only at ih1 ih2 ih3 ih4
    have hred : mulSubVVWc (z :: zs) (x :: xs) y c =
        ((z + (2 ^ _W - (x * y + c) % 2 ^ _W)) % 2 ^ _W :: rest, cend) := by
      simp only [mulSubVVWc, hrec]
    rw [hred]
    refine ⟨by simp [ih1], ?_, ih3, ?_⟩
    · show wfLimbs ((z + (2 ^ _W - (x * y + c) % 2 ^ _W)) % 2 ^ _W :: rest)
      rw [wfLimbs_cons]
      exact ⟨Nat.mod_lt _ two_pow_W_pos, ih2⟩
    · show valueOf ((z + (2 ^ _W - (x * y + c) % 2 ^ _W)) % 2 ^ _W :: rest) +
          y * valueOf (x :: xs) + c =
        valueOf (z :: zs) + 2 ^ (_W * (z :: zs).length) * cend
      rw [valueOf_cons, valueOf_cons, valueOf_cons, List.length_cons, pow_mul_succ]
      have e1 : (z + (2 ^ _W - (x * y + c) % 2 ^ _W)) % 2 ^ _W +
          2 ^ _W * valueOf rest + y * (x + 2 ^ _W * valueOf xs) + c =
          ((z + (2 ^ _W - (x * y + c) % 2 ^ _W)) % 2 ^ _W + (x * y + c)) +
          2 ^ _W * (valueOf rest + y * valueOf xs) := by ring
      rw [e1, hsub]
      have e2 : z + 2 ^ _W * ((if z < (x * y + c) % 2 ^ _W then 1 else 0) +
          (x * y + c) / 2 ^ _W) + 2 ^ _W * (valueOf rest + y * valueOf xs) =
          z + 2 ^ _W * (valueOf rest + y * valueOf xs +
            ((if z < (x * y + c) % 2 ^ _W then 1 else 0) +
              (x * y + c) / 2 ^ _W)) := by ring
      rw [e2, ih4]
      ring

theorem mulSubVVW_spec {z x : List Nat} (y : Nat) (h : z.length = x.length)
    (hz : wfLimbs z) (hx : wfLimbs x) (hy : y < 2 ^ _W) :
    (mulSubVVW z x y).1.length = z.length ∧ wfLimbs (mulSubVVW z x y).1 ∧
    (mulSubVVW z x y).2 < 2 ^ _W ∧
    valueOf (mulSubVVW z x y).1 + y * valueOf x =
      valueOf z + 2 ^ (_W * z.length) * (mulSubVVW z x y).2 := by
  have := mulSubVVWc_spec z x y 0 h hz hx hy two_pow_W_pos
  simpa using this

theorem cmpGeq_spec {x y : List Nat} (h : x.length = y.length)
    (hx : wfLimbs x) (hy : wfLimbs y) :
    cmpGeq x y = if valueOf y ≤ valueOf x then 1 else 0 := by
  obtain ⟨h1, h2, h3, h4⟩ := subVV_spec h hx hy
  have hvz : valueOf (subVV x y).1 < 2 ^ (_W * x.length) := h1 ▸ valueOf_lt h2
  unfold cmpGeq
  rcases Nat.le_one_iff_eq_zero_or_eq_one.mp h3 with hb | hb <;> rw [hb] at h4 ⊢
  · rw [Nat.mul_zero] at h4
    rw [if_pos (by omega)]
    decide
  · rw [Nat.mul_one] at h4
    rw [if_neg (by omega)]
    decide

/-! ## Correctness of the constant-time division `div` -/

theorem or_one_of_even {a : Nat} (h : a % 2 = 0) : a ||| 1 = a + 1 := by
  have h2 : a = 2 ^ 1 * (a / 2) := by omega
  have h3 := Nat.mul_add_lt_is_or (show (1 : Nat) < 2 ^ 1 by omega) (a / 2)
  rw [h2]
  exact h3.symm

theorem divLoop_w_char {i hi lo : Nat} (h : i + 1 ≤ _W) (hlo : lo < 2 ^ _W) :
    ((hi <<< (_W - (i + 1))) % 2 ^ _W) ||| (lo >>> (i + 1)) =
      2 ^ (_W - (i + 1)) * (hi % 2 ^ (i + 1)) + lo / 2 ^ (i + 1) := by
  have hj : 2 ^ (i + 1) * 2 ^ (_W - (i + 1)) = 2 ^ _W := by
    rw [← Nat.pow_add]
    congr 1
    omega
  have hb : lo / 2 ^ (i + 1) < 2 ^ (_W - (i + 1)) := by
    rw [Nat.div_lt_iff_lt_mul (Nat.two_pow_pos _)]
    rw [← hj] at hlo
    calc lo < 2 ^ (i + 1) * 2 ^ (_W - (i + 1)) := hlo
      _ = 2 ^ (_W - (i + 1)) * 2 ^ (i + 1) := Nat.mul_comm _ _
  rw [Nat.shiftLeft_eq, Nat.shiftRight_eq_div_pow, ← hj, Nat.mul_mod_mul_right,
    Nat.mul_comm (hi % 2 ^ (i + 1)) (2 ^ (_W - (i + 1))), ← Nat.mul_add_lt_is_or hb]

theorem divLoop_Q_char {i lo : Nat} (hi : Nat) (h : i + 1 ≤ _W) (hlo : lo < 2 ^ _W) :
    (hi * 2 ^ _W + lo) / 2 ^ (i + 1) =
      hi / 2 ^ (i + 1) * 2 ^ _W +
        (2 ^ (_W - (i + 1)) * (hi % 2 ^ (i + 1)) + lo / 2 ^ (i + 1)) := by
  have hj : 2 ^ (i + 1) * 2 ^ (_W - (i + 1)) = 2 ^ _W := by
    rw [← Nat.pow_add]
    congr 1
    omega
  have h1 : hi * 2 ^ _W + lo = lo + (hi * 2 ^ (_W - (i + 1))) * 2 ^ (i + 1) := by
    rw [← hj]
    ring
  rw [h1, Nat.add_mul_div_right _ _ (Nat.two_pow_pos (i + 1))]
  have h2 : hi * 2 ^ (_W - (i + 1)) =
      hi / 2 ^ (i + 1) * 2 ^ _W + 2 ^ (_W - (i + 1)) * (hi % 2 ^ (i + 1)) := by
    have hdm := Nat.div_add_mod hi (2 ^ (i + 1))
    calc hi * 2 ^ (_W - (i + 1))
        = (2 ^ (i + 1) * (hi / 2 ^ (i + 1)) + hi % 2 ^ (i + 1)) *
            2 ^ (_W - (i + 1)) := by rw [hdm]
      _ = hi / 2 ^ (i + 1) * (2 ^ (i + 1) * 2 ^ (_W - (i + 1))) +
            2 ^ (_W - (i + 1)) * (hi % 2 ^ (i + 1)) := by ring
      _ = hi / 2 ^ (i + 1) * 2 ^ _W + 2 ^ (_W - (i + 1)) * (hi % 2 ^ (i + 1)) := by
            rw [hj]
  omega

theorem divLoop_w_lt {i lo : Nat} (hi : Nat) (h : i + 1 ≤ _W) (hlo : lo < 2 ^ _W) :
    2 ^ (_W - (i + 1)) * (hi % 2 ^ (i + 1)) + lo / 2 ^ (i + 1) < 2 ^ _W := by
  have hj : 2 ^ (i + 1) * 2 ^ (_W - (i + 1)) = 2 ^ _W := by
    rw [← Nat.pow_add]
    congr 1
    omega
  have hb : lo / 2 ^ (i + 1) < 2 ^ (_W - (i + 1)) := by
    rw [Nat.div_lt_iff_lt_mul (Nat.two_pow_pos _)]
    rw [← hj] at hlo
    calc lo < 2 ^ (i + 1) * 2 ^ (_W - (i + 1)) := hlo
      _ = 2 ^ (_W - (i + 1)) * 2 ^ (i + 1) := Nat.mul_comm _ _
  have hm : hi % 2 ^ (i + 1) ≤ 2 ^ (i + 1) - 1 := by
    have := Nat.mod_lt hi (Nat.two_pow_pos (i + 1))
    omega
  have h1 : 2 ^ (_W - (i + 1)) * (hi % 2 ^ (i + 1)) ≤
      2 ^ (_W - (i + 1)) * (2 ^ (i + 1) - 1) := Nat.mul_le_mul_left _ hm
  have h2 : 2 ^ (_W - (i + 1)) * (2 ^ (i + 1) - 1) + 2 ^ (_W - (i + 1)) =
      2 ^ _W := by
    obtain ⟨k, hk⟩ : ∃ k, 2 ^ (i + 1) = k + 1 :=
      ⟨2 ^ (i + 1) - 1, by have := Nat.two_pow_pos (i + 1); omega⟩
    rw [hk] at hj ⊢
    simp only [Nat.add_sub_cancel]
    have h5 : (k + 1) * 2 ^ (_W - (i + 1)) =
        k * 2 ^ (_W - (i + 1)) + 2 ^ (_W - (i + 1)) := by ring
    have h6 : 2 ^ (_W - (i + 1)) * k = k * 2 ^ (_W - (i + 1)) := Nat.mul_comm _ _
    omega
  omega

theorem divLoop_spec : ∀ i d hi lo quo : Nat, i ≤ _W - 1 → 0 < d → d < 2 ^ _W →
    lo < 2 ^ _W → hi * 2 ^ _W + lo < d * 2 ^ i * 2 →
    quo + 2 ≤ 2 ^ (_W - i) → quo % 2 = 0 →
    (divLoop d i hi lo quo).1 * 2 ^ _W + (divLoop d i hi lo quo).2.1 < 2 * d ∧
    (divLoop d i hi lo quo).2.1 < 2 ^ _W ∧
    (divLoop d i hi lo quo).2.2 + 2 ≤ 2 ^ _W ∧
    (divLoop d i hi lo quo).2.2 % 2 = 0 ∧
    d * (divLoop d i hi lo quo).2.2 +
      ((divLoop d i hi lo quo).1 * 2 ^ _W + (divLoop d i hi lo quo).2.1) =
      d * quo * 2 ^ i + (hi * 2 ^ _W + lo) := by
  intro i
  induction i with
  | zero =>
    intro d hi lo quo _ hd hdW hlo hR hq hqe
    simp only [divLoop]
    have h1 : d * 2 ^ 0 * 2 = 2 * d := by ring
    have h2 : d * quo * 2 ^ 0 = d * quo := by ring
    rw [Nat.sub_zero] at hq
    exact ⟨by omega, hlo, hq, hqe, by omega⟩
  | succ i ih =>
    intro d hi lo quo hiW hd hdW hlo hR hq hqe
    have hiW' : i + 1 ≤ _W := by
      have : (0 : Nat) < _W := by norm_num [_W]
      omega
    have hj : 2 ^ (i + 1) * 2 ^ (_W - (i + 1)) = 2 ^ _W := by
      rw [← Nat.pow_add]
      congr 1
      omega
    have hpow_le : (2 : Nat) ^ (i + 1) ≤ 2 ^ (_W - 1) :=
      Nat.pow_le_pow_right (by omega) (by omega)
    have hhiW : hi < 2 ^ _W := by
      have h1 : hi * 2 ^ _W < d * 2 ^ (i + 1) * 2 := by omega
      have h2 : d * 2 ^ (i + 1) * 2 ≤ d * 2 ^ _W := by
        have h3 : (2 : Nat) ^ (i + 1) * 2 ≤ 2 ^ _W := by
          have h64 := e64
          have h63 := e63
          omega
        calc d * 2 ^ (i + 1) * 2 = d * (2 ^ (i + 1) * 2) := by ring
          _ ≤ d * 2 ^ _W := Nat.mul_le_mul_left _ h3
      have h4 : hi * 2 ^ _W < d * 2 ^ _W := by omega
      have h5 : hi < d := Nat.lt_of_mul_lt_mul_right h4
      omega
    -- the key quantity: the remainder shifted right by i + 1
    have hQ2d : (hi * 2 ^ _W + lo) / 2 ^ (i + 1) < 2 * d := by
      rw [Nat.div_lt_iff_lt_mul (Nat.two_pow_pos _)]
      calc hi * 2 ^ _W + lo < d * 2 ^ (i + 1) * 2 := hR
        _ = 2 * d * 2 ^ (i + 1) := by ring
    have hQchar := divLoop_Q_char hi hiW' hlo
    have hwlt := divLoop_w_lt hi hiW' hlo
    have hhiQ : hi / 2 ^ (i + 1) ≤ 1 := by
      have h1 : hi / 2 ^ (i + 1) * 2 ^ _W ≤ (hi * 2 ^ _W + lo) / 2 ^ (i + 1) := by
        rw [hQchar]
        exact Nat.le_add_right _ _
      by_contra hcon
      have h2 : 2 * 2 ^ _W ≤ hi / 2 ^ (i + 1) * 2 ^ _W :=
        Nat.mul_le_mul_right _ (by omega)
      have h64 := e64
      omega
    have hQmod : (hi * 2 ^ _W + lo) / 2 ^ (i + 1) % 2 ^ _W =
        2 ^ (_W - (i + 1)) * (hi % 2 ^ (i + 1)) + lo / 2 ^ (i + 1) := by
      rw [hQchar, Nat.mul_comm (hi / 2 ^ (i + 1)) (2 ^ _W), Nat.mul_add_mod,
        Nat.mod_eq_of_lt hwlt]
    -- unfold one loop iteration
    simp only [divLoop]
    rw [divLoop_w_char hiW' hlo]
    -- the selector decides d ≤ Q
    have hsel : ctEq (2 ^ (_W - (i + 1)) * (hi % 2 ^ (i + 1)) + lo / 2 ^ (i + 1)) d |||
        ctGt (2 ^ (_W - (i + 1)) * (hi % 2 ^ (i + 1)) + lo / 2 ^ (i + 1)) d |||
        (hi >>> (i + 1)) =
        if d ≤ (hi * 2 ^ _W + lo) / 2 ^ (i + 1) then 1 else 0 := by
      rw [ctEq_spec hwlt hdW, ctGt_spec hwlt hdW, Nat.shiftRight_eq_div_pow]
      rcases Nat.le_one_iff_eq_zero_or_eq_one.mp hhiQ with h0 | h1
      · rw [h0]
        have hQw : (hi * 2 ^ _W + lo) / 2 ^ (i + 1) =
            2 ^ (_W - (i + 1)) * (hi % 2 ^ (i + 1)) + lo / 2 ^ (i + 1) := by
          rw [hQchar, h0]
          ring
        rw [hQw]
        rcases Nat.lt_trichotomy
          (2 ^ (_W - (i + 1)) * (hi % 2 ^ (i + 1)) + lo / 2 ^ (i + 1)) d with hc | hc | hc
        · rw [if_neg (by omega), if_neg (by omega), if_neg (by omega)]
          decide
        · rw [if_pos hc, if_neg (by omega), if_pos (by omega)]
          decide
        · rw [if_neg (by omega), if_pos (by omega), if_pos (by omega)]
          decide
      · rw [h1]
        have hQge : d ≤ (hi * 2 ^ _W + lo) / 2 ^ (i + 1) := by
          calc d ≤ 2 ^ _W := Nat.le_of_lt hdW
            _ ≤ 1 * 2 ^ _W +
                (2 ^ (_W - (i + 1)) * (hi % 2 ^ (i + 1)) + lo / 2 ^ (i + 1)) := by
                  rw [Nat.one_mul]
                  exact Nat.le_add_right _ _
            _ = (hi * 2 ^ _W + lo) / 2 ^ (i + 1) := by rw [hQchar, h1]
        rw [if_pos hQge]
        rcases Nat.lt_trichotomy
          (2 ^ (_W - (i + 1)) * (hi % 2 ^ (i + 1)) + lo / 2 ^ (i + 1)) d with hc | hc | hc
        · rw [if_neg (by omega), if_neg (by omega)]
          decide
        · rw [if_pos hc, if_neg (by omega)]
          decide
        · rw [if_neg (by omega), if_pos (by omega)]
          decide
    rw [hsel]
    by_cases hQd : d ≤ (hi * 2 ^ _W + lo) / 2 ^ (i + 1)
    · -- subtract step: the quotient bit is 1
      rw [if_pos hQd]
      have hDle : 2 ^ (i + 1) * d ≤ hi * 2 ^ _W + lo := by
        have h1 : d * 2 ^ (i + 1) ≤ hi * 2 ^ _W + lo :=
          (Nat.le_div_iff_mul_le (Nat.two_pow_pos (i + 1))).mp hQd
        calc 2 ^ (i + 1) * d = d * 2 ^ (i + 1) := Nat.mul_comm _ _
          _ ≤ hi * 2 ^ _W + lo := h1
      -- the new remainder
      have hR'div : (hi * 2 ^ _W + lo - 2 ^ (i + 1) * d) / 2 ^ (i + 1) =
          (hi * 2 ^ _W + lo) / 2 ^ (i + 1) - d :=
        Nat.sub_mul_div _ _ _ hDle
      -- wsub w d = Q - d
      have hkey1 : wsub (2 ^ (_W - (i + 1)) * (hi % 2 ^ (i + 1)) + lo / 2 ^ (i + 1)) d =
          (hi * 2 ^ _W + lo) / 2 ^ (i + 1) - d := by
        rcases Nat.le_one_iff_eq_zero_or_eq_one.mp hhiQ with h0 | h1
        · have hQw : (hi * 2 ^ _W + lo) / 2 ^ (i + 1) =
              2 ^ (_W - (i + 1)) * (hi % 2 ^ (i + 1)) + lo / 2 ^ (i + 1) := by
            rw [hQchar, h0]
            ring
          rw [wsub_of_le hwlt hdW (by omega), hQw]
        · have hQw : (hi * 2 ^ _W + lo) / 2 ^ (i + 1) =
              2 ^ _W + (2 ^ (_W - (i + 1)) * (hi % 2 ^ (i + 1)) + lo / 2 ^ (i + 1)) := by
            rw [hQchar, h1]
            ring
          have hwd : 2 ^ (_W - (i + 1)) * (hi % 2 ^ (i + 1)) + lo / 2 ^ (i + 1) < d := by
            omega
          rw [wsub_of_lt hwd hdW]
          omega
      -- the new top word
      have hkey2 : wsub (2 ^ (_W - (i + 1)) * (hi % 2 ^ (i + 1)) + lo / 2 ^ (i + 1)) d
          >>> (_W - (i + 1)) =
          (hi * 2 ^ _W + lo - 2 ^ (i + 1) * d) / 2 ^ _W := by
        rw [hkey1, Nat.shiftRight_eq_div_pow, ← hR'div, Nat.div_div_eq_div_mul, hj]
      -- the new low word
      have hD1lt : (d <<< (i + 1)) % 2 ^ _W < 2 ^ _W := Nat.mod_lt _ two_pow_W_pos
      have hlo_eq : lo = ((hi * 2 ^ _W + lo - 2 ^ (i + 1) * d) % 2 ^ _W +
          (d <<< (i + 1)) % 2 ^ _W) % 2 ^ _W := by
        rw [Nat.shiftLeft_eq]
        conv =>
          lhs
          rw [show lo = (hi * 2 ^ _W + lo) % 2 ^ _W by
            rw [Nat.mul_comm hi (2 ^ _W), Nat.mul_add_mod, Nat.mod_eq_of_lt hlo]]
        rw [show hi * 2 ^ _W + lo =
          (hi * 2 ^ _W + lo - 2 ^ (i + 1) * d) + d * 2 ^ (i + 1) by
            have : d * 2 ^ (i + 1) = 2 ^ (i + 1) * d := Nat.mul_comm _ _
            omega]
        rw [Nat.add_mod]
        have hcom : d * 2 ^ (i + 1) = 2 ^ (i + 1) * d := Nat.mul_comm _ _
        rw [hcom, Nat.add_sub_cancel]
      have hkey3 : wsub lo ((d <<< (i + 1)) % 2 ^ _W) =
          (hi * 2 ^ _W + lo - 2 ^ (i + 1) * d) % 2 ^ _W := by
        unfold wsub
        rw [Nat.mod_eq_of_lt hD1lt]
        conv =>
          lhs
          rw [hlo_eq]
        rw [Nat.mod_add_mod]
        rw [show (hi * 2 ^ _W + lo - 2 ^ (i + 1) * d) % 2 ^ _W +
            (d <<< (i + 1)) % 2 ^ _W + (2 ^ _W - (d <<< (i + 1)) % 2 ^ _W) =
            (hi * 2 ^ _W + lo - 2 ^ (i + 1) * d) % 2 ^ _W + 2 ^ _W by omega]
        rw [Nat.add_mod_right, Nat.mod_eq_of_lt (Nat.mod_lt _ two_pow_W_pos)]
      -- assemble the new state
      have hhi2lt : wsub (2 ^ (_W - (i + 1)) * (hi % 2 ^ (i + 1)) +
          lo / 2 ^ (i + 1)) d >>> (_W - (i + 1)) < 2 ^ _W := by
        calc wsub (2 ^ (_W - (i + 1)) * (hi % 2 ^ (i + 1)) +
              lo / 2 ^ (i + 1)) d >>> (_W - (i + 1)) ≤
            wsub (2 ^ (_W - (i + 1)) * (hi % 2 ^ (i + 1)) + lo / 2 ^ (i + 1)) d := by
              rw [Nat.shiftRight_eq_div_pow]
              exact Nat.div_le_self _ _
          _ < 2 ^ _W := wsub_lt _ _
      rw [ctIfElse_one hhi2lt hhiW, ctIfElse_one (wsub_lt _ _) hlo]
      rw [hkey2, hkey3, or_one_of_even hqe, Nat.shiftLeft_eq]
      have hquo2 : (quo + 1) * 2 ^ 1 = 2 * quo + 2 := by ring
      have hpow_half : 2 * 2 ^ (_W - (i + 1)) = 2 ^ (_W - i) := by
        rw [← Nat.pow_succ']
        congr 1
        omega
      have hqlt : 2 * quo + 2 < 2 ^ _W := by
        have h1 : 2 ^ (_W - i) ≤ 2 ^ _W := Nat.pow_le_pow_right (by omega) (by omega)
        omega
      rw [hquo2, Nat.mod_eq_of_lt hqlt]
      -- apply the induction hypothesis to the new state
      have hRnew : (hi * 2 ^ _W + lo - 2 ^ (i + 1) * d) / 2 ^ _W * 2 ^ _W +
          (hi * 2 ^ _W + lo - 2 ^ (i + 1) * d) % 2 ^ _W =
          hi * 2 ^ _W + lo - 2 ^ (i + 1) * d := by
        rw [Nat.mul_comm ((hi * 2 ^ _W + lo - 2 ^ (i + 1) * d) / 2 ^ _W) (2 ^ _W)]
        exact Nat.div_add_mod _ _
      have hRnew_lt : hi * 2 ^ _W + lo - 2 ^ (i + 1) * d < d * 2 ^ i * 2 := by
        have h1 : hi * 2 ^ _W + lo < d * 2 ^ (i + 1) * 2 := hR
        have h2 : d * 2 ^ (i + 1) * 2 = 2 ^ (i + 1) * d + 2 ^ (i + 1) * d := by ring
        have h3 : d * 2 ^ i * 2 = 2 ^ (i + 1) * d := by
          rw [Nat.pow_succ]
          ring
        omega
      obtain ⟨c1, c2, c3, c4, c5⟩ := ih d
        ((hi * 2 ^ _W + lo - 2 ^ (i + 1) * d) / 2 ^ _W)
        ((hi * 2 ^ _W + lo - 2 ^ (i + 1) * d) % 2 ^ _W)
        (2 * quo + 2) (by omega) hd hdW (Nat.mod_lt _ two_pow_W_pos)
        (by rw [hRnew]; exact hRnew_lt) (by omega) (by omega)
      refine ⟨c1, c2, c3, c4, ?_⟩
      rw [c5, hRnew]
      have hfin : d * (2 * quo + 2) * 2 ^ i = d * quo * 2 ^ (i + 1) +
          2 ^ (i + 1) * d := by
        rw [Nat.pow_succ]
        ring
      omega
    · -- keep step: the quotient bit is 0
      rw [if_neg hQd]
      rw [ctIfElse_zero, ctIfElse_zero, Nat.or_zero, Nat.shiftLeft_eq]
      have hpow_half : 2 * 2 ^ (_W - (i + 1)) = 2 ^ (_W - i) := by
        rw [← Nat.pow_succ']
        congr 1
        omega
      have hqlt : quo * 2 ^ 1 < 2 ^ _W := by
        have h1 : 2 ^ (_W - i) ≤ 2 ^ _W := Nat.pow_le_pow_right (by omega) (by omega)
        have h2 : quo * 2 ^ 1 = 2 * quo := by ring
        omega
      rw [Nat.mod_eq_of_lt hqlt]
      have hRlt : hi * 2 ^ _W + lo < d * 2 ^ i * 2 := by
        have h1 : (hi * 2 ^ _W + lo) / 2 ^ (i + 1) < d := by omega
        rw [Nat.div_lt_iff_lt_mul (Nat.two_pow_pos _)] at h1
        calc hi * 2 ^ _W + lo < d * 2 ^ (i + 1) := h1
          _ = d * 2 ^ i * 2 := by rw [Nat.pow_succ, ← Nat.mul_assoc]
      obtain ⟨c1, c2, c3, c4, c5⟩ := ih d hi lo (quo * 2 ^ 1) (by omega) hd hdW hlo
        hRlt (by
          have h2 : quo * 2 ^ 1 = 2 * quo := by ring
          omega) (by
          have h2 : quo * 2 ^ 1 = 2 * quo := by ring
          omega)
      refine ⟨c1, c2, c3, c4, ?_⟩
      rw [c5]
      have hfin : d * (quo * 2 ^ 1) * 2 ^ i = d * quo * 2 ^ (i + 1) := by
        rw [Nat.pow_succ]
        ring
      omega

/-- The constant-time `div` computes the true quotient and remainder of
the double word hi:lo by d, provided hi < d (the usual 2-by-1 precondition). -/
theorem div_spec (hi lo d : Nat) (hhi : hi < d) (hd : d < 2 ^ _W)
    (hlo : lo < 2 ^ _W) :
    div hi lo d = ((hi * 2 ^ _W + lo) / d, (hi * 2 ^ _W + lo) % d) := by
  have hd0 : 0 < d := Nat.lt_of_le_of_lt (Nat.zero_le hi) hhi
  have hhiW : hi < 2 ^ _W := Nat.lt_trans hhi hd
  have h64 := e64
  have h63 := e63
  have hN : hi * 2 ^ _W + lo < d * 2 ^ (_W - 1) * 2 := by
    have h1 : d * 2 ^ (_W - 1) * 2 = d * 2 ^ _W := by
      rw [Nat.mul_assoc]
      have hE : (2 : Nat) ^ (_W - 1) * 2 = 2 ^ _W := by omega
      rw [hE]
    have h2 : (hi + 1) * 2 ^ _W = hi * 2 ^ _W + 2 ^ _W := by ring
    have h3 : (hi + 1) * 2 ^ _W ≤ d * 2 ^ _W := Nat.mul_le_mul_right _ (by omega)
    omega
  obtain ⟨hR2d, hlofW, hquoB, hquoE, hval⟩ :=
    divLoop_spec (_W - 1) d hi lo 0 (Nat.le_refl _) hd0 hd hlo hN
      (by decide) (by decide)
  rcases hdl : divLoop d (_W - 1) hi lo 0 with ⟨hif, lof, quof⟩
  simp only [hdl] at hR2d hlofW hquoB hquoE hval
  have hifle : hif ≤ 1 := by
    by_contra hc
    have h2 : 2 * 2 ^ _W ≤ hif * 2 ^ _W := Nat.mul_le_mul_right _ (by omega)
    omega
  have hsel2 : ctEq lof d ||| ctGt lof d ||| hif =
      if d ≤ hif * 2 ^ _W + lof then 1 else 0 := by
    rw [ctEq_spec hlofW hd, ctGt_spec hlofW hd]
    rcases Nat.le_one_iff_eq_zero_or_eq_one.mp hifle with h0 | h1
    · rw [h0, Nat.zero_mul, Nat.zero_add]
      rcases Nat.lt_trichotomy lof d with hc | hc | hc
      · rw [if_neg (by omega), if_neg (by omega), if_neg (by omega)]
        decide
      · rw [if_pos hc, if_neg (by omega), if_pos (by omega)]
        decide
      · rw [if_neg (by omega), if_pos (by omega), if_pos (by omega)]
        decide
    · rw [h1, Nat.one_mul]
      have hge : d ≤ 2 ^ _W + lof := by omega
      rw [if_pos hge]
      rcases Nat.lt_trichotomy lof d with hc | hc | hc
      · rw [if_neg (by omega), if_neg (by omega)]
        decide
      · rw [if_pos hc, if_neg (by omega)]
        decide
      · rw [if_neg (by omega), if_pos (by omega)]
        decide
  have h1 : ctIfElse (ctEq hi d) 0 hi = hi := by
    rw [ctEq_spec hhiW hd, if_neg (Nat.ne_of_lt hhi), ctIfElse_zero]
  simp only [div, h1, hdl]
  rw [hsel2]
  by_cases hcase : d ≤ hif * 2 ^ _W + lof
  · rw [if_pos hcase]
    have hq1 : quof ||| 1 = quof + 1 := or_one_of_even hquoE
    have hrem : ctIfElse 1 (wsub lof d) lof = wsub lof d :=
      ctIfElse_one (wsub_lt _ _) hlofW
    have hsub : wsub lof d = hif * 2 ^ _W + lof - d := by
      rcases Nat.le_one_iff_eq_zero_or_eq_one.mp hifle with h0 | hone
      · rw [h0, Nat.zero_mul, Nat.zero_add]
        rw [h0, Nat.zero_mul, Nat.zero_add] at hcase
        exact wsub_of_le hlofW hd hcase
      · have hlofd : lof < d := by
          rw [hone, Nat.one_mul] at hR2d
          omega
        rw [wsub_of_lt hlofd hd, hone, Nat.one_mul]
        omega
    have hNval : d * (quof + 1) + (hif * 2 ^ _W + lof - d) =
        hi * 2 ^ _W + lo := by
      have h5 : d * (quof + 1) = d * quof + d := by ring
      omega
    have hrlt : hif * 2 ^ _W + lof - d < d := by omega
    have hdiv : (hi * 2 ^ _W + lo) / d = quof + 1 := by
      rw [← hNval, Nat.mul_add_div hd0, Nat.div_eq_of_lt hrlt, Nat.add_zero]
    have hmod : (hi * 2 ^ _W + lo) % d = hif * 2 ^ _W + lof - d := by
      rw [← hNval, Nat.mul_add_mod, Nat.mod_eq_of_lt hrlt]
    rw [hq1, hrem, hsub, hdiv, hmod]
  · rw [if_neg hcase]
    push_neg at hcase
    have hif0 : hif = 0 := by
      by_contra hc
      have h2 : 1 * 2 ^ _W ≤ hif * 2 ^ _W := Nat.mul_le_mul_right _ (by omega)
      omega
    have hq0 : quof ||| 0 = quof := Nat.or_zero _
    have hrem0 : ctIfElse 0 (wsub lof d) lof = lof := ctIfElse_zero _ _
    rw [hif0, Nat.zero_mul, Nat.zero_add] at hcase
    rw [hif0] at hval
    have hNval : d * quof + lof = hi * 2 ^ _W + lo := by omega
    have hdiv : (hi * 2 ^ _W + lo) / d = quof := by
      rw [← hNval, Nat.mul_add_div hd0, Nat.div_eq_of_lt hcase, Nat.add_zero]
    have hmod : (hi * 2 ^ _W + lo) % d = lof := by
      rw [← hNval, Nat.mul_add_mod, Nat.mod_eq_of_lt hcase]
    rw [hq0, hrem0, hdiv, hmod]

/-! ## Characterization of leadingZeros -/

theorem lt_of_div_pow_eq_zero {x k : Nat} (h : x / 2 ^ k = 0) : x < 2 ^ k := by
  have hd := Nat.div_add_mod x (2 ^ k)
  have hm := Nat.mod_lt x (Nat.two_pow_pos k)
  rw [h] at hd
  omega

theorem lzByteLoop_still_zero (x : Nat) : ∀ n cnt, lzByteLoop x n 0 cnt = (0, cnt) := by
  intro n
  induction n with
  | zero => intro cnt; rfl
  | succ n ih =>
    intro cnt
    show lzByteLoop x n (0 &&& ctEq ((x >>> (8 * n)) &&& 0xFF) 0)
      (cnt + (0 &&& ctEq ((x >>> (8 * n)) &&& 0xFF) 0)) = _
    rw [Nat.zero_and, Nat.add_zero]
    exact ih _

theorem lzByteLoop_count (x : Nat) : ∀ n cnt, x >>> (8 * n) = 0 →
    (lzByteLoop x n 1 cnt).2 = cnt + (n - (Nat.size x + 7) / 8) := by
  intro n
  induction n with
  | zero =>
    intro cnt _
    show cnt = cnt + (0 - (Nat.size x + 7) / 8)
    omega
  | succ n ih =>
    intro cnt hsh
    have hxlt : x < 2 ^ (8 * (n + 1)) := by
      apply lt_of_div_pow_eq_zero
      rw [← Nat.shiftRight_eq_div_pow]
      exact hsh
    have h8 : x >>> (8 * n) < 2 ^ 8 := by
      rw [Nat.shiftRight_eq_div_pow]
      rw [Nat.div_lt_iff_lt_mul (Nat.two_pow_pos _)]
      calc x < 2 ^ (8 * (n + 1)) := hxlt
        _ = 2 ^ 8 * 2 ^ (8 * n) := by rw [← Nat.pow_add]; congr 1; omega
    have hb : (x >>> (8 * n)) &&& 0xFF = x >>> (8 * n) := by
      have h2 : (0xFF : Nat) = 2 ^ 8 - 1 := by decide
      rw [h2, Nat.and_pow_two_sub_one_eq_mod, Nat.mod_eq_of_lt h8]
    have hbW : x >>> (8 * n) < 2 ^ _W := by
      have h2 : (2 : Nat) ^ 8 ≤ 2 ^ _W := Nat.pow_le_pow_right (by omega) (by norm_num [_W])
      omega
    show (lzByteLoop x n (1 &&& ctEq ((x >>> (8 * n)) &&& 0xFF) 0)
      (cnt + (1 &&& ctEq ((x >>> (8 * n)) &&& 0xFF) 0))).2 = _
    rw [hb, ctEq_spec hbW two_pow_W_pos]
    by_cases hz : x >>> (8 * n) = 0
    · rw [if_pos hz]
      have hzsz : Nat.size x ≤ 8 * n := by
        rw [Nat.size_le]
        apply lt_of_div_pow_eq_zero
        rw [← Nat.shiftRight_eq_div_pow]
        exact hz
      rw [show (1 : Nat) &&& 1 = 1 from by decide]
      rw [ih (cnt + 1) hz]
      omega
    · rw [if_neg hz]
      rw [show (1 : Nat) &&& 0 = 0 from by decide, Nat.add_zero]
      rw [lzByteLoop_still_zero]
      have hge : 2 ^ (8 * n) ≤ x := by
        by_contra hc
        push_neg at hc
        rw [Nat.shiftRight_eq_div_pow] at hz
        exact hz (Nat.div_eq_of_lt hc)
      have hsz : 8 * n < Nat.size x := Nat.lt_size.mpr hge
      omega

theorem lzBitLoop_still_zero (b : Nat) : ∀ n cnt, lzBitLoop b n 0 cnt = (0, cnt) := by
  intro n
  induction n with
  | zero => intro cnt; rfl
  | succ n ih =>
    intro cnt
    show lzBitLoop b n (0 &&& ctEq ((b >>> n) &&& 0b1) 0)
      (cnt + (0 &&& ctEq ((b >>> n) &&& 0b1) 0)) = _
    rw [Nat.zero_and, Nat.add_zero]
    exact ih _

theorem lzBitLoop_count (b : Nat) : ∀ n cnt, b >>> n = 0 →
    (lzBitLoop b n 1 cnt).2 = cnt + (n - Nat.size b) := by
  intro n
  induction n with
  | zero =>
    intro cnt _
    show cnt = cnt + (0 - Nat.size b)
    omega
  | succ n ih =>
    intro cnt hsh
    have hxlt : b < 2 ^ (n + 1) := by
      apply lt_of_div_pow_eq_zero
      rw [← Nat.shiftRight_eq_div_pow]
      exact hsh
    have h8 : b >>> n < 2 ^ 1 := by
      rw [Nat.shiftRight_eq_div_pow]
      rw [Nat.div_lt_iff_lt_mul (Nat.two_pow_pos _)]
      calc b < 2 ^ (n + 1) := hxlt
        _ = 2 ^ 1 * 2 ^ n := by rw [← Nat.pow_add]; congr 1; omega
    have hb : (b >>> n) &&& 0b1 = b >>> n := by
      have h2 : (0b1 : Nat) = 2 ^ 1 - 1 := by decide
      rw [h2, Nat.and_pow_two_sub_one_eq_mod, Nat.mod_eq_of_lt h8]
    have hbW : b >>> n < 2 ^ _W := by
      have h2 : (2 : Nat) ^ 1 ≤ 2 ^ _W := Nat.pow_le_pow_right (by omega) (by norm_num [_W])
      omega
    show (lzBitLoop b n (1 &&& ctEq ((b >>> n) &&& 0b1) 0)
      (cnt + (1 &&& ctEq ((b >>> n) &&& 0b1) 0))).2 = _
    rw [hb, ctEq_spec hbW two_pow_W_pos]
    by_cases hz : b >>> n = 0
    · rw [if_pos hz]
      have hzsz : Nat.size b ≤ n := by
        rw [Nat.size_le]
        apply lt_of_div_pow_eq_zero
        rw [← Nat.shiftRight_eq_div_pow]
        exact hz
      rw [show (1 : Nat) &&& 1 = 1 from by decide]
      rw [ih (cnt + 1) hz]
      omega
    · rw [if_neg hz]
      rw [show (1 : Nat) &&& 0 = 0 from by decide, Nat.add_zero]
      rw [lzBitLoop_still_zero]
      have hge : 2 ^ n ≤ b := by
        by_contra hc
        push_neg at hc
        rw [Nat.shiftRight_eq_div_pow] at hz
        exact hz (Nat.div_eq_of_lt hc)
      have hsz : n < Nat.size b := Nat.lt_size.mpr hge
      omega

/-- leadingZeros really counts the leading zero bits of a word. -/
theorem leadingZeros_spec {x : Nat} (hx : x < 2 ^ _W) :
    leadingZeros x = _W - Nat.size x := by
  rcases Nat.eq_zero_or_pos x with h0 | hpos
  · subst h0
    rw [Nat.size_zero]
    decide
  have hsz1 : 1 ≤ Nat.size x := Nat.size_pos.mpr hpos
  have hsz64 : Nat.size x ≤ _W := Nat.size_le.mpr hx
  have hshz : x >>> (8 * 8) = 0 := by
    rw [Nat.shiftRight_eq_div_pow]
    apply Nat.div_eq_of_lt
    calc x < 2 ^ _W := hx
      _ ≤ 2 ^ (8 * 8) := Nat.pow_le_pow_right (by omega) (by norm_num [_W])
  have hbytes := lzByteLoop_count x 8 0 hshz
  rw [Nat.zero_add] at hbytes
  have hW64 : _W = 64 := rfl
  show 8 * (lzByteLoop x 8 1 0).2 +
    (if (lzByteLoop x 8 1 0).2 < _W / 8 then
      (lzBitLoop ((x >>> (8 * (_W / 8 - 1 - (lzByteLoop x 8 1 0).2))) &&& 0xFF) 8 1 0).2
     else 0) = _W - Nat.size x
  rw [hbytes]
  set S8 := (Nat.size x + 7) / 8 with hS8
  have hS8ge : 1 ≤ S8 := by omega
  have hS8le : S8 ≤ 8 := by omega
  have hcond : 8 - S8 < _W / 8 := by
    rw [hW64]
    omega
  rw [if_pos hcond]
  have hidx : _W / 8 - 1 - (8 - S8) = S8 - 1 := by
    rw [hW64]
    omega
  rw [hidx]
  have hxS8 : x < 2 ^ (8 * S8) := by
    rw [← Nat.size_le] at *
    omega
  have h8 : x >>> (8 * (S8 - 1)) < 2 ^ 8 := by
    rw [Nat.shiftRight_eq_div_pow]
    rw [Nat.div_lt_iff_lt_mul (Nat.two_pow_pos _)]
    calc x < 2 ^ (8 * S8) := hxS8
      _ = 2 ^ 8 * 2 ^ (8 * (S8 - 1)) := by rw [← Nat.pow_add]; congr 1; omega
  have hmask : (x >>> (8 * (S8 - 1))) &&& 0xFF = x >>> (8 * (S8 - 1)) := by
    have h2 : (0xFF : Nat) = 2 ^ 8 - 1 := by decide
    rw [h2, Nat.and_pow_two_sub_one_eq_mod, Nat.mod_eq_of_lt h8]
  rw [hmask]
  set b := x >>> (8 * (S8 - 1)) with hbdef
  have hbsh : b >>> 8 = 0 := by
    rw [Nat.shiftRight_eq_div_pow]
    exact Nat.div_eq_of_lt h8
  have hbits := lzBitLoop_count b 8 0 hbsh
  rw [Nat.zero_add] at hbits
  rw [hbits]
  have hsizeb : Nat.size b = Nat.size x - 8 * (S8 - 1) := by
    have hkle : 8 * (S8 - 1) < Nat.size x := by omega
    have hble : b < 2 ^ (Nat.size x - 8 * (S8 - 1)) := by
      rw [hbdef, Nat.shiftRight_eq_div_pow]
      rw [Nat.div_lt_iff_lt_mul (Nat.two_pow_pos _)]
      calc x < 2 ^ Nat.size x := Nat.lt_size_self x
        _ = 2 ^ (Nat.size x - 8 * (S8 - 1)) * 2 ^ (8 * (S8 - 1)) := by
          rw [← Nat.pow_add]; congr 1; omega
    have hbge : 2 ^ (Nat.size x - 1 - 8 * (S8 - 1)) ≤ b := by
      rw [hbdef, Nat.shiftRight_eq_div_pow]
      rw [Nat.le_div_iff_mul_le (Nat.two_pow_pos _)]
      calc 2 ^ (Nat.size x - 1 - 8 * (S8 - 1)) * 2 ^ (8 * (S8 - 1)) =
          2 ^ (Nat.size x - 1) := by rw [← Nat.pow_add]; congr 1; omega
        _ ≤ x := by
          have := Nat.lt_size.mp (show Nat.size x - 1 < Nat.size x by omega)
          exact this
    have h1 : Nat.size b ≤ Nat.size x - 8 * (S8 - 1) := Nat.size_le.mpr hble
    have h2 : Nat.size x - 1 - 8 * (S8 - 1) < Nat.size b := Nat.lt_size.mpr hbge
    omega
  rw [hsizeb, hW64]
  omega

/-! ## Decomposing a limb list around its top two limbs -/

theorem exists_concat2 {L : List Nat} (h : 2 ≤ L.length) :
    ∃ P a b, L = P ++ [a, b] := by
  rcases hr : L.reverse with _ | ⟨b, r1⟩
  · rw [← L.reverse_reverse, hr] at h
    simp at h
  rcases r1 with _ | ⟨a, rest⟩
  · rw [← L.reverse_reverse, hr] at h
    simp at h
  refine ⟨rest.reverse, a, b, ?_⟩
  rw [← L.reverse_reverse, hr]
  simp

theorem getD_concat_self (P : List Nat) (a : Nat) (R : List Nat) :
    (P ++ a :: R).getD P.length 0 = a := by
  induction P with
  | nil => rfl
  | cons p ps ih => simpa using ih

theorem getD_concat2_fst (P : List Nat) (a b : Nat) :
    (P ++ [a, b]).getD ((P ++ [a, b]).length - 2) 0 = a := by
  have h1 : (P ++ [a, b]).length - 2 = P.length := by simp
  rw [h1]
  exact getD_concat_self P a [b]

theorem getD_concat2_snd (P : List Nat) (a b : Nat) :
    (P ++ [a, b]).getD ((P ++ [a, b]).length - 1) 0 = b := by
  have h0 : P ++ [a, b] = (P ++ [a]) ++ [b] := by simp
  have h1 : (P ++ [a, b]).length - 1 = (P ++ [a]).length := by simp
  rw [h1, h0]
  exact getD_concat_self (P ++ [a]) b []

theorem dropLast_concat2 (P : List Nat) (a b : Nat) :
    (P ++ [a, b]).dropLast = P ++ [a] := by
  have h0 : P ++ [a, b] = (P ++ [a]) ++ [b] := by simp
  rw [h0, List.dropLast_concat]

theorem valueOf_concat2 (P : List Nat) (a b : Nat) :
    valueOf (P ++ [a, b]) = valueOf P + 2 ^ (_W * P.length) * (a + 2 ^ _W * b) := by
  rw [valueOf_append, valueOf_cons, valueOf_cons]
  show _ = valueOf P + 2 ^ (_W * P.length) * (a + 2 ^ _W * (b + 2 ^ _W * valueOf []))
  rfl

/-- The normalized top word of a limb sequence: shifting the top two limbs
left by l and keeping the top _W bits equals the corresponding word of the
shifted value. -/
theorem topTwoWord {P : List Nat} {a b l : Nat} (hl : l < _W)
    (ha : a < 2 ^ _W) (hb : b < 2 ^ _W) (hP : wfLimbs P) :
    ((b <<< l) % 2 ^ _W) ||| (a >>> (_W - l)) =
    valueOf (P ++ [a, b]) * 2 ^ l / 2 ^ (_W * (P.length + 1)) % 2 ^ _W := by
  have hvP : valueOf P < 2 ^ (_W * P.length) := valueOf_lt hP
  have hsplit : (2 : Nat) ^ (_W * (P.length + 1)) = 2 ^ (_W * P.length) * 2 ^ _W := by
    rw [pow_mul_succ, Nat.mul_comm]
  have hlW : (2 : Nat) ^ _W = 2 ^ (_W - l) * 2 ^ l := by
    have h : _W - l + l = _W := by omega
    calc (2 : Nat) ^ _W = 2 ^ (_W - l + l) := by rw [h]
      _ = 2 ^ (_W - l) * 2 ^ l := Nat.pow_add 2 _ _
  have hstep1 : valueOf (P ++ [a, b]) * 2 ^ l =
      (valueOf P + a * 2 ^ (_W * P.length)) * 2 ^ l +
      b * 2 ^ l * 2 ^ (_W * (P.length + 1)) := by
    rw [valueOf_concat2, hsplit]
    ring
  have hstep2 : valueOf (P ++ [a, b]) * 2 ^ l / 2 ^ (_W * (P.length + 1)) =
      (valueOf P + a * 2 ^ (_W * P.length)) * 2 ^ l / 2 ^ (_W * (P.length + 1)) +
      b * 2 ^ l := by
    rw [hstep1, Nat.add_mul_div_right _ _ (Nat.two_pow_pos _)]
  have hstep3 : (valueOf P + a * 2 ^ (_W * P.length)) * 2 ^ l /
      2 ^ (_W * (P.length + 1)) = a >>> (_W - l) := by
    have h1 : (2 : Nat) ^ (_W * (P.length + 1)) =
        2 ^ (_W * P.length) * 2 ^ (_W - l) * 2 ^ l := by
      rw [hsplit, hlW]
      ring
    rw [h1, Nat.mul_div_mul_right _ _ (Nat.two_pow_pos l)]
    rw [← Nat.div_div_eq_div_mul]
    have h2 : (valueOf P + a * 2 ^ (_W * P.length)) / 2 ^ (_W * P.length) = a := by
      rw [Nat.add_mul_div_right _ _ (Nat.two_pow_pos _), Nat.div_eq_of_lt hvP,
        Nat.zero_add]
    rw [h2, Nat.shiftRight_eq_div_pow]
  have hshr : a >>> (_W - l) < 2 ^ l := by
    rw [Nat.shiftRight_eq_div_pow, Nat.div_lt_iff_lt_mul (Nat.two_pow_pos _)]
    have h : l + (_W - l) = _W := by omega
    calc a < 2 ^ _W := ha
      _ = 2 ^ (l + (_W - l)) := by rw [h]
      _ = 2 ^ l * 2 ^ (_W - l) := Nat.pow_add 2 _ _
  have hbmod : b * 2 ^ l % 2 ^ _W = b % 2 ^ (_W - l) * 2 ^ l := by
    rw [hlW, Nat.mul_mod_mul_right]
  have hsum_lt : b % 2 ^ (_W - l) * 2 ^ l + a >>> (_W - l) < 2 ^ _W := by
    clear hstep1 hstep2 hstep3 hvP hsplit hbmod
    have h1 : b % 2 ^ (_W - l) < 2 ^ (_W - l) := Nat.mod_lt _ (Nat.two_pow_pos _)
    have h2 : b % 2 ^ (_W - l) * 2 ^ l ≤ (2 ^ (_W - l) - 1) * 2 ^ l :=
      Nat.mul_le_mul_right _ (by omega)
    have h3 : (2 ^ (_W - l) - 1) * 2 ^ l + 2 ^ l = 2 ^ _W := by
      rw [hlW]
      have h4 : (0 : Nat) < 2 ^ (_W - l) := Nat.two_pow_pos _
      have h5 : (2 ^ (_W - l) - 1) * 2 ^ l + 1 * 2 ^ l = 2 ^ (_W - l) * 2 ^ l := by
        rw [← Nat.add_mul]
        congr 1
        omega
      omega
    omega
  have hrhs : valueOf (P ++ [a, b]) * 2 ^ l / 2 ^ (_W * (P.length + 1)) % 2 ^ _W =
      b % 2 ^ (_W - l) * 2 ^ l + a >>> (_W - l) := by
    rw [hstep2, hstep3]
    rw [Nat.add_comm (a >>> (_W - l)) (b * 2 ^ l), Nat.add_mod, hbmod,
      Nat.mod_eq_of_lt (by omega : a >>> (_W - l) < 2 ^ _W),
      Nat.mod_eq_of_lt hsum_lt]
  rw [hrhs, Nat.shiftLeft_eq, hbmod]
  rw [Nat.mul_comm (b % 2 ^ (_W - l)) (2 ^ l), ← Nat.mul_add_lt_is_or hshr,
    Nat.mul_comm (2 ^ l) (b % 2 ^ (_W - l))]

/-! ## The Knuth 2-by-1 quotient estimate -/

theorem knuth_estimate {K b Bb Ab : Nat} (hK : 0 < K) (hb : 2 ≤ b)
    (hb0 : b ≤ 2 * (Bb / K)) (hAB : Ab < Bb * b) :
    Ab / Bb ≤ Ab / K / (Bb / K) ∧ Ab / K / (Bb / K) ≤ Ab / Bb + 2 := by
  have hb0pos : 0 < Bb / K := by omega
  have hBb0 : 0 < Bb := by
    have h1 : Bb / K * K ≤ Bb := Nat.div_mul_le_self _ _
    have h2 : 1 * K ≤ Bb / K * K := Nat.mul_le_mul_right _ (by omega)
    omega
  constructor
  · rw [Nat.le_div_iff_mul_le hb0pos, Nat.le_div_iff_mul_le hK]
    calc Ab / Bb * (Bb / K) * K = Ab / Bb * (Bb / K * K) := Nat.mul_assoc _ _ _
      _ ≤ Ab / Bb * Bb := Nat.mul_le_mul_left _ (Nat.div_mul_le_self _ _)
      _ ≤ Ab := Nat.div_mul_le_self _ _
  · by_contra hcon
    push_neg at hcon
    have hq1 : (Ab / Bb + 3) * (Bb / K) ≤ Ab / K := by
      calc (Ab / Bb + 3) * (Bb / K) ≤ Ab / K / (Bb / K) * (Bb / K) :=
          Nat.mul_le_mul_right _ (by omega)
        _ ≤ Ab / K := Nat.div_mul_le_self _ _
    have hq2 : Ab / K * K ≤ Ab := Nat.div_mul_le_self _ _
    have hq12 : (Ab / Bb + 3) * (Bb / K) * K ≤ Ab :=
      le_trans (Nat.mul_le_mul_right _ hq1) hq2
    have hq3 : Ab < (Ab / Bb + 1) * Bb := by
      have h1 := Nat.div_add_mod Ab Bb
      have h2 := Nat.mod_lt Ab hBb0
      have h3 : (Ab / Bb + 1) * Bb = Bb * (Ab / Bb) + Bb := by ring
      omega
    have hq4 : Bb < (Bb / K + 1) * K := by
      have h1 := Nat.div_add_mod Bb K
      have h2 := Nat.mod_lt Bb hK
      have h3 : (Bb / K + 1) * K = K * (Bb / K) + K := by ring
      omega
    have hq5 : (Ab / Bb + 1) * Bb < (Ab / Bb + 1) * ((Bb / K + 1) * K) :=
      mul_lt_mul_of_pos_left hq4 (Nat.succ_pos _)
    have hq6 : (Ab / Bb + 3) * (Bb / K) * K < (Ab / Bb + 1) * (Bb / K + 1) * K := by
      calc (Ab / Bb + 3) * (Bb / K) * K ≤ Ab := hq12
        _ < (Ab / Bb + 1) * Bb := hq3
        _ < (Ab / Bb + 1) * ((Bb / K + 1) * K) := hq5
        _ = (Ab / Bb + 1) * (Bb / K + 1) * K := by ring
    have hq7 : (Ab / Bb + 3) * (Bb / K) < (Ab / Bb + 1) * (Bb / K + 1) :=
      Nat.lt_of_mul_lt_mul_right hq6
    have hq8 : Ab / Bb < b := by
      rw [Nat.div_lt_iff_lt_mul hBb0]
      calc Ab < Bb * b := hAB
        _ = b * Bb := Nat.mul_comm _ _
    have e3 : (Ab / Bb + 3) * (Bb / K) = Ab / Bb * (Bb / K) + 3 * (Bb / K) := by ring
    have e4 : (Ab / Bb + 1) * (Bb / K + 1) =
        Ab / Bb * (Bb / K) + Ab / Bb + Bb / K + 1 := by ring
    omega

theorem knuth_top_case {K b Bb Ab : Nat} (hK : 0 < K) (hb : 2 ≤ b)
    (hb0 : b ≤ 2 * (Bb / K)) (hAB : Ab < Bb * b)
    (htop : Bb / K ≤ Ab / (K * b)) :
    b ≤ Ab / Bb + 2 := by
  have hb0pos : 0 < Bb / K := by omega
  have hBb0 : 0 < Bb := by
    have h1 : Bb / K * K ≤ Bb := Nat.div_mul_le_self _ _
    have h2 : 1 * K ≤ Bb / K * K := Nat.mul_le_mul_right _ (by omega)
    omega
  by_contra hcon
  push_neg at hcon
  have hq0 : Bb / K * (K * b) ≤ Ab := by
    calc Bb / K * (K * b) ≤ Ab / (K * b) * (K * b) :=
      Nat.mul_le_mul_right _ htop
      _ ≤ Ab := Nat.div_mul_le_self _ _
  have hq3 : Ab < (Ab / Bb + 1) * Bb := by
    have h1 := Nat.div_add_mod Ab Bb
    have h2 := Nat.mod_lt Ab hBb0
    have h3 : (Ab / Bb + 1) * Bb = Bb * (Ab / Bb) + Bb := by ring
    omega
  have hq4 : Bb < (Bb / K + 1) * K := by
    have h1 := Nat.div_add_mod Bb K
    have h2 := Nat.mod_lt Bb hK
    have h3 : (Bb / K + 1) * K = K * (Bb / K) + K := by ring
    omega
  have hq5 : (Ab / Bb + 1) * Bb < (Ab / Bb + 1) * ((Bb / K + 1) * K) :=
    mul_lt_mul_of_pos_left hq4 (Nat.succ_pos _)
  have hq6 : Bb / K * b * K ≤ Ab := by
    calc Bb / K * b * K = Bb / K * (K * b) := by ring
      _ ≤ Ab := hq0
  have hq7 : Ab < (Ab / Bb + 1) * (Bb / K + 1) * K := by
    calc Ab < (Ab / Bb + 1) * Bb := hq3
      _ < (Ab / Bb + 1) * ((Bb / K + 1) * K) := hq5
      _ = (Ab / Bb + 1) * (Bb / K + 1) * K := by ring
  have hq8 : Bb / K * b < (Ab / Bb + 1) * (Bb / K + 1) :=
    Nat.lt_of_mul_lt_mul_right (lt_of_le_of_lt hq6 hq7)
  have hq9 : Ab / Bb + 1 ≤ b - 2 := by omega
  have hq10 : (Ab / Bb + 1) * (Bb / K + 1) ≤ (b - 2) * (Bb / K + 1) :=
    Nat.mul_le_mul_right _ hq9
  have e3 : (b - 2) * (Bb / K + 1) = (b - 2) * (Bb / K) + (b - 2) := by ring
  have e4 : Bb / K * b = b * (Bb / K) := by ring
  have e5 : (b - 2) * (Bb / K) + 2 * (Bb / K) = b * (Bb / K) := by
    rw [← Nat.add_mul]
    have h1 : b - 2 + 2 = b := by omega
    rw [h1]
  omega

/-! ## Normalization of a modulus by its leading zero count -/

theorem normalized_bounds {p vp a t l : Nat} (hp : 0 < p)
    (hvp : vp < p) (ha : a < 2 ^ _W) (htlo : 2 ^ (_W - 1) ≤ t * 2 ^ l)
    (hthi : (t + 1) * 2 ^ l ≤ 2 ^ _W) :
    p * 2 ^ _W * 2 ^ (_W - 1) ≤ (vp + p * (a + 2 ^ _W * t)) * 2 ^ l ∧
    (vp + p * (a + 2 ^ _W * t)) * 2 ^ l < p * 2 ^ _W * 2 ^ _W := by
  constructor
  · have h1 : p * (2 ^ _W * t) ≤ p * (a + 2 ^ _W * t) :=
      Nat.mul_le_mul_left _ (Nat.le_add_left _ _)
    have h2 : p * (2 ^ _W * t) ≤ vp + p * (a + 2 ^ _W * t) :=
      le_trans h1 (Nat.le_add_left _ _)
    have h3 : p * (2 ^ _W * t) * 2 ^ l ≤ (vp + p * (a + 2 ^ _W * t)) * 2 ^ l :=
      Nat.mul_le_mul_right _ h2
    have h4 : p * (2 ^ _W * t) * 2 ^ l = p * 2 ^ _W * (t * 2 ^ l) := by ring
    have h5 : p * 2 ^ _W * 2 ^ (_W - 1) ≤ p * 2 ^ _W * (t * 2 ^ l) :=
      Nat.mul_le_mul_left _ htlo
    omega
  · have h6 : a + 2 ^ _W * t + 1 ≤ 2 ^ _W * (t + 1) := by
      have e : 2 ^ _W * (t + 1) = 2 ^ _W * t + 2 ^ _W := by ring
      omega
    have h7 : vp + p * (a + 2 ^ _W * t) < p * (2 ^ _W * (t + 1)) := by
      have h7a : p * (a + 2 ^ _W * t + 1) = p * (a + 2 ^ _W * t) + p := by ring
      have h7b : p * (a + 2 ^ _W * t + 1) ≤ p * (2 ^ _W * (t + 1)) :=
        Nat.mul_le_mul_left _ h6
      omega
    have h8 : (vp + p * (a + 2 ^ _W * t)) * 2 ^ l < p * (2 ^ _W * (t + 1)) * 2 ^ l :=
      Nat.mul_lt_mul_of_pos_right h7 (Nat.two_pow_pos _)
    have h9 : p * (2 ^ _W * (t + 1)) * 2 ^ l = p * 2 ^ _W * ((t + 1) * 2 ^ l) := by
      ring
    have h10 : p * 2 ^ _W * ((t + 1) * 2 ^ l) ≤ p * 2 ^ _W * 2 ^ _W :=
      Nat.mul_le_mul_left _ hthi
    omega

theorem modulus_normalized {P : List Nat} {a t l : Nat}
    (hwf : wfLimbs (P ++ [a, t])) (ht0 : t ≠ 0) (hl : l = leadingZeros t) :
    l < _W ∧
    2 ^ (_W * (P.length + 2) - 1) ≤ valueOf (P ++ [a, t]) * 2 ^ l ∧
    valueOf (P ++ [a, t]) * 2 ^ l < 2 ^ (_W * (P.length + 2)) := by
  have hP : wfLimbs P := fun w hw => hwf w (List.mem_append_left _ hw)
  have ha : a < 2 ^ _W := hwf a (by simp)
  have ht : t < 2 ^ _W := hwf t (by simp)
  have hsz1 : 1 ≤ Nat.size t := Nat.size_pos.mpr (by omega)
  have hszW : Nat.size t ≤ _W := Nat.size_le.mpr ht
  have hlval : l = _W - Nat.size t := by rw [hl, leadingZeros_spec ht]
  have hlW : l < _W := by omega
  have htlo : 2 ^ (_W - 1) ≤ t * 2 ^ l := by
    have h1 : 2 ^ (Nat.size t - 1) ≤ t :=
      Nat.lt_size.mp (show Nat.size t - 1 < Nat.size t by omega)
    have h2 : 2 ^ (Nat.size t - 1) * 2 ^ l ≤ t * 2 ^ l := Nat.mul_le_mul_right _ h1
    have he : Nat.size t - 1 + l = _W - 1 := by omega
    have h3 : (2 : Nat) ^ (Nat.size t - 1) * 2 ^ l = 2 ^ (_W - 1) := by
      rw [← Nat.pow_add, he]
    omega
  have hthi : (t + 1) * 2 ^ l ≤ 2 ^ _W := by
    have h1 : t < 2 ^ (Nat.size t) := Nat.lt_size_self t
    have h2 : (t + 1) * 2 ^ l ≤ 2 ^ (Nat.size t) * 2 ^ l :=
      Nat.mul_le_mul_right _ (by omega)
    have he : Nat.size t + l = _W := by omega
    have h3 : (2 : Nat) ^ (Nat.size t) * 2 ^ l = 2 ^ _W := by
      rw [← Nat.pow_add, he]
    omega
  have hvp : valueOf P < 2 ^ (_W * P.length) := valueOf_lt hP
  have hbounds := normalized_bounds (Nat.two_pow_pos (_W * P.length)) hvp ha htlo hthi
  have he1 : (2 : Nat) ^ (_W * (P.length + 2) - 1) =
      2 ^ (_W * P.length) * 2 ^ _W * 2 ^ (_W - 1) := by
    have he : _W * P.length + _W + (_W - 1) = _W * (P.length + 2) - 1 := by
      have h0 : (0 : Nat) < _W := by norm_num [_W]
      have h1 : _W * (P.length + 2) = _W * P.length + _W + _W := by ring
      omega
    rw [← he, Nat.pow_add, Nat.pow_add]
  have he2 : (2 : Nat) ^ (_W * (P.length + 2)) =
      2 ^ (_W * P.length) * 2 ^ _W * 2 ^ _W := by
    have he : _W * P.length + _W + _W = _W * (P.length + 2) := by ring
    rw [← he, Nat.pow_add, Nat.pow_add]
  refine ⟨hlW, ?_, ?_⟩
  · rw [valueOf_concat2, he1]
    exact hbounds.1
  · rw [valueOf_concat2, he2]
    exact hbounds.2

/-! ## The correction step of shiftAddIn -/

theorem correction_step {N vM A q c hi vz2 : Nat}
    (hMpos : 0 < vM) (hMN : vM < N)
    (hA : A < vM * 2 ^ _W)
    (hq1 : A / vM ≤ q + 1) (hq2 : q ≤ A / vM + 1)
    (hhi : hi = A / N) (hiden : vz2 + q * vM = A % N + N * c)
    (hvz2 : vz2 < N) :
    (A < q * vM → c = hi + 1 ∧ vz2 + q * vM = A + N) ∧
    (q * vM ≤ A → A < q * vM + N → c = hi ∧ vz2 + q * vM = A) ∧
    (q * vM + N ≤ A → hi = c + 1 ∧ vz2 + q * vM + N = A) := by
  subst hhi
  have hN : 0 < N := by omega
  have hAdm := Nat.div_add_mod A N
  have hAmod : A % N < N := Nat.mod_lt _ hN
  have hqM_le : q * vM ≤ A + vM := by
    have h1 : vM * (A / vM) ≤ A := Nat.mul_div_le A vM
    have h2 : q * vM ≤ (A / vM + 1) * vM := Nat.mul_le_mul_right _ hq2
    have h3 : (A / vM + 1) * vM = vM * (A / vM) + vM := by ring
    omega
  have hA_lt : A < q * vM + 2 * vM := by
    have h1 := Nat.div_add_mod A vM
    have h2 : A % vM < vM := Nat.mod_lt _ hMpos
    have h3 : vM * (A / vM) ≤ vM * (q + 1) := Nat.mul_le_mul_left _ hq1
    have h4 : vM * (q + 1) = vM * q + vM := by ring
    have h5 : vM * q = q * vM := Nat.mul_comm _ _
    omega
  refine ⟨?_, ?_, ?_⟩
  · intro hcase
    have hchi : c = A / N + 1 := by
      have hlow : A / N < c := by
        by_contra hcon
        push_neg at hcon
        have h1 : N * c ≤ N * (A / N) := Nat.mul_le_mul_left _ hcon
        omega
      have hhigh : c < A / N + 2 := by
        by_contra hcon
        push_neg at hcon
        have h1 : N * (A / N + 2) ≤ N * c := Nat.mul_le_mul_left _ hcon
        have h2 : N * (A / N + 2) = N * (A / N) + 2 * N := by ring
        omega
      omega
    refine ⟨hchi, ?_⟩
    rw [hchi] at hiden
    have h2 : N * (A / N + 1) = N * (A / N) + N := by ring
    omega
  · intro hcase1 hcase2
    have hchi : c = A / N := by
      have hlow : c ≤ A / N := by
        by_contra hcon
        push_neg at hcon
        have h1 : N * (A / N + 1) ≤ N * c := Nat.mul_le_mul_left _ hcon
        have h2 : N * (A / N + 1) = N * (A / N) + N := by ring
        omega
      have hhigh : A / N ≤ c := by
        by_contra hcon
        push_neg at hcon
        have h1 : N * (c + 1) ≤ N * (A / N) := Nat.mul_le_mul_left _ hcon
        have h2 : N * (c + 1) = N * c + N := by ring
        omega
      omega
    refine ⟨hchi, ?_⟩
    rw [hchi] at hiden
    omega
  · intro hcase
    have hchi : A / N = c + 1 := by
      have hlow : c < A / N := by
        by_contra hcon
        push_neg at hcon
        have h1 : N * (A / N) ≤ N * c := Nat.mul_le_mul_left _ hcon
        omega
      have hhigh : A / N < c + 2 := by
        by_contra hcon
        push_neg at hcon
        have h1 : N * (c + 2) ≤ N * (A / N) := Nat.mul_le_mul_left _ hcon
        have h2 : N * (c + 2) = N * c + 2 * N := by ring
        omega
      omega
    refine ⟨hchi, ?_⟩
    rw [hchi] at hAdm
    have h2 : N * (c + 1) = N * c + N := by ring
    omega

/-! ## Digit extraction under normalization shifts -/

theorem top_digit_shift {u K x l : Nat} (hK : 0 < K) (hlW : l < _W)
    (hdvdK : 2 ^ l ∣ K) (hdvdu : 2 ^ l ∣ u) (hx : x < 2 ^ _W) :
    (u * 2 ^ _W + x * 2 ^ l) / (K * 2 ^ _W) = u / K := by
  have hpos : 0 < K * 2 ^ _W := Nat.mul_pos hK (Nat.two_pow_pos _)
  have hum : 2 ^ l ∣ u % K := (Nat.dvd_mod_iff hdvdK).mpr hdvdu
  have hmodK : u % K < K := Nat.mod_lt _ hK
  have hmle : u % K ≤ K - 2 ^ l := by
    obtain ⟨k2, hk2⟩ := hdvdK
    obtain ⟨m1, hm1⟩ := hum
    have hk2pos : 0 < k2 := by
      rcases Nat.eq_zero_or_pos k2 with h | h
      · rw [h, Nat.mul_zero] at hk2
        omega
      · exact h
    have hm1lt : m1 < k2 := by
      have h1 : 2 ^ l * m1 < 2 ^ l * k2 := by rw [← hm1, ← hk2]; exact hmodK
      exact Nat.lt_of_mul_lt_mul_left h1
    have h2 : 2 ^ l * m1 ≤ 2 ^ l * (k2 - 1) := Nat.mul_le_mul_left _ (by omega)
    have h3 : 2 ^ l * (k2 - 1) + 2 ^ l * 1 = 2 ^ l * k2 := by
      rw [← Nat.mul_add]
      congr 1
      omega
    omega
  have hlow : u % K * 2 ^ _W + x * 2 ^ l < K * 2 ^ _W := by
    have h1 : u % K * 2 ^ _W ≤ (K - 2 ^ l) * 2 ^ _W :=
      Nat.mul_le_mul_right _ hmle
    have h2 : (K - 2 ^ l) * 2 ^ _W + 2 ^ l * 2 ^ _W = K * 2 ^ _W := by
      rw [← Nat.add_mul]
      congr 1
      have h3 : 2 ^ l ≤ K := Nat.le_of_dvd hK hdvdK
      omega
    have h4 : x * 2 ^ l < 2 ^ _W * 2 ^ l := Nat.mul_lt_mul_of_pos_right hx
      (Nat.two_pow_pos _)
    have h5 : (2 : Nat) ^ _W * 2 ^ l = 2 ^ l * 2 ^ _W := Nat.mul_comm _ _
    omega
  have hsplit : u * 2 ^ _W + x * 2 ^ l =
      u % K * 2 ^ _W + x * 2 ^ l + u / K * (K * 2 ^ _W) := by
    conv =>
      lhs
      rw [← Nat.div_add_mod u K]
    ring
  rw [hsplit, Nat.add_mul_div_right _ _ hpos, Nat.div_eq_of_lt hlow, Nat.zero_add]

theorem low_digit_shift {v K m : Nat} (hK : 0 < K) :
    (v + K * (2 ^ _W * m)) / K % 2 ^ _W = v / K % 2 ^ _W := by
  rw [Nat.mul_comm K (2 ^ _W * m), Nat.add_mul_div_right _ _ hK,
    Nat.add_mul_mod_self_left]

/-! ## The quotient estimate as selected by the code -/

theorem q_selection {K Bb Ab : Nat} (hK : 0 < K)
    (hb0 : 2 ^ _W ≤ 2 * (Bb / K)) (hb0W : Bb / K < 2 ^ _W)
    (hAB : Ab < Bb * 2 ^ _W) :
    Ab / Bb ≤ ctIfElse (ctEq (Ab / (K * 2 ^ _W)) (Bb / K)) (2 ^ _W - 1)
      (ctIfElse (ctEq (div (Ab / (K * 2 ^ _W)) (Ab / K % 2 ^ _W) (Bb / K)).1 0) 0
        (wsub (div (Ab / (K * 2 ^ _W)) (Ab / K % 2 ^ _W) (Bb / K)).1 1)) + 1 ∧
    ctIfElse (ctEq (Ab / (K * 2 ^ _W)) (Bb / K)) (2 ^ _W - 1)
      (ctIfElse (ctEq (div (Ab / (K * 2 ^ _W)) (Ab / K % 2 ^ _W) (Bb / K)).1 0) 0
        (wsub (div (Ab / (K * 2 ^ _W)) (Ab / K % 2 ^ _W) (Bb / K)).1 1)) ≤
      Ab / Bb + 1 ∧
    ctIfElse (ctEq (Ab / (K * 2 ^ _W)) (Bb / K)) (2 ^ _W - 1)
      (ctIfElse (ctEq (div (Ab / (K * 2 ^ _W)) (Ab / K % 2 ^ _W) (Bb / K)).1 0) 0
        (wsub (div (Ab / (K * 2 ^ _W)) (Ab / K % 2 ^ _W) (Bb / K)).1 1)) <
      2 ^ _W := by
  have h64 := e64
  have hW2 : (2 : Nat) ≤ 2 ^ _W := by omega
  have hb0pos : 0 < Bb / K := by omega
  have hBb0 : 0 < Bb := by
    have h1 : Bb / K * K ≤ Bb := Nat.div_mul_le_self _ _
    have h2 : 1 * K ≤ Bb / K * K := Nat.mul_le_mul_right _ (by omega)
    omega
  have hqtW : Ab / Bb < 2 ^ _W := by
    rw [Nat.div_lt_iff_lt_mul hBb0]
    calc Ab < Bb * 2 ^ _W := hAB
      _ = 2 ^ _W * Bb := Nat.mul_comm _ _
  have hBbK : Bb < (Bb / K + 1) * K := by
    have h1 := Nat.div_add_mod Bb K
    have h2 := Nat.mod_lt Bb hK
    have h3 : (Bb / K + 1) * K = K * (Bb / K) + K := by ring
    omega
  have ha1le : Ab / (K * 2 ^ _W) ≤ Bb / K := by
    have h1 : Ab < (Bb / K + 1) * (K * 2 ^ _W) := by
      calc Ab < Bb * 2 ^ _W := hAB
        _ ≤ (Bb / K + 1) * K * 2 ^ _W :=
          Nat.mul_le_mul_right _ (Nat.le_of_lt hBbK)
        _ = (Bb / K + 1) * (K * 2 ^ _W) := by ring
    have h2 : Ab / (K * 2 ^ _W) < Bb / K + 1 := by
      rw [Nat.div_lt_iff_lt_mul (Nat.mul_pos hK (Nat.two_pow_pos _))]
      exact h1
    omega
  have ha1W : Ab / (K * 2 ^ _W) < 2 ^ _W := by omega
  have ha0W : Ab / K % 2 ^ _W < 2 ^ _W := Nat.mod_lt _ (Nat.two_pow_pos _)
  have hEdec : Ab / K = Ab / (K * 2 ^ _W) * 2 ^ _W + Ab / K % 2 ^ _W := by
    have h1 : Ab / (K * 2 ^ _W) = Ab / K / 2 ^ _W := by
      rw [Nat.div_div_eq_div_mul]
    rw [h1]
    have h2 := Nat.div_add_mod (Ab / K) (2 ^ _W)
    have h3 : 2 ^ _W * (Ab / K / 2 ^ _W) = Ab / K / 2 ^ _W * 2 ^ _W :=
      Nat.mul_comm _ _
    omega
  rw [ctEq_spec ha1W hb0W]
  by_cases hcase : Ab / (K * 2 ^ _W) = Bb / K
  · rw [if_pos hcase]
    rw [ctIfElse_one (by omega)
      (ctIfElse_unbounded_lt _ two_pow_W_pos (wsub_lt _ _))]
    have htop := knuth_top_case hK hW2 hb0 hAB
      (by rw [← hcase])
    refine ⟨by omega, by omega, by omega⟩
  · rw [if_neg hcase, ctIfElse_zero]
    have ha1lt : Ab / (K * 2 ^ _W) < Bb / K := by omega
    have hdiv := div_spec (Ab / (K * 2 ^ _W)) (Ab / K % 2 ^ _W) (Bb / K)
      ha1lt hb0W ha0W
    have hrawQ : (div (Ab / (K * 2 ^ _W)) (Ab / K % 2 ^ _W) (Bb / K)).1 =
        Ab / K / (Bb / K) := by
      rw [hdiv, ← hEdec]
    rw [hrawQ]
    have hest := knuth_estimate hK hW2 hb0 hAB
    have hqhatW : Ab / K / (Bb / K) < 2 ^ _W := by
      have h1 : Ab / K < Bb / K * 2 ^ _W := by
        have h2 : Ab / (K * 2 ^ _W) * 2 ^ _W ≤ (Bb / K - 1) * 2 ^ _W :=
          Nat.mul_le_mul_right _ (by omega)
        have h3 : (Bb / K - 1) * 2 ^ _W + 1 * 2 ^ _W = Bb / K * 2 ^ _W := by
          rw [← Nat.add_mul]
          congr 1
          omega
        omega
      rw [Nat.div_lt_iff_lt_mul hb0pos]
      calc Ab / K < Bb / K * 2 ^ _W := h1
        _ = 2 ^ _W * (Bb / K) := Nat.mul_comm _ _
    rw [ctEq_spec hqhatW two_pow_W_pos]
    by_cases hq0 : Ab / K / (Bb / K) = 0
    · rw [if_pos hq0]
      rw [ctIfElse_one (by omega) (wsub_lt _ _)]
      exact ⟨by omega, Nat.zero_le _, two_pow_W_pos⟩
    · rw [if_neg hq0, ctIfElse_zero]
      rw [wsub_of_le hqhatW (by omega) (by omega)]
      refine ⟨by omega, by omega, by omega⟩

/-! ## Full correctness of shiftAddIn -/

theorem exists_concat1 {L : List Nat} (h : L ≠ []) : ∃ P a, L = P ++ [a] := by
  rcases hr : L.reverse with _ | ⟨a, r1⟩
  · rw [← L.reverse_reverse, hr] at h
    simp at h
  refine ⟨r1.reverse, a, ?_⟩
  rw [← L.reverse_reverse, hr]
  simp

theorem valueOf_concat1 (P : List Nat) (a : Nat) :
    valueOf (P ++ [a]) = valueOf P + 2 ^ (_W * P.length) * a := by
  rw [valueOf_append, valueOf_cons]
  show _ = valueOf P + 2 ^ (_W * P.length) * (a + 2 ^ _W * valueOf [])
  rfl


theorem shiftAddIn_tail {M z1 : List Nat} {q zT A : Nat}
    (hlen1 : z1.length = M.length) (hwz1 : wfLimbs z1) (hwM : wfLimbs M)
    (hzT : zT < 2 ^ _W) (hqW : q < 2 ^ _W)
    (hMpos : 0 < valueOf M)
    (hMN : valueOf M < 2 ^ (_W * M.length))
    (hAeq : A = valueOf z1 + 2 ^ (_W * M.length) * zT)
    (hAlt : A < valueOf M * 2 ^ _W)
    (hq1 : A / valueOf M ≤ q + 1) (hq2 : q ≤ A / valueOf M + 1) :
    (ctCondCopy ((1 ^^^ ctGt (mulSubVVW z1 M q).2 zT) &&&
        (cmpGeq (mulSubVVW z1 M q).1 M ||| (1 ^^^ ctEq (mulSubVVW z1 M q).2 zT)))
      (ctCondCopy (ctGt (mulSubVVW z1 M q).2 zT) (mulSubVVW z1 M q).1
        (addVV (mulSubVVW z1 M q).1 M).1)
      (subVV (ctCondCopy (ctGt (mulSubVVW z1 M q).2 zT) (mulSubVVW z1 M q).1
        (addVV (mulSubVVW z1 M q).1 M).1) M).1).length = M.length ∧
    wfLimbs (ctCondCopy ((1 ^^^ ctGt (mulSubVVW z1 M q).2 zT) &&&
        (cmpGeq (mulSubVVW z1 M q).1 M ||| (1 ^^^ ctEq (mulSubVVW z1 M q).2 zT)))
      (ctCondCopy (ctGt (mulSubVVW z1 M q).2 zT) (mulSubVVW z1 M q).1
        (addVV (mulSubVVW z1 M q).1 M).1)
      (subVV (ctCondCopy (ctGt (mulSubVVW z1 M q).2 zT) (mulSubVVW z1 M q).1
        (addVV (mulSubVVW z1 M q).1 M).1) M).1) ∧
    valueOf (ctCondCopy ((1 ^^^ ctGt (mulSubVVW z1 M q).2 zT) &&&
        (cmpGeq (mulSubVVW z1 M q).1 M ||| (1 ^^^ ctEq (mulSubVVW z1 M q).2 zT)))
      (ctCondCopy (ctGt (mulSubVVW z1 M q).2 zT) (mulSubVVW z1 M q).1
        (addVV (mulSubVVW z1 M q).1 M).1)
      (subVV (ctCondCopy (ctGt (mulSubVVW z1 M q).2 zT) (mulSubVVW z1 M q).1
        (addVV (mulSubVVW z1 M q).1 M).1) M).1) = A % valueOf M ∧
    ctIfElse ((1 ^^^ ctGt (mulSubVVW z1 M q).2 zT) &&&
        (cmpGeq (mulSubVVW z1 M q).1 M ||| (1 ^^^ ctEq (mulSubVVW z1 M q).2 zT)))
      ((ctIfElse (ctGt (mulSubVVW z1 M q).2 zT) (wsub q 1) q + 1) % 2 ^ _W)
      (ctIfElse (ctGt (mulSubVVW z1 M q).2 zT) (wsub q 1) q) = A / valueOf M := by
  obtain ⟨hl2, hw2, hcW, hval2⟩ := mulSubVVW_spec q hlen1 hwz1 hwM hqW
  rcases hms : mulSubVVW z1 M q with ⟨z2, c⟩
  simp only [hms] at hl2 hw2 hcW hval2
  simp only [hms]
  rw [hlen1] at hval2
  have hNpos : (0 : Nat) < 2 ^ (_W * M.length) := Nat.two_pow_pos _
  have hvz1lt : valueOf z1 < 2 ^ (_W * M.length) := by
    rw [← hlen1]
    exact valueOf_lt hwz1
  have hzTA : zT = A / 2 ^ (_W * M.length) := by
    have h1 : A / 2 ^ (_W * M.length) = zT := by
      rw [hAeq, Nat.mul_comm (2 ^ (_W * M.length)) zT,
        Nat.add_mul_div_right _ _ hNpos, Nat.div_eq_of_lt hvz1lt, Nat.zero_add]
    exact h1.symm
  have hAmodN : A % 2 ^ (_W * M.length) = valueOf z1 := by
    rw [hAeq, Nat.mul_comm (2 ^ (_W * M.length)) zT,
      Nat.add_mul_mod_self_right, Nat.mod_eq_of_lt hvz1lt]
  have hiden : valueOf z2 + q * valueOf M =
      A % 2 ^ (_W * M.length) + 2 ^ (_W * M.length) * c := by
    rw [hAmodN]
    exact hval2
  have hvz2lt : valueOf z2 < 2 ^ (_W * M.length) := by
    have h1 := valueOf_lt hw2
    rw [hl2, hlen1] at h1
    exact h1
  have hcorr := correction_step hMpos hMN hAlt hq1 hq2 hzTA hiden hvz2lt
  have hAdm := Nat.div_add_mod A (valueOf M)
  have hAmodlt : A % valueOf M < valueOf M := Nat.mod_lt _ hMpos
  have hqtW : A / valueOf M < 2 ^ _W := by
    rw [Nat.div_lt_iff_lt_mul hMpos]
    calc A < valueOf M * 2 ^ _W := hAlt
      _ = 2 ^ _W * valueOf M := Nat.mul_comm _ _
  have hqMle : q * valueOf M ≤ A + valueOf M := by
    have h1 : A / valueOf M * valueOf M ≤ A := Nat.div_mul_le_self _ _
    have h2 : q * valueOf M ≤ (A / valueOf M + 1) * valueOf M :=
      Nat.mul_le_mul_right _ hq2
    have h3 : (A / valueOf M + 1) * valueOf M =
        A / valueOf M * valueOf M + valueOf M := by ring
    omega
  have hAlt2 : A < q * valueOf M + 2 * valueOf M := by
    have h3 : valueOf M * (A / valueOf M) ≤ valueOf M * (q + 1) :=
      Nat.mul_le_mul_left _ hq1
    have h4 : valueOf M * (q + 1) = q * valueOf M + valueOf M := by ring
    omega
  have hlenadd := (addVV_spec (hl2.trans hlen1) hw2 hwM).1
  have hwadd := (addVV_spec (hl2.trans hlen1) hw2 hwM).2.1
  have hcadd := (addVV_spec (hl2.trans hlen1) hw2 hwM).2.2.1
  have hvadd := (addVV_spec (hl2.trans hlen1) hw2 hwM).2.2.2
  rw [hl2.trans hlen1] at hvadd
  have hvaddlt : valueOf (addVV z2 M).1 < 2 ^ (_W * M.length) := by
    have h1 := valueOf_lt hwadd
    rw [hlenadd, hl2, hlen1] at h1
    exact h1
  by_cases hcu : A < q * valueOf M
  · -- under: add back one copy of M, decrement the quotient
    obtain ⟨hc_eq, hvz2_eq⟩ := hcorr.1 hcu
    have hqeq : q = A / valueOf M + 1 := by
      have h1 : A / valueOf M * valueOf M ≤ A := Nat.div_mul_le_self _ _
      have h2 : A / valueOf M * valueOf M < q * valueOf M := by omega
      have h3 : A / valueOf M < q := Nat.lt_of_mul_lt_mul_right h2
      omega
    have hcWzT : zT + 1 < 2 ^ _W := by rw [← hc_eq]; exact hcW
    have hunder : ctGt c zT = 1 := by
      rw [hc_eq, ctGt_spec hcWzT hzT, if_pos (Nat.lt_succ_self _)]
    rw [hunder]
    have hover : (1 ^^^ 1) &&& (cmpGeq z2 M ||| (1 ^^^ ctEq c zT)) = 0 := by
      rw [show (1 : Nat) ^^^ 1 = 0 from by decide]
      exact Nat.zero_and _
    rw [hover]
    have hz3 : ctCondCopy 1 z2 (addVV z2 M).1 = (addVV z2 M).1 :=
      ctCondCopy_one (by omega) hw2 hwadd
    rw [hz3]
    -- the addVV result: carry 1, value A + vM - q*vM
    have hsum : valueOf z2 + valueOf M =
        (A % valueOf M) + 2 ^ (_W * M.length) := by
      have h1 : q * valueOf M = A / valueOf M * valueOf M + valueOf M := by
        rw [hqeq]; ring
      have h2 : valueOf M * (A / valueOf M) = A / valueOf M * valueOf M :=
        Nat.mul_comm _ _
      omega
    have hcarry : (addVV z2 M).2 = 1 := by
      rcases Nat.le_one_iff_eq_zero_or_eq_one.mp hcadd with h0 | h1
      · rw [h0, Nat.mul_zero, Nat.add_zero] at hvadd
        omega
      · exact h1
    have hvz3 : valueOf (addVV z2 M).1 = A % valueOf M := by
      rw [hcarry, Nat.mul_one] at hvadd
      omega
    have hq1v : ctIfElse 1 (wsub q 1) q = wsub q 1 :=
      ctIfElse_one (wsub_lt _ _) hqW
    rw [hq1v, ctIfElse_zero]
    have hq1le : 1 ≤ q := by
      rw [hqeq]
      exact Nat.succ_le_succ (Nat.zero_le _)
    have h1lt : (1 : Nat) < 2 ^ _W := by
      have h64 := e64
      omega
    have hwsub1 : wsub q 1 = A / valueOf M := by
      rw [wsub_of_le hqW h1lt hq1le, hqeq]
      exact Nat.succ_sub_one _
    have hz4 : ctCondCopy 0 (addVV z2 M).1 (subVV (addVV z2 M).1 M).1 =
        (addVV z2 M).1 := by
      apply ctCondCopy_zero
      rw [(subVV_spec (hlenadd.trans (hl2.trans hlen1)) hwadd hwM).1]
    rw [hz4]
    exact ⟨by rw [hlenadd, hl2, hlen1], hwadd, hvz3, hwsub1⟩
  · push_neg at hcu
    by_cases hco : A < q * valueOf M + 2 ^ (_W * M.length)
    · -- the quotient guess was exact, or the low limbs are still too big
      obtain ⟨hc_eq, hvz2_eq⟩ := hcorr.2.1 hcu hco
      have hunder : ctGt c zT = 0 := by
        rw [hc_eq, ctGt_spec hzT hzT, if_neg (Nat.lt_irrefl _)]
      rw [hunder]
      have heqf : ctEq c zT = 1 := by
        rw [hc_eq, ctEq_spec hzT hzT, if_pos rfl]
      have hz3 : ctCondCopy 0 z2 (addVV z2 M).1 = z2 :=
        ctCondCopy_zero (by omega)
      rw [heqf, hz3]
      have hsb := cmpGeq_spec (hl2.trans hlen1) hw2 hwM
      have hq0v : ctIfElse 0 (wsub q 1) q = q := ctIfElse_zero _ _
      rw [hq0v]
      by_cases hbig : valueOf M ≤ valueOf z2
      · -- still one copy of M too big: subtract it, increment the quotient
        have hqeq : A / valueOf M = q + 1 := by
          have h1 : (q + 1) * valueOf M ≤ A := by
            have h2 : (q + 1) * valueOf M = q * valueOf M + valueOf M := by ring
            omega
          have h3 : q + 1 ≤ A / valueOf M :=
            (Nat.le_div_iff_mul_le hMpos).mpr h1
          omega
        have hover : (1 ^^^ 0) &&& (cmpGeq z2 M ||| (1 ^^^ 1)) = 1 := by
          rw [hsb, if_pos hbig]
          decide
        rw [hover]
        obtain ⟨hlensub, hwsub, hcsub, hvsub⟩ :=
          subVV_spec (hl2.trans hlen1) hw2 hwM
        rw [hl2.trans hlen1] at hvsub
        have hborrow : (subVV z2 M).2 = 0 := by
          rcases Nat.le_one_iff_eq_zero_or_eq_one.mp hcsub with h0 | h1
          · exact h0
          · rw [h1, Nat.mul_one] at hvsub
            have h2 := valueOf_lt hwsub
            rw [hlensub, hl2.trans hlen1] at h2
            omega
        rw [hborrow, Nat.mul_zero, Nat.add_zero] at hvsub
        have hvz4 : valueOf (subVV z2 M).1 = A % valueOf M := by
          have h1 : q * valueOf M + valueOf M = (q + 1) * valueOf M := by ring
          have h2 : valueOf M * (A / valueOf M) = (q + 1) * valueOf M := by
            rw [hqeq]; ring
          omega
        have hctc : ctCondCopy 1 z2 (subVV z2 M).1 = (subVV z2 M).1 :=
          ctCondCopy_one (by rw [hlensub]) hw2 hwsub
        rw [hctc]
        have hqfin : (q + 1) % 2 ^ _W = A / valueOf M := by
          rw [Nat.mod_eq_of_lt (by omega), hqeq]
        have hqfin2 : ctIfElse 1 ((q + 1) % 2 ^ _W) q = (q + 1) % 2 ^ _W :=
          ctIfElse_one (Nat.mod_lt _ two_pow_W_pos) hqW
        rw [hqfin2, hqfin]
        exact ⟨by rw [hlensub, hl2, hlen1], hwsub, hvz4, rfl⟩
      · -- the estimate was exactly right
        push_neg at hbig
        have hqeq : A / valueOf M = q := by
          have h1 : q ≤ A / valueOf M := (Nat.le_div_iff_mul_le hMpos).mpr hcu
          have h2 : A / valueOf M < q + 1 := by
            rw [Nat.div_lt_iff_lt_mul hMpos]
            have h3 : (q + 1) * valueOf M = q * valueOf M + valueOf M := by ring
            calc A < q * valueOf M + valueOf M := by omega
              _ = (q + 1) * valueOf M := by rw [h3]
          omega
        have hover : (1 ^^^ 0) &&& (cmpGeq z2 M ||| (1 ^^^ 1)) = 0 := by
          rw [hsb, if_neg (by omega)]
          decide
        rw [hover]
        have hz4 : ctCondCopy 0 z2 (subVV z2 M).1 = z2 :=
          ctCondCopy_zero (by rw [(subVV_spec (hl2.trans hlen1) hw2 hwM).1])
        rw [hz4, ctIfElse_zero]
        have hvz2fin : valueOf z2 = A % valueOf M := by
          have h2 : valueOf M * (A / valueOf M) = q * valueOf M := by
            rw [hqeq]; ring
          omega
        exact ⟨by rw [hl2, hlen1], hw2, hvz2fin, hqeq.symm⟩
    · -- overshoot across the 2^(W*len) boundary
      push_neg at hco
      obtain ⟨hzT_eq, hvz2_eq⟩ := hcorr.2.2 hco
      have hunder : ctGt c zT = 0 := by
        rw [ctGt_spec hcW hzT, if_neg (by omega)]
      rw [hunder]
      have heqf : ctEq c zT = 0 := by
        rw [ctEq_spec hcW hzT, if_neg (by omega)]
      rw [heqf]
      have hz3 : ctCondCopy 0 z2 (addVV z2 M).1 = z2 :=
        ctCondCopy_zero (by omega)
      rw [hz3]
      have hqeq : A / valueOf M = q + 1 := by
        have h1 : (q + 1) * valueOf M ≤ A := by
          have h2 : (q + 1) * valueOf M = q * valueOf M + valueOf M := by ring
          omega
        have h3 : q + 1 ≤ A / valueOf M :=
          (Nat.le_div_iff_mul_le hMpos).mpr h1
        omega
      have hsb := cmpGeq_spec (hl2.trans hlen1) hw2 hwM
      have hover : (1 ^^^ 0) &&& (cmpGeq z2 M ||| (1 ^^^ 0)) = 1 := by
        rw [hsb]
        by_cases hbig : valueOf M ≤ valueOf z2
        · rw [if_pos hbig]
          decide
        · rw [if_neg hbig]
          decide
      rw [hover]
      obtain ⟨hlensub, hwsub, hcsub, hvsub⟩ :=
        subVV_spec (hl2.trans hlen1) hw2 hwM
      rw [hl2.trans hlen1] at hvsub
      have hvz2small : valueOf z2 < valueOf M := by omega
      have hborrow : (subVV z2 M).2 = 1 := by
        rcases Nat.le_one_iff_eq_zero_or_eq_one.mp hcsub with h0 | h1
        · rw [h0, Nat.mul_zero, Nat.add_zero] at hvsub
          omega
        · exact h1
      rw [hborrow, Nat.mul_one] at hvsub
      have hvz4 : valueOf (subVV z2 M).1 = A % valueOf M := by
        have h1 : q * valueOf M + valueOf M = (q + 1) * valueOf M := by ring
        have h2 : valueOf M * (A / valueOf M) = (q + 1) * valueOf M := by
          rw [hqeq]; ring
        omega
      have hctc : ctCondCopy 1 z2 (subVV z2 M).1 = (subVV z2 M).1 :=
        ctCondCopy_one (by rw [hlensub]) hw2 hwsub
      rw [hctc, ctIfElse_zero]
      have hqfin : (q + 1) % 2 ^ _W = A / valueOf M := by
        rw [Nat.mod_eq_of_lt (by omega), hqeq]
      have hqfin2 : ctIfElse 1 ((q + 1) % 2 ^ _W) q = (q + 1) % 2 ^ _W :=
        ctIfElse_one (Nat.mod_lt _ two_pow_W_pos) hqW
      rw [hqfin2, hqfin]
      exact ⟨by rw [hlensub, hl2, hlen1], hwsub, hvz4, rfl⟩


theorem shiftAddIn_correct {m : Modulus} (hm : m.WF) {z : List Nat} {x : Nat}
    (hlen : z.length = m.nat.limbs.length) (hwz : wfLimbs z) (hx : x < 2 ^ _W)
    (hzm : valueOf z < valueOf m.nat.limbs) :
    (shiftAddIn z x m).1.length = z.length ∧
    wfLimbs (shiftAddIn z x m).1 ∧
    valueOf (shiftAddIn z x m).1 = (valueOf z * 2 ^ _W + x) % valueOf m.nat.limbs ∧
    (shiftAddIn z x m).2 = (valueOf z * 2 ^ _W + x) / valueOf m.nat.limbs := by
  obtain ⟨hne, hwM, ht0g, hlead, hann, heven⟩ := hm
  rcases hsz0 : m.nat.limbs.length with _ | szm1
  · exact absurd (List.length_eq_zero.mp hsz0) hne
  rcases Nat.eq_zero_or_pos szm1 with h1 | h1
  · -- size = 1
    subst h1
    obtain ⟨M0, hM0⟩ := List.length_eq_one.mp (by omega : m.nat.limbs.length = 1)
    obtain ⟨z0, hz0⟩ := List.length_eq_one.mp (by omega : z.length = 1)
    subst hz0
    have hvz : valueOf [z0] = z0 := by simp [valueOf]
    have hvM : valueOf m.nat.limbs = M0 := by rw [hM0]; simp [valueOf]
    have hz0W : z0 < 2 ^ _W := hwz z0 (by simp)
    have hM0W : M0 < 2 ^ _W := by
      have := hwM M0 (by rw [hM0]; simp)
      exact this
    have hz0M : z0 < M0 := by rw [hvz, hvM] at hzm; exact hzm
    simp only [shiftAddIn]
    rw [if_neg (by omega), if_pos (by omega : m.nat.limbs.length = 1)]
    rw [show ([z0] : List Nat).getD 0 0 = z0 from rfl]
    rw [show m.nat.limbs.getD 0 0 = M0 from by rw [hM0]; rfl]
    rw [div_spec z0 x M0 hz0M hM0W hx]
    refine ⟨rfl, ?_, ?_, ?_⟩
    · rw [wfLimbs_cons]
      refine ⟨?_, by simpa using wfLimbs_nil⟩
      have h2 : (z0 * 2 ^ _W + x) % M0 < M0 := Nat.mod_lt _ (by omega)
      omega
    · rw [hvz, hvM]
      simp [valueOf]
    · rw [hvz, hvM]
  · -- size ≥ 2
    obtain ⟨szm2, hszm2⟩ : ∃ k, szm1 = k + 1 := ⟨szm1 - 1, by omega⟩
    subst hszm2
    obtain ⟨PM, mA, t, hM⟩ := exists_concat2 (by omega : 2 ≤ m.nat.limbs.length)
    obtain ⟨PZ, zA, zT, hz⟩ := exists_concat2 (by omega : 2 ≤ z.length)
    subst hz
    simp only [shiftAddIn]
    rw [if_neg (by omega), if_neg (by omega)]
    have hPMlen : PM.length = szm2 := by
      have h2 := congrArg List.length hM
      simp at h2
      omega
    have hPZlen : PZ.length = szm2 := by
      have h2 := hlen
      simp at h2
      omega
    have hzA : zA < 2 ^ _W := hwz zA (by simp)
    have hzT : zT < 2 ^ _W := hwz zT (by simp)
    have ht : t < 2 ^ _W := by
      apply hwM
      rw [hM]
      simp
    have hmA : mA < 2 ^ _W := by
      apply hwM
      rw [hM]
      simp
    have hwPZ : wfLimbs PZ := fun w hw => hwz w (List.mem_append_left _ hw)
    have hwPM : wfLimbs PM := fun w hw => by
      apply hwM
      rw [hM]
      exact List.mem_append_left _ hw
    have hgt : m.nat.limbs.getD (m.nat.limbs.length - 1) 0 = t := by
      rw [hM]
      exact getD_concat2_snd _ _ _
    have hgm2 : m.nat.limbs.getD (m.nat.limbs.length - 2) 0 = mA := by
      rw [hM]
      exact getD_concat2_fst _ _ _
    have ht0 : t ≠ 0 := by
      rw [hgt] at ht0g
      exact ht0g
    have hleadt : m.leading = leadingZeros t := by rw [hlead, hgt]
    obtain ⟨hlW, hBlo, hBhi⟩ := modulus_normalized (hM ▸ hwM) ht0 hleadt
    rw [hPMlen] at hBlo hBhi
    have hvMM : valueOf (PM ++ [mA, t]) = valueOf m.nat.limbs := by rw [hM]
    rw [hvMM] at hBlo hBhi
    have hR1 : (PZ ++ [zA, zT]).getD (m.nat.limbs.length - 1) 0 = zT := by
      rw [← hlen]
      exact getD_concat2_snd _ _ _
    have hR2 : (PZ ++ [zA, zT]).getD (m.nat.limbs.length - 2) 0 = zA := by
      rw [← hlen]
      exact getD_concat2_fst _ _ _
    obtain ⟨P1, a1e, hXPZ⟩ := exists_concat1 (show x :: PZ ≠ [] by simp)
    have hz1eq : x :: (PZ ++ [zA, zT]).dropLast = P1 ++ [a1e, zA] := by
      rw [dropLast_concat2]
      rw [show x :: (PZ ++ [zA]) = (x :: PZ) ++ [zA] from rfl, hXPZ]
      simp
    have hP1len : P1.length = szm2 := by
      have h2 := congrArg List.length hXPZ
      simp at h2
      omega
    have hz1back : P1 ++ [a1e, zA] = x :: (PZ ++ [zA]) := by
      rw [← hz1eq, dropLast_concat2]
    have hwz1 : wfLimbs (P1 ++ [a1e, zA]) := by
      rw [hz1back]
      intro w hw
      simp at hw
      rcases hw with h | h | h
      · rw [h]; exact hx
      · exact hwPZ w h
      · rw [h]; exact hzA
    have hwP1 : wfLimbs P1 := fun w hw => hwz1 w (List.mem_append_left _ hw)
    have ha1e : a1e < 2 ^ _W := hwz1 a1e (by simp)
    have hR6 : (P1 ++ [a1e, zA]).getD (m.nat.limbs.length - 1) 0 = zA := by
      have hidx : m.nat.limbs.length - 1 = (P1 ++ [a1e, zA]).length - 1 := by
        simp [hP1len, hsz0]
      rw [hidx]
      exact getD_concat2_snd _ _ _
    have hR7 : (P1 ++ [a1e, zA]).getD (m.nat.limbs.length - 2) 0 = a1e := by
      have hidx : m.nat.limbs.length - 2 = (P1 ++ [a1e, zA]).length - 2 := by
        simp [hP1len, hsz0]
      rw [hidx]
      exact getD_concat2_fst _ _ _
    rw [hR1, hR2, hgt, hgm2, hz1eq, hR6, hR7]
    -- arithmetic characterization of the three normalized words
    have hvMpos : 0 < valueOf m.nat.limbs := by omega
    have hKpos : (0 : Nat) < 2 ^ (_W * (szm2 + 1)) := Nat.two_pow_pos _
    have hNKW : (2 : Nat) ^ (_W * (szm2 + 2)) = 2 ^ (_W * (szm2 + 1)) * 2 ^ _W := by
      have he : _W * (szm2 + 1) + _W = _W * (szm2 + 2) := by ring
      rw [← he, Nat.pow_add]
    have hvzl_lt : valueOf (PZ ++ [zA, zT]) * 2 ^ m.leading <
        2 ^ (_W * (szm2 + 2)) := by
      calc valueOf (PZ ++ [zA, zT]) * 2 ^ m.leading ≤
          valueOf m.nat.limbs * 2 ^ m.leading :=
            Nat.mul_le_mul_right _ (Nat.le_of_lt hzm)
        _ < 2 ^ (_W * (szm2 + 2)) := hBhi
    have hlK : m.leading ≤ _W * (szm2 + 1) := by
      have h1 : _W * 1 ≤ _W * (szm2 + 1) := Nat.mul_le_mul_left _ (by omega)
      omega
    have hdvdK : (2 : Nat) ^ m.leading ∣ 2 ^ (_W * (szm2 + 1)) :=
      pow_dvd_pow 2 hlK
    have hEA1 : ((zT <<< m.leading) % 2 ^ _W) ||| (zA >>> (_W - m.leading)) =
        (valueOf (PZ ++ [zA, zT]) * 2 ^ _W + x) * 2 ^ m.leading /
          (2 ^ (_W * (szm2 + 1)) * 2 ^ _W) := by
      have h1 := topTwoWord hlW hzA hzT hwPZ
      rw [hPZlen] at h1
      rw [h1]
      have hqlt : valueOf (PZ ++ [zA, zT]) * 2 ^ m.leading /
          2 ^ (_W * (szm2 + 1)) < 2 ^ _W := by
        rw [Nat.div_lt_iff_lt_mul hKpos]
        calc valueOf (PZ ++ [zA, zT]) * 2 ^ m.leading <
            2 ^ (_W * (szm2 + 2)) := hvzl_lt
          _ = 2 ^ _W * 2 ^ (_W * (szm2 + 1)) := by
              rw [hNKW]
              exact Nat.mul_comm _ _
      rw [Nat.mod_eq_of_lt hqlt]
      rw [show (valueOf (PZ ++ [zA, zT]) * 2 ^ _W + x) * 2 ^ m.leading =
        valueOf (PZ ++ [zA, zT]) * 2 ^ m.leading * 2 ^ _W + x * 2 ^ m.leading
        from by ring]
      exact (top_digit_shift hKpos hlW hdvdK
        (dvd_mul_left (2 ^ m.leading) (valueOf (PZ ++ [zA, zT]))) hx).symm
    have hEB : ((t <<< m.leading) % 2 ^ _W) ||| (mA >>> (_W - m.leading)) =
        valueOf m.nat.limbs * 2 ^ m.leading / 2 ^ (_W * (szm2 + 1)) := by
      have h1 := topTwoWord hlW hmA ht hwPM
      rw [hPMlen, hvMM] at h1
      rw [h1]
      have hqlt : valueOf m.nat.limbs * 2 ^ m.leading /
          2 ^ (_W * (szm2 + 1)) < 2 ^ _W := by
        rw [Nat.div_lt_iff_lt_mul hKpos]
        calc valueOf m.nat.limbs * 2 ^ m.leading < 2 ^ (_W * (szm2 + 2)) := hBhi
          _ = 2 ^ _W * 2 ^ (_W * (szm2 + 1)) := by
              rw [hNKW]
              exact Nat.mul_comm _ _
      rw [Nat.mod_eq_of_lt hqlt]
    have hAz1 : valueOf (PZ ++ [zA, zT]) * 2 ^ _W + x =
        valueOf (P1 ++ [a1e, zA]) + 2 ^ (_W * (szm2 + 2)) * zT := by
      have h1 : valueOf (P1 ++ [a1e, zA]) = x + 2 ^ _W * valueOf (PZ ++ [zA]) := by
        rw [hz1back, valueOf_cons]
      have h2 : valueOf (PZ ++ [zA, zT]) =
          valueOf (PZ ++ [zA]) + 2 ^ (_W * (szm2 + 1)) * zT := by
        rw [valueOf_concat2, valueOf_concat1, hPZlen, pow_mul_succ]
        ring
      rw [h1, h2, hNKW]
      ring
    have hEA0 : ((zA <<< m.leading) % 2 ^ _W) ||| (a1e >>> (_W - m.leading)) =
        (valueOf (PZ ++ [zA, zT]) * 2 ^ _W + x) * 2 ^ m.leading /
          2 ^ (_W * (szm2 + 1)) % 2 ^ _W := by
      have h1 := topTwoWord hlW ha1e hzA hwP1
      rw [hP1len] at h1
      rw [h1]
      have hA2l : (valueOf (PZ ++ [zA, zT]) * 2 ^ _W + x) * 2 ^ m.leading =
          valueOf (P1 ++ [a1e, zA]) * 2 ^ m.leading +
          2 ^ (_W * (szm2 + 1)) * (2 ^ _W * (zT * 2 ^ m.leading)) := by
        rw [hAz1, hNKW]
        ring
      rw [hA2l, low_digit_shift hKpos]
    rw [hEA1, hEB, hEA0]
    -- the quotient estimate
    have hb0lo : 2 ^ (_W - 1) ≤
        valueOf m.nat.limbs * 2 ^ m.leading / 2 ^ (_W * (szm2 + 1)) := by
      rw [Nat.le_div_iff_mul_le hKpos]
      have he : (_W - 1) + _W * (szm2 + 1) = _W * (szm2 + 2) - 1 := by
        have h0 : (0 : Nat) < _W := by norm_num [_W]
        have h1 : _W * (szm2 + 2) = _W * (szm2 + 1) + _W := by ring
        omega
      calc 2 ^ (_W - 1) * 2 ^ (_W * (szm2 + 1)) =
          2 ^ (_W * (szm2 + 2) - 1) := by rw [← Nat.pow_add, he]
        _ ≤ valueOf m.nat.limbs * 2 ^ m.leading := hBlo
    have hb0c : 2 ^ _W ≤
        2 * (valueOf m.nat.limbs * 2 ^ m.leading / 2 ^ (_W * (szm2 + 1))) := by
      have h63 := e63
      have h64 := e64
      omega
    have hb0W : valueOf m.nat.limbs * 2 ^ m.leading / 2 ^ (_W * (szm2 + 1)) <
        2 ^ _W := by
      rw [Nat.div_lt_iff_lt_mul hKpos]
      calc valueOf m.nat.limbs * 2 ^ m.leading < 2 ^ (_W * (szm2 + 2)) := hBhi
        _ = 2 ^ _W * 2 ^ (_W * (szm2 + 1)) := by
            rw [hNKW]
            exact Nat.mul_comm _ _
    have hAltW : valueOf (PZ ++ [zA, zT]) * 2 ^ _W + x <
        valueOf m.nat.limbs * 2 ^ _W := by
      have h1 : (valueOf (PZ ++ [zA, zT]) + 1) * 2 ^ _W ≤
          valueOf m.nat.limbs * 2 ^ _W := Nat.mul_le_mul_right _ (by omega)
      have h2 : (valueOf (PZ ++ [zA, zT]) + 1) * 2 ^ _W =
          valueOf (PZ ++ [zA, zT]) * 2 ^ _W + 2 ^ _W := by ring
      omega
    have hABc : (valueOf (PZ ++ [zA, zT]) * 2 ^ _W + x) * 2 ^ m.leading <
        valueOf m.nat.limbs * 2 ^ m.leading * 2 ^ _W := by
      calc (valueOf (PZ ++ [zA, zT]) * 2 ^ _W + x) * 2 ^ m.leading <
          valueOf m.nat.limbs * 2 ^ _W * 2 ^ m.leading :=
            Nat.mul_lt_mul_of_pos_right hAltW (Nat.two_pow_pos _)
        _ = valueOf m.nat.limbs * 2 ^ m.leading * 2 ^ _W := by ring
    obtain ⟨hq1s, hq2s, hq3s⟩ := q_selection hKpos hb0c hb0W hABc
    have hdivc : (valueOf (PZ ++ [zA, zT]) * 2 ^ _W + x) * 2 ^ m.leading /
        (valueOf m.nat.limbs * 2 ^ m.leading) =
        (valueOf (PZ ++ [zA, zT]) * 2 ^ _W + x) / valueOf m.nat.limbs :=
      Nat.mul_div_mul_right _ _ (Nat.two_pow_pos _)
    rw [hdivc] at hq1s hq2s
    rw [hlen]
    exact shiftAddIn_tail (by simp [hP1len, hsz0]) hwz1 hwM hzT hq3s hvMpos
      (valueOf_lt hwM)
      (by rw [show _W * m.nat.limbs.length = _W * (szm2 + 2) from by rw [hsz0]]
          exact hAz1)
      hAltW hq1s hq2s

/-- Claim C2: for every modulus m and buffer z of length len(m.limbs) whose
value is strictly less than m, and every limb x, shiftAddIn leaves z holding
(z·2^_W + x) mod m and returns the quotient word q such that
z·2^_W + x = q·m + z', where z' is the new value of z. -/
theorem claim_C2 (m : Modulus) (z : List Nat) (x : Nat)
    (hm : m.WF) (hlen : z.length = m.nat.limbs.length) (hwz : wfLimbs z)
    (hx : x < 2 ^ _W) (hzm : valueOf z < valueOf m.nat.limbs) :
    valueOf (shiftAddIn z x m).1 =
      (valueOf z * 2 ^ _W + x) % valueOf m.nat.limbs ∧
    valueOf z * 2 ^ _W + x =
      (shiftAddIn z x m).2 * valueOf m.nat.limbs +
        valueOf (shiftAddIn z x m).1 := by
  obtain ⟨h1, h2, h3, h4⟩ := shiftAddIn_correct hm hlen hwz hx hzm
  refine ⟨h3, ?_⟩
  rw [h3, h4]
  have h5 := Nat.div_add_mod (valueOf z * 2 ^ _W + x) (valueOf m.nat.limbs)
  have h6 : valueOf m.nat.limbs * ((valueOf z * 2 ^ _W + x) / valueOf m.nat.limbs) =
      (valueOf z * 2 ^ _W + x) / valueOf m.nat.limbs * valueOf m.nat.limbs :=
    Nat.mul_comm _ _
  omega

theorem claim_C2_witness :
    (modBig.WF ∧ ([5, 0] : List Nat).length = modBig.nat.limbs.length ∧
      wfLimbs [5, 0] ∧ (7 : Nat) < 2 ^ _W ∧
      valueOf [5, 0] < valueOf modBig.nat.limbs) ∧
    (valueOf (shiftAddIn [5, 0] 7 modBig).1 =
      (valueOf [5, 0] * 2 ^ _W + 7) % valueOf modBig.nat.limbs ∧
    valueOf [5, 0] * 2 ^ _W + 7 =
      (shiftAddIn [5, 0] 7 modBig).2 * valueOf modBig.nat.limbs +
        valueOf (shiftAddIn [5, 0] 7 modBig).1) :=
  ⟨⟨by decide, by decide, by decide, by decide, by decide⟩,
    claim_C2 modBig [5, 0] 7 (by decide) (by decide) (by decide) (by decide)
      (by decide)⟩

/-! ## resizedLimbs as the identity on well-formed reduced values -/

theorem wfLimbs_reverse {ls : List Nat} (h : wfLimbs ls) : wfLimbs ls.reverse :=
  fun w hw => h w (List.mem_reverse.mp hw)

theorem maskEnd_eq : ∀ (P : List Nat) (b bits : Nat),
    maskEnd (P ++ [b]) bits = P ++ [b &&& limbMask bits]
  | [], b, bits => rfl
  | [p], b, bits => rfl
  | p :: p' :: ps, b, bits => by
    show p :: maskEnd ((p' :: ps) ++ [b]) bits = _
    rw [maskEnd_eq (p' :: ps) b bits]
    rfl

theorem limbMask_pow {bits : Nat} (hb : 0 < bits) :
    limbMask bits = 2 ^ (bits - _W * (limbCount bits - 1)) - 1 := by
  unfold limbMask limbCount
  have hW64 : _W = 64 := rfl
  rw [hW64]
  by_cases h : bits % 64 = 0
  · rw [if_pos h]
    have he : bits - 64 * ((bits + 64 - 1) / 64 - 1) = 64 := by omega
    rw [he]
  · rw [if_neg h]
    have he : bits - 64 * ((bits + 64 - 1) / 64 - 1) = bits % 64 := by omega
    rw [he]

theorem maskEnd_id {ls : List Nat} {bits : Nat} (hwf : wfLimbs ls)
    (hlen : ls.length = limbCount bits) (hval : valueOf ls < 2 ^ bits) :
    maskEnd ls bits = ls := by
  rcases ls with _ | ⟨l, ls'⟩
  · rfl
  obtain ⟨P, b, hPb⟩ := exists_concat1 (show l :: ls' ≠ [] by simp)
  rw [hPb] at hlen hval hwf ⊢
  have hb0 : 0 < bits := by
    have h1 : 0 < limbCount bits := by
      rw [← hlen]
      simp
    unfold limbCount at h1
    have hW64 : _W = 64 := rfl
    rw [hW64] at h1
    omega
  have hPlen : P.length = limbCount bits - 1 := by
    simp at hlen
    omega
  have hbb : b < 2 ^ (bits - _W * (limbCount bits - 1)) := by
    have h1 : valueOf (P ++ [b]) = valueOf P + 2 ^ (_W * P.length) * b :=
      valueOf_concat1 _ _
    have h2 : 2 ^ (_W * P.length) * b < 2 ^ bits := by omega
    have h3 : _W * P.length ≤ bits := by
      rw [hPlen]
      unfold limbCount
      have hW64 : _W = 64 := rfl
      rw [hW64]
      omega
    have h6 : (2 : Nat) ^ bits = 2 ^ (_W * P.length) * 2 ^ (bits - _W * P.length) := by
      rw [← Nat.pow_add]
      congr 1
      omega
    have h7 : b < 2 ^ (bits - _W * P.length) := by
      by_contra hcon
      push_neg at hcon
      have h8 : 2 ^ (_W * P.length) * 2 ^ (bits - _W * P.length) ≤
          2 ^ (_W * P.length) * b := Nat.mul_le_mul_left _ hcon
      omega
    rw [hPlen] at h7
    exact h7
  rw [maskEnd_eq, limbMask_pow hb0]
  have hmask : b &&& (2 ^ (bits - _W * (limbCount bits - 1)) - 1) = b := by
    rw [Nat.and_pow_two_sub_one_eq_mod, Nat.mod_eq_of_lt hbb]
  rw [hmask]

theorem maskEnd_length : ∀ (ls : List Nat) (bits : Nat),
    (maskEnd ls bits).length = ls.length
  | [], _ => rfl
  | [l], _ => rfl
  | l :: l' :: ls, bits => by
    show (l :: maskEnd (l' :: ls) bits).length = _
    simp [maskEnd_length (l' :: ls) bits]

theorem resizedLimbsL_id {ls : List Nat} {bits : Nat} (hwf : wfLimbs ls)
    (hlen : ls.length = limbCount bits) (hval : valueOf ls < 2 ^ bits) :
    resizedLimbsL ls bits = ls := by
  show maskEnd (ls.take (limbCount bits) ++
    List.replicate (limbCount bits - ls.length) 0) bits = ls
  rw [← hlen, List.take_length, Nat.sub_self, List.replicate_zero,
    List.append_nil]
  exact maskEnd_id hwf hlen hval

theorem modulus_leading_lt {m : Modulus} (hm : m.WF) : m.leading < _W := by
  obtain ⟨hne, hwM, ht0, hlead, hann, heven⟩ := hm
  obtain ⟨P, b, hPb⟩ := exists_concat1 hne
  have hgd : m.nat.limbs.getD (m.nat.limbs.length - 1) 0 = b := by
    rw [hPb]
    have hidx : (P ++ [b]).length - 1 = P.length := by simp
    rw [hidx]
    exact getD_concat_self P b []
  have ht : b < 2 ^ _W := hwM b (by rw [hPb]; simp)
  rw [hlead, hgd, leadingZeros_spec ht]
  have h1 : 0 < Nat.size b := by
    apply Nat.size_pos.mpr
    rw [hgd] at ht0
    omega
  have h2 : (0 : Nat) < _W := by norm_num [_W]
  omega

theorem limbCount_announced {m : Modulus} (hm : m.WF) :
    limbCount m.nat.announced = m.nat.limbs.length := by
  have hlW : m.leading < _W := modulus_leading_lt hm
  obtain ⟨hne, hwM, ht0, hlead, hann, heven⟩ := hm
  have hsz : 0 < m.nat.limbs.length := by
    rcases hq : m.nat.limbs with _ | ⟨a, as⟩
    · exact absurd hq hne
    · simp
  unfold limbCount
  rw [hann]
  have hW64 : _W = 64 := rfl
  rw [hW64]
  rw [hW64] at hlW
  omega

/-! ## Value bounds of a well-formed modulus -/

theorem modulus_lower {m : Modulus} (hm : m.WF) :
    2 ^ (_W * (m.nat.limbs.length - 1)) ≤ valueOf m.nat.limbs := by
  obtain ⟨hne, hwM, ht0, hlead, hann, heven⟩ := hm
  obtain ⟨P, b, hPb⟩ := exists_concat1 hne
  have hgd : m.nat.limbs.getD (m.nat.limbs.length - 1) 0 = b := by
    rw [hPb]
    have hidx : (P ++ [b]).length - 1 = P.length := by simp
    rw [hidx]
    exact getD_concat_self P b []
  rw [hgd] at ht0
  rw [hPb, valueOf_concat1]
  have hlen : (P ++ [b]).length - 1 = P.length := by simp
  rw [hlen]
  have h1 : 2 ^ (_W * P.length) * 1 ≤ 2 ^ (_W * P.length) * b :=
    Nat.mul_le_mul_left _ (by omega)
  omega

theorem modulus_upper {m : Modulus} (hm : m.WF) :
    valueOf m.nat.limbs < 2 ^ m.nat.announced := by
  have hlW : m.leading < _W := modulus_leading_lt hm
  obtain ⟨hne, hwM, ht0, hlead, hann, heven⟩ := hm
  obtain ⟨P, b, hPb⟩ := exists_concat1 hne
  have hgd : m.nat.limbs.getD (m.nat.limbs.length - 1) 0 = b := by
    rw [hPb]
    have hidx : (P ++ [b]).length - 1 = P.length := by simp
    rw [hidx]
    exact getD_concat_self P b []
  rw [hgd] at ht0
  have hb : b < 2 ^ _W := hwM b (by rw [hPb]; simp)
  have hwP : wfLimbs P := fun w hw => hwM w (by rw [hPb]; exact List.mem_append_left _ hw)
  have hlen : m.nat.limbs.length = P.length + 1 := by
    rw [hPb]
    simp
  -- the top limb fits in _W - leading bits
  have hsize : Nat.size b = _W - m.leading := by
    rw [hlead, hgd, leadingZeros_spec hb]
    have h1 : 0 < Nat.size b := Nat.size_pos.mpr (by omega)
    have h2 : Nat.size b ≤ _W := Nat.size_le.mpr hb
    omega
  have hbfit : b < 2 ^ (_W - m.leading) := by
    rw [← hsize]
    exact Nat.lt_size_self b
  rw [hPb, valueOf_concat1, hann, hlen]
  have hvP : valueOf P < 2 ^ (_W * P.length) := valueOf_lt hwP
  have h1 : 2 ^ (_W * P.length) * b + 2 ^ (_W * P.length) ≤
      2 ^ (_W * P.length) * 2 ^ (_W - m.leading) := by
    have h2 : 2 ^ (_W * P.length) * (b + 1) ≤
        2 ^ (_W * P.length) * 2 ^ (_W - m.leading) :=
      Nat.mul_le_mul_left _ (by omega)
    have h3 : 2 ^ (_W * P.length) * (b + 1) =
        2 ^ (_W * P.length) * b + 2 ^ (_W * P.length) := by ring
    omega
  have h4 : (2 : Nat) ^ (_W * P.length) * 2 ^ (_W - m.leading) =
      2 ^ (_W * (P.length + 1) - m.leading) := by
    rw [← Nat.pow_add]
    congr 1
    have hd : _W * (P.length + 1) = _W * P.length + _W := by ring
    omega
  omega

/-! ## The reduction loop of Mod -/

theorem shiftAddLoop_spec {m : Modulus} (hm : m.WF) : ∀ (xs z : List Nat),
    z.length = m.nat.limbs.length → wfLimbs z → wfLimbs xs →
    valueOf z < valueOf m.nat.limbs →
    (shiftAddLoop m z xs).length = m.nat.limbs.length ∧
    wfLimbs (shiftAddLoop m z xs) ∧
    valueOf (shiftAddLoop m z xs) =
      (valueOf z * 2 ^ (_W * xs.length) + valueOf xs.reverse) %
        valueOf m.nat.limbs := by
  intro xs
  induction xs with
  | nil =>
    intro z hlen hwz hwxs hzm
    refine ⟨hlen, hwz, ?_⟩
    show valueOf z = (valueOf z * 2 ^ (_W * 0) + valueOf []) % valueOf m.nat.limbs
    rw [Nat.mul_zero, Nat.pow_zero, Nat.mul_one]
    show valueOf z = (valueOf z + 0) % valueOf m.nat.limbs
    rw [Nat.add_zero, Nat.mod_eq_of_lt hzm]
  | cons xi rest ih =>
    intro z hlen hwz hwxs hzm
    have hxi : xi < 2 ^ _W := hwxs xi (by simp)
    have hwrest : wfLimbs rest := fun w hw => hwxs w (List.mem_cons_of_mem _ hw)
    obtain ⟨h1, h2, h3, h4⟩ := shiftAddIn_correct hm hlen hwz hxi hzm
    have hMpos : 0 < valueOf m.nat.limbs := by
      have := Nat.zero_le (valueOf z)
      omega
    have hlt : valueOf (shiftAddIn z xi m).1 < valueOf m.nat.limbs := by
      rw [h3]
      exact Nat.mod_lt _ hMpos
    have hstep : shiftAddLoop m z (xi :: rest) =
        shiftAddLoop m (shiftAddIn z xi m).1 rest := rfl
    rw [hstep]
    obtain ⟨g1, g2, g3⟩ := ih (shiftAddIn z xi m).1 (h1.trans hlen) h2 hwrest hlt
    refine ⟨g1, g2, ?_⟩
    rw [g3, h3]
    have hrev : valueOf (xi :: rest).reverse =
        valueOf rest.reverse + 2 ^ (_W * rest.length) * xi := by
      rw [List.reverse_cons, valueOf_concat1, List.length_reverse]
    have hlenc : (_W * (xi :: rest).length) = _W * rest.length + _W := by
      rw [List.length_cons]
      ring
    rw [hrev, hlenc, Nat.pow_add]
    have hcong : ((valueOf z * 2 ^ _W + xi) % valueOf m.nat.limbs *
        2 ^ (_W * rest.length) + valueOf rest.reverse) % valueOf m.nat.limbs =
        ((valueOf z * 2 ^ _W + xi) * 2 ^ (_W * rest.length) +
          valueOf rest.reverse) % valueOf m.nat.limbs :=
      Nat.ModEq.add_right _ (Nat.ModEq.mul_right _ (Nat.mod_modEq _ _))
    rw [hcong]
    congr 1
    ring

theorem copyInto_of_length {dst src : List Nat} (h : dst.length = src.length) :
    copyInto dst src = src := by
  unfold copyInto
  rw [h, List.take_length, ← h, List.drop_length, List.append_nil]

theorem resizedLimbsL_length (ls : List Nat) (bits : Nat) :
    (resizedLimbsL ls bits).length = limbCount bits := by
  show (maskEnd (ls.take (limbCount bits) ++
    List.replicate (limbCount bits - ls.length) 0) bits).length = _
  rw [maskEnd_length]
  simp
  omega

theorem SetNat_of_WF (z : SNat) {x : SNat} (hx : x.WF) :
    SetNat z x = ⟨x.announced, x.reduced, x.limbs⟩ := by
  unfold SetNat
  congr 1
  apply copyInto_of_length
  show (resizedLimbsL z.limbs x.announced).length = _
  rw [resizedLimbsL_length, hx.1]

/-- Master lemma for `Mod`: the result is x mod m, fully reduced, with m's
announced length and limb count. -/
theorem Mod_spec (z : SNat) {x : SNat} (m : Modulus) (hm : m.WF) (hx : x.WF) :
    (Mod z x m).announced = m.nat.announced ∧
    (Mod z x m).reduced = some m ∧
    (Mod z x m).limbs.length = m.nat.limbs.length ∧
    wfLimbs (Mod z x m).limbs ∧
    valueOf (Mod z x m).limbs = valueOf x.limbs % valueOf m.nat.limbs := by
  by_cases hred : x.reduced = some m
  · obtain ⟨hmWF, hxlt, hxann⟩ := hx.2.2.2 m hred
    have hMod : Mod z x m = ⟨x.announced, x.reduced, x.limbs⟩ := by
      unfold Mod
      rw [if_pos hred]
      exact SetNat_of_WF z hx
    rw [hMod]
    refine ⟨hxann, hred, ?_, hx.2.1, (Nat.mod_eq_of_lt hxlt).symm⟩
    show x.limbs.length = m.nat.limbs.length
    rw [hx.1, hxann, limbCount_announced hm]
  · have hMod : Mod z x m = ⟨m.nat.announced, some m,
        resizedLimbsL
          (shiftAddLoop m
            (x.limbs.drop (x.limbs.length - min (m.nat.limbs.length - 1) x.limbs.length) ++
              List.replicate (m.nat.limbs.length - min (m.nat.limbs.length - 1) x.limbs.length) 0)
            (x.limbs.take (x.limbs.length - min (m.nat.limbs.length - 1) x.limbs.length)).reverse)
          m.nat.announced⟩ := by
      unfold Mod
      rw [if_neg hred]
    have hMpos : 0 < valueOf m.nat.limbs := by
      have h1 := modulus_lower hm
      have h2 := Nat.two_pow_pos (_W * (m.nat.limbs.length - 1))
      omega
    have hszpos : 0 < m.nat.limbs.length := by
      rcases hq : m.nat.limbs with _ | ⟨a, as⟩
      · exact absurd hq hm.1
      · simp
    have hk1 : min (m.nat.limbs.length - 1) x.limbs.length ≤ x.limbs.length :=
      Nat.min_le_right _ _
    have hk2 : min (m.nat.limbs.length - 1) x.limbs.length ≤
        m.nat.limbs.length - 1 := Nat.min_le_left _ _
    have hdlen : (x.limbs.drop (x.limbs.length -
        min (m.nat.limbs.length - 1) x.limbs.length)).length =
        min (m.nat.limbs.length - 1) x.limbs.length := by
      rw [List.length_drop]
      omega
    have hzslen : (x.limbs.drop (x.limbs.length -
        min (m.nat.limbs.length - 1) x.limbs.length) ++
        List.replicate (m.nat.limbs.length -
          min (m.nat.limbs.length - 1) x.limbs.length) 0).length =
        m.nat.limbs.length := by
      rw [List.length_append, hdlen, List.length_replicate]
      omega
    have hwdrop : wfLimbs (x.limbs.drop (x.limbs.length -
        min (m.nat.limbs.length - 1) x.limbs.length)) :=
      wfLimbs_drop _ hx.2.1
    have hwzs : wfLimbs (x.limbs.drop (x.limbs.length -
        min (m.nat.limbs.length - 1) x.limbs.length) ++
        List.replicate (m.nat.limbs.length -
          min (m.nat.limbs.length - 1) x.limbs.length) 0) :=
      wfLimbs_append hwdrop (wfLimbs_replicate_zero _)
    have hvzs : valueOf (x.limbs.drop (x.limbs.length -
        min (m.nat.limbs.length - 1) x.limbs.length) ++
        List.replicate (m.nat.limbs.length -
          min (m.nat.limbs.length - 1) x.limbs.length) 0) =
        valueOf (x.limbs.drop (x.limbs.length -
          min (m.nat.limbs.length - 1) x.limbs.length)) := by
      rw [valueOf_append, valueOf_replicate_zero, Nat.mul_zero, Nat.add_zero]
    have hvzs_lt : valueOf (x.limbs.drop (x.limbs.length -
        min (m.nat.limbs.length - 1) x.limbs.length) ++
        List.replicate (m.nat.limbs.length -
          min (m.nat.limbs.length - 1) x.limbs.length) 0) <
        valueOf m.nat.limbs := by
      rw [hvzs]
      have h1 := valueOf_lt hwdrop
      rw [hdlen] at h1
      have h2 : (2 : Nat) ^ (_W * min (m.nat.limbs.length - 1) x.limbs.length) ≤
          2 ^ (_W * (m.nat.limbs.length - 1)) :=
        Nat.pow_le_pow_right (by omega) (Nat.mul_le_mul_left _ hk2)
      have h3 := modulus_lower hm
      omega
    obtain ⟨g1, g2, g3⟩ := shiftAddLoop_spec hm
      (x.limbs.take (x.limbs.length -
        min (m.nat.limbs.length - 1) x.limbs.length)).reverse _
      hzslen hwzs (wfLimbs_reverse (wfLimbs_take _ hx.2.1)) hvzs_lt
    have hxslen : (x.limbs.take (x.limbs.length -
        min (m.nat.limbs.length - 1) x.limbs.length)).reverse.length =
        x.limbs.length - min (m.nat.limbs.length - 1) x.limbs.length := by
      rw [List.length_reverse, List.length_take]
      omega
    have hval : valueOf (shiftAddLoop m
        (x.limbs.drop (x.limbs.length -
          min (m.nat.limbs.length - 1) x.limbs.length) ++
          List.replicate (m.nat.limbs.length -
            min (m.nat.limbs.length - 1) x.limbs.length) 0)
        (x.limbs.take (x.limbs.length -
          min (m.nat.limbs.length - 1) x.limbs.length)).reverse) =
        valueOf x.limbs % valueOf m.nat.limbs := by
      rw [g3, hvzs, hxslen, List.reverse_reverse]
      congr 1
      have hsplit : valueOf x.limbs =
          valueOf (x.limbs.take (x.limbs.length -
            min (m.nat.limbs.length - 1) x.limbs.length)) +
          2 ^ (_W * (x.limbs.length -
            min (m.nat.limbs.length - 1) x.limbs.length)) *
          valueOf (x.limbs.drop (x.limbs.length -
            min (m.nat.limbs.length - 1) x.limbs.length)) := by
        conv =>
          lhs
          rw [← List.take_append_drop (x.limbs.length -
            min (m.nat.limbs.length - 1) x.limbs.length) x.limbs]
        rw [valueOf_append, List.length_take]
        have hmin : min (x.limbs.length -
            min (m.nat.limbs.length - 1) x.limbs.length) x.limbs.length =
            x.limbs.length - min (m.nat.limbs.length - 1) x.limbs.length := by
          omega
        rw [hmin]
      rw [hsplit]
      ring
    have hlt2 : valueOf (shiftAddLoop m
        (x.limbs.drop (x.limbs.length -
          min (m.nat.limbs.length - 1) x.limbs.length) ++
          List.replicate (m.nat.limbs.length -
            min (m.nat.limbs.length - 1) x.limbs.length) 0)
        (x.limbs.take (x.limbs.length -
          min (m.nat.limbs.length - 1) x.limbs.length)).reverse) <
        2 ^ m.nat.announced := by
      rw [hval]
      have h1 := Nat.mod_lt (valueOf x.limbs) hMpos
      have h2 := modulus_upper hm
      omega
    have hresz := resizedLimbsL_id g2 (by rw [g1, limbCount_announced hm]) hlt2
    rw [hMod]
    refine ⟨rfl, rfl, ?_, ?_, ?_⟩
    · show (resizedLimbsL _ m.nat.announced).length = m.nat.limbs.length
      rw [resizedLimbsL_length, limbCount_announced hm]
    · show wfLimbs (resizedLimbsL _ m.nat.announced)
      rw [hresz]
      exact g2
    · show valueOf (resizedLimbsL _ m.nat.announced) = _
      rw [hresz]
      exact hval

/-! ## The modular operations ModAdd, ModSub, ModNeg -/

theorem ModAdd_spec (z x y : SNat) (m : Modulus) (hm : m.WF) (hx : x.WF)
    (hy : y.WF) :
    (ModAdd z x y m).announced = m.nat.announced ∧
    (ModAdd z x y m).reduced = some m ∧
    (ModAdd z x y m).limbs.length = m.nat.limbs.length ∧
    wfLimbs (ModAdd z x y m).limbs ∧
    valueOf (ModAdd z x y m).limbs =
      (valueOf x.limbs + valueOf y.limbs) % valueOf m.nat.limbs := by
  obtain ⟨a1, a2, a3, a4, a5⟩ := Mod_spec newNat m hm hx
  obtain ⟨b1, b2, b3, b4, b5⟩ := Mod_spec newNat m hm hy
  have hwM := hm.2.1
  have hMN : valueOf m.nat.limbs < 2 ^ (_W * m.nat.limbs.length) :=
    valueOf_lt hwM
  have hMpos : 0 < valueOf m.nat.limbs := by
    have h1 := modulus_lower hm
    have h2 := Nat.two_pow_pos (_W * (m.nat.limbs.length - 1))
    omega
  have hxmlt : valueOf (Mod newNat x m).limbs < valueOf m.nat.limbs := by
    rw [a5]
    exact Nat.mod_lt _ hMpos
  have hymlt : valueOf (Mod newNat y m).limbs < valueOf m.nat.limbs := by
    rw [b5]
    exact Nat.mod_lt _ hMpos
  obtain ⟨la, wa, ca, va⟩ := addVV_spec (a3.trans b3.symm) a4 b4
  rw [a3] at va
  obtain ⟨ls, ws, cs, vs⟩ := subVV_spec (la.trans a3) wa hwM
  rw [la, a3] at vs
  have hsub_lt : valueOf (subVV (addVV (Mod newNat x m).limbs
      (Mod newNat y m).limbs).1 m.nat.limbs).1 <
      2 ^ (_W * m.nat.limbs.length) := by
    have h1 := valueOf_lt ws
    rw [ls, la, a3] at h1
    exact h1
  have hs_lt : valueOf (addVV (Mod newNat x m).limbs
      (Mod newNat y m).limbs).1 < 2 ^ (_W * m.nat.limbs.length) := by
    have h1 := valueOf_lt wa
    rw [la, a3] at h1
    exact h1
  have hMA : ModAdd z x y m = ⟨m.nat.announced, some m,
      ctCondCopy (ctEq (addVV (Mod newNat x m).limbs (Mod newNat y m).limbs).2
          (subVV (addVV (Mod newNat x m).limbs (Mod newNat y m).limbs).1
            m.nat.limbs).2)
        (addVV (Mod newNat x m).limbs (Mod newNat y m).limbs).1
        (subVV (addVV (Mod newNat x m).limbs (Mod newNat y m).limbs).1
          m.nat.limbs).1⟩ := rfl
  rw [hMA]
  dsimp only
  refine ⟨rfl, rfl, ?_, ?_, ?_⟩
  all_goals
    rcases Nat.le_one_iff_eq_zero_or_eq_one.mp ca with hca | hca <;>
      rcases Nat.le_one_iff_eq_zero_or_eq_one.mp cs with hcs | hcs <;>
      rw [hca] at va ⊢ <;> rw [hcs] at vs ⊢
  -- carry 0, borrow 0: result is the subtracted form
  · rw [show ctEq 0 0 = 1 from by decide,
      ctCondCopy_one ls.symm wa ws, ls, la, a3]
  · rw [show ctEq 0 1 = 0 from by decide, ctCondCopy_zero (by omega), la, a3]
  · exfalso
    rw [Nat.mul_one] at va
    rw [Nat.mul_zero, Nat.add_zero] at vs
    omega
  · rw [show ctEq 1 1 = 1 from by decide,
      ctCondCopy_one ls.symm wa ws, ls, la, a3]
  · rw [show ctEq 0 0 = 1 from by decide, ctCondCopy_one ls.symm wa ws]
    exact ws
  · rw [show ctEq 0 1 = 0 from by decide, ctCondCopy_zero (by omega)]
    exact wa
  · exfalso
    rw [Nat.mul_one] at va
    rw [Nat.mul_zero, Nat.add_zero] at vs
    omega
  · rw [show ctEq 1 1 = 1 from by decide, ctCondCopy_one ls.symm wa ws]
    exact ws
  · -- carry 0, borrow 0: sum at least m, subtract it
    rw [show ctEq 0 0 = 1 from by decide, ctCondCopy_one ls.symm wa ws]
    rw [Nat.mul_zero, Nat.add_zero] at va vs
    have htot : valueOf m.nat.limbs ≤
        valueOf (Mod newNat x m).limbs + valueOf (Mod newNat y m).limbs := by
      omega
    have htot2 : valueOf (Mod newNat x m).limbs + valueOf (Mod newNat y m).limbs <
        2 * valueOf m.nat.limbs := by omega
    rw [Nat.add_mod, ← a5, ← b5]
    rw [Nat.mod_eq_sub_mod (by omega)]
    rw [Nat.mod_eq_of_lt (by omega)]
    omega
  · rw [show ctEq 0 1 = 0 from by decide, ctCondCopy_zero (by omega)]
    rw [Nat.mul_zero, Nat.add_zero] at va
    rw [Nat.mul_one] at vs
    have htot : valueOf (Mod newNat x m).limbs + valueOf (Mod newNat y m).limbs <
        valueOf m.nat.limbs := by omega
    rw [Nat.add_mod, ← a5, ← b5]
    rw [Nat.mod_eq_of_lt (by omega)]
    omega
  · exfalso
    rw [Nat.mul_one] at va
    rw [Nat.mul_zero, Nat.add_zero] at vs
    omega
  · rw [show ctEq 1 1 = 1 from by decide, ctCondCopy_one ls.symm wa ws]
    rw [Nat.mul_one] at va vs
    have htot2 : valueOf (Mod newNat x m).limbs + valueOf (Mod newNat y m).limbs <
        2 * valueOf m.nat.limbs := by omega
    rw [Nat.add_mod, ← a5, ← b5]
    rw [Nat.mod_eq_sub_mod (by omega)]
    rw [Nat.mod_eq_of_lt (by omega)]
    omega

theorem ModSub_spec (z x y : SNat) (m : Modulus) (hm : m.WF) (hx : x.WF)
    (hy : y.WF) :
    (ModSub z x y m).announced = m.nat.announced ∧
    (ModSub z x y m).reduced = some m ∧
    (ModSub z x y m).limbs.length = m.nat.limbs.length ∧
    wfLimbs (ModSub z x y m).limbs ∧
    valueOf (ModSub z x y m).limbs < valueOf m.nat.limbs := by
  obtain ⟨a1, a2, a3, a4, a5⟩ := Mod_spec newNat m hm hx
  obtain ⟨b1, b2, b3, b4, b5⟩ := Mod_spec newNat m hm hy
  have hwM := hm.2.1
  have hMN : valueOf m.nat.limbs < 2 ^ (_W * m.nat.limbs.length) :=
    valueOf_lt hwM
  have hMpos : 0 < valueOf m.nat.limbs := by
    have h1 := modulus_lower hm
    have h2 := Nat.two_pow_pos (_W * (m.nat.limbs.length - 1))
    omega
  have hxmlt : valueOf (Mod newNat x m).limbs < valueOf m.nat.limbs := by
    rw [a5]
    exact Nat.mod_lt _ hMpos
  have hymlt : valueOf (Mod newNat y m).limbs < valueOf m.nat.limbs := by
    rw [b5]
    exact Nat.mod_lt _ hMpos
  obtain ⟨ls, ws, cs, vs⟩ := subVV_spec (a3.trans b3.symm) a4 b4
  rw [a3] at vs
  obtain ⟨la, wa, ca, va⟩ := addVV_spec (ls.trans a3) ws hwM
  rw [ls, a3] at va
  have hd_lt : valueOf (subVV (Mod newNat x m).limbs
      (Mod newNat y m).limbs).1 < 2 ^ (_W * m.nat.limbs.length) := by
    have h1 := valueOf_lt ws
    rw [ls, a3] at h1
    exact h1
  have ha_lt : valueOf (addVV (subVV (Mod newNat x m).limbs
      (Mod newNat y m).limbs).1 m.nat.limbs).1 <
      2 ^ (_W * m.nat.limbs.length) := by
    have h1 := valueOf_lt wa
    rw [la, ls, a3] at h1
    exact h1
  have hMS : ModSub z x y m = ⟨m.nat.announced, some m,
      ctCondCopy (ctEq (subVV (Mod newNat x m).limbs
          (Mod newNat y m).limbs).2 1)
        (subVV (Mod newNat x m).limbs (Mod newNat y m).limbs).1
        (addVV (subVV (Mod newNat x m).limbs (Mod newNat y m).limbs).1
          m.nat.limbs).1⟩ := rfl
  rw [hMS]
  dsimp only
  refine ⟨rfl, rfl, ?_, ?_, ?_⟩
  all_goals
    rcases Nat.le_one_iff_eq_zero_or_eq_one.mp cs with hcs | hcs <;>
      rw [hcs] at vs ⊢
  · rw [show ctEq 0 1 = 0 from by decide, ctCondCopy_zero (by omega), ls, a3]
  · rw [show ctEq 1 1 = 1 from by decide,
      ctCondCopy_one la.symm ws wa, la, ls, a3]
  · rw [show ctEq 0 1 = 0 from by decide, ctCondCopy_zero (by omega)]
    exact ws
  · rw [show ctEq 1 1 = 1 from by decide, ctCondCopy_one la.symm ws wa]
    exact wa
  · rw [show ctEq 0 1 = 0 from by decide, ctCondCopy_zero (by omega)]
    rw [Nat.mul_zero, Nat.add_zero] at vs
    omega
  · rw [show ctEq 1 1 = 1 from by decide, ctCondCopy_one la.symm ws wa]
    rw [Nat.mul_one] at vs
    rcases Nat.le_one_iff_eq_zero_or_eq_one.mp ca with hca | hca <;>
      rw [hca] at va
    · exfalso
      rw [Nat.mul_zero, Nat.add_zero] at va
      omega
    · rw [Nat.mul_one] at va
      omega

theorem ModNeg_spec (z x : SNat) (m : Modulus) (hm : m.WF) (hx : x.WF) :
    (ModNeg z x m).announced = m.nat.announced ∧
    (ModNeg z x m).reduced = some m ∧
    (ModNeg z x m).limbs.length = m.nat.limbs.length ∧
    wfLimbs (ModNeg z x m).limbs ∧
    valueOf (ModNeg z x m).limbs < valueOf m.nat.limbs := by
  obtain ⟨a1, a2, a3, a4, a5⟩ := Mod_spec z m hm hx
  have hwM := hm.2.1
  have hMN : valueOf m.nat.limbs < 2 ^ (_W * m.nat.limbs.length) :=
    valueOf_lt hwM
  have hMpos : 0 < valueOf m.nat.limbs := by
    have h1 := modulus_lower hm
    have h2 := Nat.two_pow_pos (_W * (m.nat.limbs.length - 1))
    omega
  have hxmlt : valueOf (Mod z x m).limbs < valueOf m.nat.limbs := by
    rw [a5]
    exact Nat.mod_lt _ hMpos
  have hreplen : (List.replicate m.nat.limbs.length (0 : Nat)).length =
      (Mod z x m).limbs.length := by
    rw [List.length_replicate, a3]
  obtain ⟨ls, ws, cs, vs⟩ := subVV_spec hreplen (wfLimbs_replicate_zero _) a4
  rw [List.length_replicate] at ls
  rw [List.length_replicate, valueOf_replicate_zero] at vs
  obtain ⟨la, wa, ca, va⟩ := addVV_spec ls ws hwM
  rw [ls] at va
  have hd_lt : valueOf (subVV (List.replicate m.nat.limbs.length 0)
      (Mod z x m).limbs).1 < 2 ^ (_W * m.nat.limbs.length) := by
    have h1 := valueOf_lt ws
    rw [ls] at h1
    exact h1
  have ha_lt : valueOf (addVV (subVV (List.replicate m.nat.limbs.length 0)
      (Mod z x m).limbs).1 m.nat.limbs).1 <
      2 ^ (_W * m.nat.limbs.length) := by
    have h1 := valueOf_lt wa
    rw [la, ls] at h1
    exact h1
  have hMG : ModNeg z x m = ⟨m.nat.announced, some m,
      ctCondCopy (ctEq (subVV (List.replicate m.nat.limbs.length 0)
          (Mod z x m).limbs).2 1)
        (subVV (List.replicate m.nat.limbs.length 0) (Mod z x m).limbs).1
        (addVV (subVV (List.replicate m.nat.limbs.length 0)
          (Mod z x m).limbs).1 m.nat.limbs).1⟩ := rfl
  rw [hMG]
  dsimp only
  refine ⟨rfl, rfl, ?_, ?_, ?_⟩
  all_goals
    rcases Nat.le_one_iff_eq_zero_or_eq_one.mp cs with hcs | hcs <;>
      rw [hcs] at vs ⊢
  · rw [show ctEq 0 1 = 0 from by decide, ctCondCopy_zero (by omega), ls]
  · rw [show ctEq 1 1 = 1 from by decide,
      ctCondCopy_one la.symm ws wa, la, ls]
  · rw [show ctEq 0 1 = 0 from by decide, ctCondCopy_zero (by omega)]
    exact ws
  · rw [show ctEq 1 1 = 1 from by decide, ctCondCopy_one la.symm ws wa]
    exact wa
  · rw [show ctEq 0 1 = 0 from by decide, ctCondCopy_zero (by omega)]
    rw [Nat.mul_zero, Nat.add_zero] at vs
    omega
  · rw [show ctEq 1 1 = 1 from by decide, ctCondCopy_one la.symm ws wa]
    rw [Nat.mul_one] at vs
    rcases Nat.le_one_iff_eq_zero_or_eq_one.mp ca with hca | hca <;>
      rw [hca] at va
    · exfalso
      rw [Nat.mul_zero, Nat.add_zero] at va
      omega
    · rw [Nat.mul_one] at va
      omega

/-! ## Claims C3 and C9 -/

/-- Claim C3: for every well-formed modulus m and well-formed inputs x and y
(not necessarily reduced), ModAdd(x, y, m) returns a value reduced modulo m
holding (x + y) mod m, announced at m's bit length and carrying the
reduction claim. -/
theorem claim_C3 (z x y : SNat) (m : Modulus) (hm : m.WF) (hx : x.WF)
    (hy : y.WF) :
    (ModAdd z x y m).announced = BitLen m ∧
    (ModAdd z x y m).reduced = some m ∧
    valueOf (ModAdd z x y m).limbs =
      (valueOf x.limbs + valueOf y.limbs) % valueOf m.nat.limbs := by
  obtain ⟨a1, a2, _, _, a5⟩ := ModAdd_spec z x y m hm hx hy
  exact ⟨a1, a2, a5⟩

theorem claim_C3_witness :
    (mod13.WF ∧ (SetUint64 newNat 40).WF ∧ (SetUint64 newNat 29).WF) ∧
    ((ModAdd newNat (SetUint64 newNat 40) (SetUint64 newNat 29)
        mod13).announced = BitLen mod13 ∧
      (ModAdd newNat (SetUint64 newNat 40) (SetUint64 newNat 29)
        mod13).reduced = some mod13 ∧
      valueOf (ModAdd newNat (SetUint64 newNat 40) (SetUint64 newNat 29)
        mod13).limbs =
        (valueOf (SetUint64 newNat 40).limbs +
          valueOf (SetUint64 newNat 29).limbs) % valueOf mod13.nat.limbs) :=
  ⟨⟨by decide, by decide, by decide⟩,
    claim_C3 newNat (SetUint64 newNat 40) (SetUint64 newNat 29) mod13
      (by decide) (by decide) (by decide)⟩

/-- Claim C9: for every well-formed modulus m and arbitrary well-formed
inputs x and y, the results of Mod, ModAdd, ModSub and ModNeg are numerically
strictly less than m and have announced length equal to m's announced bit
length. -/
theorem claim_C9 (z1 z2 z3 z4 x y : SNat) (m : Modulus) (hm : m.WF)
    (hx : x.WF) (hy : y.WF) :
    (valueOf (Mod z1 x m).limbs < valueOf m.nat.limbs ∧
      AnnouncedLen (Mod z1 x m) = BitLen m) ∧
    (valueOf (ModAdd z2 x y m).limbs < valueOf m.nat.limbs ∧
      AnnouncedLen (ModAdd z2 x y m) = BitLen m) ∧
    (valueOf (ModSub z3 x y m).limbs < valueOf m.nat.limbs ∧
      AnnouncedLen (ModSub z3 x y m) = BitLen m) ∧
    (valueOf (ModNeg z4 x m).limbs < valueOf m.nat.limbs ∧
      AnnouncedLen (ModNeg z4 x m) = BitLen m) := by
  have hMpos : 0 < valueOf m.nat.limbs := by
    have h1 := modulus_lower hm
    have h2 := Nat.two_pow_pos (_W * (m.nat.limbs.length - 1))
    omega
  obtain ⟨a1, _, _, _, a5⟩ := Mod_spec z1 m hm hx
  obtain ⟨b1, _, _, _, b5⟩ := ModAdd_spec z2 x y m hm hx hy
  obtain ⟨c1, _, _, _, c5⟩ := ModSub_spec z3 x y m hm hx hy
  obtain ⟨d1, _, _, _, d5⟩ := ModNeg_spec z4 x m hm hx
  refine ⟨⟨?_, a1⟩, ⟨?_, b1⟩, ⟨c5, c1⟩, ⟨d5, d1⟩⟩
  · rw [a5]
    exact Nat.mod_lt _ hMpos
  · rw [b5]
    exact Nat.mod_lt _ hMpos

theorem claim_C9_witness :
    (mod13.WF ∧ (SetUint64 newNat 40).WF ∧ (SetUint64 newNat 29).WF) ∧
    ((valueOf (Mod newNat (SetUint64 newNat 40) mod13).limbs <
        valueOf mod13.nat.limbs ∧
      AnnouncedLen (Mod newNat (SetUint64 newNat 40) mod13) = BitLen mod13) ∧
    (valueOf (ModAdd newNat (SetUint64 newNat 40) (SetUint64 newNat 29)
        mod13).limbs < valueOf mod13.nat.limbs ∧
      AnnouncedLen (ModAdd newNat (SetUint64 newNat 40) (SetUint64 newNat 29)
        mod13) = BitLen mod13) ∧
    (valueOf (ModSub newNat (SetUint64 newNat 40) (SetUint64 newNat 29)
        mod13).limbs < valueOf mod13.nat.limbs ∧
      AnnouncedLen (ModSub newNat (SetUint64 newNat 40) (SetUint64 newNat 29)
        mod13) = BitLen mod13) ∧
    (valueOf (ModNeg newNat (SetUint64 newNat 40) mod13).limbs <
        valueOf mod13.nat.limbs ∧
      AnnouncedLen (ModNeg newNat (SetUint64 newNat 40) mod13) =
        BitLen mod13)) :=
  ⟨⟨by decide, by decide, by decide⟩,
    claim_C9 newNat newNat newNat newNat (SetUint64 newNat 40)
      (SetUint64 newNat 29) mod13 (by decide) (by decide) (by decide)⟩

/-! ## Claims C1 and C4: divergences evaluated on concrete inputs -/

theorem ctIfElse_self (v x : Nat) : ctIfElse v x x = x := by
  unfold ctIfElse
  simp

theorem ctCondCopy_self (v : Nat) (x : List Nat) : ctCondCopy v x x = x := by
  unfold ctCondCopy
  induction x with
  | nil => rfl
  | cons a as ih =>
    simp only [List.zipWith_cons_cons, ctIfElse_self]
    rw [ih]

set_option maxRecDepth 10000 in
theorem modMul_zero_fix :
    ModMul (⟨2, some mod2, [0]⟩ : SNat) ⟨2, some mod2, [0]⟩ ⟨2, some mod2, [0]⟩
      mod2 = ⟨2, some mod2, [0]⟩ := by decide

set_option maxRecDepth 10000 in
theorem modMul_zero_scratch :
    ModMul newNat (⟨2, some mod2, [0]⟩ : SNat)
      (Mod newNat (SetUint64 newNat 1) mod2) mod2 = ⟨2, some mod2, [0]⟩ := by
  decide

set_option maxRecDepth 10000 in
theorem modMul_newNat_fix :
    ModMul newNat newNat newNat mod2 = ⟨2, some mod2, [0]⟩ := by decide

/-- The even-modulus exponentiation loop body keeps a zero accumulator at
zero: both the squared value and the conditional product with x are zero. -/
theorem expEvenBit_zero (n yi : Nat) :
    expEvenBit (Mod newNat (SetUint64 newNat 1) mod2) mod2 n
      ⟨2, some mod2, [0]⟩ yi = ⟨2, some mod2, [0]⟩ := by
  induction n with
  | zero => rfl
  | succ k ih =>
    have hstep : expEvenBit (Mod newNat (SetUint64 newNat 1) mod2) mod2 (k + 1)
        ⟨2, some mod2, [0]⟩ yi =
        expEvenBit (Mod newNat (SetUint64 newNat 1) mod2) mod2 k
          ⟨(ModMul ⟨2, some mod2, [0]⟩ ⟨2, some mod2, [0]⟩ ⟨2, some mod2, [0]⟩
              mod2).announced,
            (ModMul ⟨2, some mod2, [0]⟩ ⟨2, some mod2, [0]⟩
              ⟨2, some mod2, [0]⟩ mod2).reduced,
            ctCondCopy ((yi >>> k) &&& 1)
              (ModMul ⟨2, some mod2, [0]⟩ ⟨2, some mod2, [0]⟩
                ⟨2, some mod2, [0]⟩ mod2).limbs
              (ModMul newNat
                (ModMul ⟨2, some mod2, [0]⟩ ⟨2, some mod2, [0]⟩
                  ⟨2, some mod2, [0]⟩ mod2)
                (Mod newNat (SetUint64 newNat 1) mod2) mod2).limbs⟩ yi := rfl
    rw [hstep, modMul_zero_fix, modMul_zero_scratch]
    dsimp only
    rw [ctCondCopy_self]
    exact ih

/-- The first iteration takes the fresh receiver to the zero state. -/
theorem expEvenBit_start :
    expEvenBit (Mod newNat (SetUint64 newNat 1) mod2) mod2 (_W + 1) newNat 1 =
      ⟨2, some mod2, [0]⟩ := by
  have hstep : expEvenBit (Mod newNat (SetUint64 newNat 1) mod2) mod2 (_W + 1)
      newNat 1 =
      expEvenBit (Mod newNat (SetUint64 newNat 1) mod2) mod2 _W
        ⟨(ModMul newNat newNat newNat mod2).announced,
          (ModMul newNat newNat newNat mod2).reduced,
          ctCondCopy ((1 >>> _W) &&& 1)
            (ModMul newNat newNat newNat mod2).limbs
            (ModMul newNat (ModMul newNat newNat newNat mod2)
              (Mod newNat (SetUint64 newNat 1) mod2) mod2).limbs⟩ 1 := rfl
  rw [hstep, modMul_newNat_fix, modMul_zero_scratch]
  dsimp only
  rw [ctCondCopy_self]
  exact expEvenBit_zero _W 1

theorem natToLimbs_12345 : natToLimbs 12345 = [12345] := by
  rw [natToLimbs]
  rw [if_neg (by decide)]
  rw [show (12345 : Nat) % 2 ^ _W = 12345 from by decide,
    show (12345 : Nat) / 2 ^ _W = 0 from by decide]
  rw [natToLimbs]
  rw [if_pos rfl]

set_option maxRecDepth 10000 in
/-- Claim C1: Exp(x, y, m) should return x^y mod m, but expEven never
initialises the accumulator to 1: with a fresh receiver and the even
modulus 2, Exp(1, 1, m) evaluates to 0 while 1^1 mod 2 = 1. -/
theorem claim_C1 :
    valueOf (Exp newNat (SetUint64 newNat 1) (SetUint64 newNat 1)
      mod2).limbs = 0 ∧
    1 ^ 1 % 2 = 1 := by
  refine ⟨?_, by decide⟩
  have h1 : Exp newNat (SetUint64 newNat 1) (SetUint64 newNat 1) mod2 =
      expEvenLoop (Mod newNat (SetUint64 newNat 1) mod2) mod2
        (expEvenBit (Mod newNat (SetUint64 newNat 1) mod2) mod2 (_W + 1)
          newNat 1) [] := rfl
  rw [h1, expEvenBit_start]
  decide

set_option maxRecDepth 10000 in
/-- Claim C4: SetBig keeps the receiver's stale reduced claim: starting from
a value reduced modulo 13 and overwriting it with 12345 at 64 bits leaves
reduced = some mod13 while the value now exceeds the modulus, so the code's
own checkInvariants rejects the result and the reduction claim is invalid. -/
theorem claim_C4 :
    checkInvariants (Mod newNat (SetUint64 newNat 40) mod13) = true ∧
    (Mod newNat (SetUint64 newNat 40) mod13).reduced = some mod13 ∧
    (SetBig (Mod newNat (SetUint64 newNat 40) mod13) 12345 64).reduced =
      some mod13 ∧
    checkInvariants (SetBig (Mod newNat (SetUint64 newNat 40) mod13)
      12345 64) = false ∧
    valueOf mod13.nat.limbs <
      valueOf (SetBig (Mod newNat (SetUint64 newNat 40) mod13)
        12345 64).limbs ∧
    ¬ reducedOK (SetBig (Mod newNat (SetUint64 newNat 40) mod13)
      12345 64) := by
  simp only [SetBig, natToLimbs_12345]
  decide

/-! ## Claim C10: the Byte accessor -/

theorem byte_extract {ls : List Nat} (hwf : wfLimbs ls) {j : Nat}
    (hj : j < ls.length * 8) :
    (ls.getD (j / 8) 0 >>> (8 * (j % 8))) % 2 ^ 8 =
      valueOf ls / 2 ^ (8 * j) % 2 ^ 8 := by
  have hW64 : _W = 64 := rfl
  have hqlen : j / 8 < ls.length := by omega
  have htake : (ls.take (j / 8)).length = j / 8 := by
    rw [List.length_take]
    omega
  have hsplit0 : ls.take (j / 8) ++ ls.drop (j / 8) = ls :=
    List.take_append_drop _ _
  have hsplit : valueOf ls = valueOf (ls.take (j / 8)) +
      2 ^ (_W * (j / 8)) * valueOf (ls.drop (j / 8)) := by
    conv_lhs => rw [← hsplit0]
    rw [valueOf_append, htake]
  have hdrop : ls.drop (j / 8) = ls.getD (j / 8) 0 :: ls.drop (j / 8 + 1) := by
    rw [List.getD_eq_getElem _ _ hqlen]
    exact List.drop_eq_getElem_cons hqlen
  have hvL : valueOf (ls.take (j / 8)) < 2 ^ (64 * (j / 8)) := by
    have h := valueOf_lt (wfLimbs_take (j / 8) hwf)
    rw [htake, hW64] at h
    exact h
  rw [hsplit, hdrop, valueOf_cons]
  rw [Nat.shiftRight_eq_div_pow]
  rw [hW64]
  have hexp : 8 * j = 64 * (j / 8) + 8 * (j % 8) := by omega
  rw [hexp, Nat.pow_add]
  rw [← Nat.div_div_eq_div_mul]
  rw [Nat.add_mul_div_left _ _ (Nat.two_pow_pos _)]
  rw [Nat.div_eq_of_lt hvL, Nat.zero_add]
  have h64 : (2 : Nat) ^ 64 =
      2 ^ (8 * (j % 8)) * 2 ^ (64 - 8 * (j % 8)) := by
    have he : 8 * (j % 8) + (64 - 8 * (j % 8)) = 64 := by omega
    rw [← Nat.pow_add, he]
  rw [h64, Nat.mul_assoc]
  rw [Nat.add_mul_div_left _ _ (Nat.two_pow_pos _)]
  have h56 : (2 : Nat) ^ (64 - 8 * (j % 8)) =
      2 ^ 8 * 2 ^ (56 - 8 * (j % 8)) := by
    have he : 8 + (56 - 8 * (j % 8)) = 64 - 8 * (j % 8) := by omega
    rw [← Nat.pow_add, he]
  rw [h56, Nat.mul_assoc]
  rw [Nat.add_mul_mod_self_left]

/-- Claim C10: Byte(i) refuses exactly the negative indices; every
non-negative index at or beyond the bytes covered by the limbs yields 0, and
every non-negative index yields the i-th least significant byte of the
value. -/
theorem claim_C10 (z : SNat) (i : Int) (hwf : wfLimbs z.limbs) :
    (i < 0 → Byte z i = none) ∧
    (∀ j : Nat, i = (j : Int) →
      Byte z i = some (valueOf z.limbs / 2 ^ (8 * j) % 2 ^ 8) ∧
      (z.limbs.length * (_W / 8) ≤ j → Byte z i = some 0)) := by
  constructor
  · intro hneg
    unfold Byte
    rw [if_pos hneg]
  · intro j hij
    subst hij
    have h8 : _W / 8 = 8 := rfl
    have hB : Byte z (j : Int) =
        if z.limbs.length * (_W / 8) ≤ j then some 0
        else some ((z.limbs.getD (j / (_W / 8)) 0 >>>
          (8 * (j % (_W / 8)))) % 2 ^ 8) := by
      unfold Byte
      rw [if_neg (by omega)]
      rfl
    rw [h8] at hB
    by_cases hrange : z.limbs.length * 8 ≤ j
    · have h0 : valueOf z.limbs / 2 ^ (8 * j) = 0 := by
        apply Nat.div_eq_of_lt
        calc valueOf z.limbs < 2 ^ (_W * z.limbs.length) := valueOf_lt hwf
          _ ≤ 2 ^ (8 * j) := by
            apply Nat.pow_le_pow_right (by omega)
            have hW64 : _W = 64 := rfl
            rw [hW64]
            omega
      refine ⟨?_, fun _ => by rw [hB, if_pos hrange]⟩
      rw [hB, if_pos hrange, h0]
      rfl
    · have hlt : j < z.limbs.length * 8 := by omega
      refine ⟨?_, fun hge => absurd (h8 ▸ hge) hrange⟩
      rw [hB, if_neg hrange, byte_extract hwf hlt]

theorem claim_C10_witness :
    wfLimbs (SetUint64 newNat 300).limbs ∧
    (Byte (SetUint64 newNat 300) ((1 : Nat) : Int) =
      some (valueOf (SetUint64 newNat 300).limbs / 2 ^ (8 * 1) % 2 ^ 8) ∧
    ((SetUint64 newNat 300).limbs.length * (_W / 8) ≤ 1 →
      Byte (SetUint64 newNat 300) ((1 : Nat) : Int) = some 0)) :=
  ⟨by decide,
    (claim_C10 (SetUint64 newNat 300) ((1 : Nat) : Int) (by decide)).2 1 rfl⟩

/-! ## Claim C8: the SetBytes/Bytes round trip -/

theorem or_shift {a : Nat} (b n : Nat) (ha : a < 2 ^ n) :
    a ||| (b <<< n) = a + 2 ^ n * b := by
  rw [Nat.shiftLeft_eq, Nat.lor_comm, Nat.mul_comm b (2 ^ n),
    ← Nat.mul_add_lt_is_or ha, Nat.add_comm]

theorem packDigitsLE_cons {w d : Nat} (ds : List Nat) (hd : d < 2 ^ w) :
    packDigitsLE w (d :: ds) = d + 2 ^ w * packDigitsLE w ds := by
  show d ||| (packDigitsLE w ds <<< w) = _
  rw [or_shift _ _ hd]

theorem packDigitsLE_byte {g : List Nat} (hg : ∀ b ∈ g, b < 2 ^ 8) :
    ∀ j : Nat, (packDigitsLE 8 g >>> (8 * j)) % 2 ^ 8 = g.getD j 0 := by
  induction g with
  | nil =>
    intro j
    simp [packDigitsLE]
  | cons d ds ih =>
    intro j
    have hd : d < 2 ^ 8 := hg d (List.mem_cons_self d ds)
    have hds : ∀ b ∈ ds, b < 2 ^ 8 := fun b hb => hg b (List.mem_cons_of_mem d hb)
    rw [packDigitsLE_cons ds hd]
    cases j with
    | zero =>
      rw [Nat.mul_zero, Nat.shiftRight_zero, Nat.add_mul_mod_self_left,
        Nat.mod_eq_of_lt hd]
      rfl
    | succ k =>
      have hsh : 8 * (k + 1) = 8 + 8 * k := by omega
      rw [Nat.shiftRight_eq_div_pow, hsh, Nat.pow_add,
        ← Nat.div_div_eq_div_mul,
        Nat.add_mul_div_left _ _ (Nat.two_pow_pos 8),
        Nat.div_eq_of_lt hd, Nat.zero_add,
        ← Nat.shiftRight_eq_div_pow]
      exact ih hds k

theorem getD_range_map {g : List Nat} :
    ∀ n : Nat, g.length ≤ n →
      (List.range n).map (fun j => g.getD j 0) =
        g ++ List.replicate (n - g.length) 0 := by
  induction g with
  | nil =>
    intro n _
    simp only [List.nil_append, List.length_nil, Nat.sub_zero]
    induction n with
    | zero => rfl
    | succ m ihm =>
      rw [List.range_succ, List.map_append, ihm (Nat.zero_le m),
        List.replicate_succ']
      rfl
  | cons d ds ih =>
    intro n hn
    cases n with
    | zero => simp at hn
    | succ m =>
      rw [List.range_succ_eq_map, List.map_cons, List.map_map]
      have hfun : ((fun j => (d :: ds).getD j 0) ∘ Nat.succ) =
          (fun j => ds.getD j 0) := by
        funext j
        rfl
      have hm : ds.length ≤ m := by
        rw [List.length_cons] at hn
        omega
      have harith : m + 1 - (d :: ds).length = m - ds.length := by
        rw [List.length_cons]
        omega
      rw [hfun, ih m hm, List.cons_append, harith]
      rfl

theorem wordDigitsLE_pack {g : List Nat} (hlen : g.length ≤ 8)
    (hg : ∀ b ∈ g, b < 2 ^ 8) :
    wordDigitsLE 8 (packDigitsLE 8 g) =
      g ++ List.replicate (8 - g.length) 0 := by
  unfold wordDigitsLE
  have h8 : _W / 8 = 8 := rfl
  rw [h8]
  have hmap : (List.range 8).map
      (fun j => (packDigitsLE 8 g >>> (8 * j)) % 2 ^ 8) =
      (List.range 8).map (fun j => g.getD j 0) :=
    List.map_congr_left (fun j _ => packDigitsLE_byte hg j)
  rw [hmap, getD_range_map 8 hlen]

theorem bytesLE_limbsFromDigitsAux :
    ∀ (fuel : Nat) (ds Z : List Nat), (∀ b ∈ ds, b < 2 ^ 8) →
      ds.length ≤ fuel →
      (bytesLE (limbsFromDigitsAux 8 8 fuel ds) ++ Z).take ds.length = ds := by
  intro fuel
  induction fuel with
  | zero =>
    intro ds Z _ hlen
    have hnil : ds = [] := List.eq_nil_of_length_eq_zero (by omega)
    subst hnil
    rfl
  | succ f ih =>
    intro ds Z hds hlen
    cases ds with
    | nil => rfl
    | cons d ds0 =>
      show ((wordDigitsLE 8 (packDigitsLE 8 ((d :: ds0).take 8)) ++
        bytesLE (limbsFromDigitsAux 8 8 f ((d :: ds0).drop 8))) ++ Z).take
          (d :: ds0).length = d :: ds0
      have htg : ∀ b ∈ (d :: ds0).take 8, b < 2 ^ 8 :=
        fun b hb => hds b (List.mem_of_mem_take hb)
      have htl : ((d :: ds0).take 8).length ≤ 8 := by
        rw [List.length_take]
        omega
      rw [wordDigitsLE_pack htl htg]
      by_cases hle : (d :: ds0).length ≤ 8
      · have htake : (d :: ds0).take 8 = d :: ds0 := List.take_of_length_le hle
        have hdrop : (d :: ds0).drop 8 = [] := List.drop_eq_nil_of_le hle
        rw [htake, hdrop]
        have haux : bytesLE (limbsFromDigitsAux 8 8 f []) = [] := by
          cases f <;> rfl
        rw [haux, List.append_nil, List.append_assoc]
        exact List.take_left' rfl
      · have h8lt : 8 < (d :: ds0).length := by omega
        have htl8 : ((d :: ds0).take 8).length = 8 := by
          rw [List.length_take]
          omega
        rw [htl8, Nat.sub_self, List.replicate_zero, List.append_nil]
        rw [List.append_assoc, List.take_append_eq_append_take]
        rw [List.take_of_length_le (by rw [htl8]; omega :
          ((d :: ds0).take 8).length ≤ (d :: ds0).length)]
        rw [htl8]
        have hdl : ((d :: ds0).drop 8).length = (d :: ds0).length - 8 := by
          rw [List.length_drop]
        rw [← hdl]
        rw [ih ((d :: ds0).drop 8) Z
          (fun b hb => hds b (List.mem_of_mem_drop hb))
          (by rw [List.length_drop]; omega)]
        exact List.take_append_drop 8 (d :: ds0)

/-- Claim C8: for every byte buffer whose entries are bytes, SetBytes
followed by Bytes returns the buffer exactly, leading zero bytes included,
because SetBytes announces 8 bits per input byte and Bytes emits exactly the
announced width. -/
theorem claim_C8 (z : SNat) (buf : List Nat) (hbuf : ∀ b ∈ buf, b < 2 ^ 8) :
    (SetBytes z buf).announced = 8 * buf.length ∧
    Bytes (SetBytes z buf) = buf := by
  refine ⟨rfl, ?_⟩
  have hlen8 : (8 * buf.length + 7) / 8 = buf.length := by omega
  have hrev : buf.reverse.length = buf.length := List.length_reverse buf
  have hdef : limbsFromDigits 8 _S buf.reverse =
      limbsFromDigitsAux 8 8 buf.reverse.length buf.reverse := rfl
  have h := bytesLE_limbsFromDigitsAux buf.reverse.length buf.reverse
    (List.replicate buf.reverse.length 0)
    (fun b hb => hbuf b (List.mem_reverse.mp hb)) (le_refl _)
  unfold Bytes FillBytes
  dsimp only [SetBytes]
  rw [List.length_replicate]
  rw [hlen8]
  rw [← hrev]
  rw [hdef]
  rw [h]
  exact List.reverse_reverse buf

theorem claim_C8_witness :
    (∀ b ∈ ([1, 2, 255] : List Nat), b < 2 ^ 8) ∧
    ((SetBytes newNat [1, 2, 255]).announced =
      8 * ([1, 2, 255] : List Nat).length ∧
    Bytes (SetBytes newNat [1, 2, 255]) = [1, 2, 255]) :=
  ⟨by decide, claim_C8 newNat [1, 2, 255] (by decide)⟩

end Saferith
